import Mathlib

/-!
# pptx2md: a shallow embedding of the parser and the Markdown renderer

The definitions below follow `internal/pptx2md/parser.go` and
`internal/pptx2md/converter.go` function by function.

Conventions of the embedding:

* a Go `string` (and a `[]byte`) is a list of characters; the separators the
  code looks for (`/`, `.`, `_`, newline) are ASCII, so the character view and
  the byte view agree on them, and lexical comparison by code point agrees with
  Go's byte-wise comparison on UTF-8 text;
* a Go `map[string]T` is a function `Str → Option T`;
* a Go pointer field that may be `nil` is an `Option`;
* `for ... range` loops are left folds, loops with an early `return` are
  recursive functions;
* the archive is the list `zr.File`; an entry carries its name and, when it can
  be opened and read, its content;
* `xml.Unmarshal` is a parameter (`XmlDecoder`): the code only depends on which
  structure a part decodes to;
* `path` and `path/filepath` are the Go standard library functions, embedded
  from their algorithms with `/` as the separator.
-/

namespace Pptx2md

/-! ## Strings -/

/-- Go `string`, as a sequence of characters. -/
abbrev Str := List Char

/-- Go `[]byte` content of an archive entry. -/
abbrev Bytes := List Char

/-- Go `map[string]T`. -/
abbrev GoMap (α : Type) := Str → Option α

/-- The value of `make(map[string]T)`. -/
def GoMap.empty {α : Type} : GoMap α := fun _ => none

/-- The assignment `m[k] = v`. -/
def GoMap.set {α : Type} (m : GoMap α) (k : Str) (v : α) : GoMap α :=
  fun k2 => if k2 = k then some v else m k2

/-- Go `strings.HasPrefix`. -/
def hasPfx (s p : Str) : Bool := p.isPrefixOf s

/-- Go `strings.HasSuffix`. -/
def hasSfx (s p : Str) : Bool := p.isSuffixOf s

/-- Go `strings.Contains`. -/
def strContains (s sub : Str) : Bool := s.tails.any (fun t => sub.isPrefixOf t)

/-- Go `strings.TrimPrefix`. -/
def trimPfx (s p : Str) : Str := if hasPfx s p then s.drop p.length else s

/-- Go `strings.TrimSuffix`. -/
def trimSfx (s p : Str) : Str := if hasSfx s p then s.take (s.length - p.length) else s

/-- Go `strings.TrimRight(s, cutset)`: drops every trailing character that is in `cutset`. -/
def trimRight (s cutset : Str) : Str :=
  (s.reverse.dropWhile (fun c => cutset.contains c)).reverse

/-- Go `strings.Join(elems, sep)`. -/
def stringsJoin : List Str → Str → Str
  | [], _ => []
  | [a], _ => a
  | a :: b :: rest, sep => a ++ sep ++ stringsJoin (b :: rest) sep

/-- Go `fmt.Sprintf("%d", n)` for an `int`. The counters formatted by the code are
positions in slices, far below the 64-bit range, so no wrap-around is modelled. -/
def fmtInt (n : Int) : Str :=
  if n < 0 then '-' :: Nat.toDigits 10 n.natAbs else Nat.toDigits 10 n.toNat

/-- Go `s < t` on strings (lexical, element by element). -/
def strLess : Str → Str → Bool
  | [], [] => false
  | [], _ :: _ => true
  | _ :: _, [] => false
  | a :: s, b :: t =>
    if a.toNat < b.toNat then true
    else if b.toNat < a.toNat then false
    else strLess s t

/-- Go `s <= t` on strings. -/
def strLE (s t : Str) : Prop := strLess t s = false

instance strLE_decidable : DecidableRel strLE := fun s t =>
  inferInstanceAs (Decidable (strLess t s = false))

/-- Go `sort.Strings`: the result is the ascending rearrangement of the input; on a
total order with equal elements indistinguishable this does not depend on the
sorting algorithm, so insertion sort stands for the library routine. -/
def sortStrings (l : List Str) : List Str := l.insertionSort strLE

/-! ## `path` and `path/filepath` -/

/-- Go `path.Base` (and `filepath.Base` where the separator is `/`): strip trailing
slashes, keep what follows the last slash; `"."` for the empty path and `"/"` for a
path of slashes only. -/
def pathBase (p : Str) : Str :=
  if p = [] then ['.'] else
  let p1 := (p.reverse.dropWhile (fun c => c = '/')).reverse
  let p2 := (p1.reverse.takeWhile (fun c => c ≠ '/')).reverse
  if p2 = [] then ['/'] else p2

/-- Go `filepath.Base` with `/` as the path separator. -/
def filepathBase (p : Str) : Str := pathBase p

/-- The loop of Go `filepath.Ext`, walking from the end of the path: `acc` is the part
already walked over. -/
def extScan : List Char → List Char → Str
  | [], _ => []
  | c :: cs, acc =>
    if c = '/' then [] else if c = '.' then '.' :: acc else extScan cs (c :: acc)

/-- Go `filepath.Ext`: the suffix starting at the last dot of the last path element,
or `""` when there is none. -/
def filepathExt (p : Str) : Str := extScan p.reverse []

/-- The inner loop of the `..` case of Go `path.Clean`, started after the first
`out.w--`: `for out.w > dotdot && out.index(out.w) != '/' { out.w-- }`. -/
def backtrack (buf : List Char) (dotdot : Nat) : Nat → Nat
  | 0 => 0
  | w + 1 =>
    if w + 1 > dotdot ∧ buf.getD (w + 1) '/' ≠ '/' then backtrack buf dotdot w else w + 1

/-- The main loop of Go `path.Clean`. `rest` is `path[r:]`, `out` is the written part
of the output buffer (`out.w = out.length`), and `fuel` bounds the number of
iterations (each one consumes at least one character of `rest`). -/
def cleanLoop (rooted : Bool) : Nat → List Char → List Char → Nat → List Char
  | 0, _, out, _ => out
  | _ + 1, [], out, _ => out
  | fuel + 1, c :: tl, out, dotdot =>
    if c = '/' then
      -- empty path element
      cleanLoop rooted fuel tl out dotdot
    else if c = '.' ∧ (tl = [] ∨ tl.head? = some '/') then
      -- . element
      cleanLoop rooted fuel tl out dotdot
    else if c = '.' ∧ tl.head? = some '.' ∧ (tl.tail = [] ∨ tl.tail.head? = some '/') then
      -- .. element: remove to last /
      if out.length > dotdot then
        cleanLoop rooted fuel tl.tail (out.take (backtrack out dotdot (out.length - 1))) dotdot
      else if rooted = false then
        -- cannot backtrack, but not rooted, so append .. element
        let out1 := if out.length > 0 then out ++ ['/'] else out
        let out2 := out1 ++ ['.', '.']
        cleanLoop rooted fuel tl.tail out2 out2.length
      else
        cleanLoop rooted fuel tl.tail out dotdot
    else
      -- real path element: add slash if needed, copy element
      let out1 :=
        if (rooted = true ∧ out.length ≠ 1) ∨ (rooted = false ∧ out.length ≠ 0)
        then out ++ ['/'] else out
      cleanLoop rooted fuel ((c :: tl).dropWhile (fun x => x ≠ '/'))
        (out1 ++ (c :: tl).takeWhile (fun x => x ≠ '/')) dotdot

/-- Go `path.Clean`. -/
def pathClean (path : Str) : Str :=
  if path = [] then ['.'] else
  let rooted : Bool := path.head? = some '/'
  let out :=
    if rooted then cleanLoop true path.length path.tail ['/'] 1
    else cleanLoop false path.length path [] 0
  if out.length = 0 then ['.'] else out

/-- Go `path.Dir`: `Clean` of the path up to and including its last slash. -/
def pathDir (p : Str) : Str :=
  pathClean (p.reverse.dropWhile (fun c => c ≠ '/')).reverse

/-- The function `resolveRelPath` of parser.go. -/
def resolveRelPath (base target : Str) : Str :=
  if hasPfx target ['/'] then trimPfx target ['/']
  else
    -- Handle "../media/image1.png" style paths
    let combined := base ++ ['/'] ++ target
    pathClean combined

/-- The function `slideRelsPath` of parser.go. -/
def slideRelsPath (slidePath : Str) : Str :=
  let dir := pathDir slidePath
  let base := pathBase slidePath
  dir ++ "/_rels/".toList ++ base ++ ".rels".toList

/-! ## Data model (parser.go) -/

/-- The struct `ImageRef`: links an image to its media path inside the ZIP. -/
structure ImageRef where
  RelID : Str
  MediaPath : Str
  deriving DecidableEq

/-- The struct `Slide`: a single parsed slide. -/
structure Slide where
  Index : Int
  Title : Str
  Bodies : List Str
  Images : List ImageRef
  deriving DecidableEq

/-- One entry of `zr.File`: its name and, when `f.Open` and `io.ReadAll` succeed, its
content (`none` when either fails). -/
structure ZipFile where
  Name : Str
  content : Option Bytes
  deriving DecidableEq

/-- The opened archive `*zip.ReadCloser`, as its entry list `zr.File`. -/
abbrev ZipReader := List ZipFile

/-- The struct `Presentation`: the parsed slides and the archive handle. -/
structure Presentation where
  Slides : List Slide
  zip : ZipReader
  deriving DecidableEq

/-- The errors of the package; `wrap msg e` is `fmt.Errorf(msg + ": %w", e)`. -/
inductive Err where
  | notInZip (name : Str)
  | readFailed (name : Str)
  | badXml
  | mediaNotFound (mediaPath : Str)
  | wrap (msg : Str) (inner : Err)
  deriving DecidableEq

/-! ### XML structures -/

structure xmlSlideId where
  RID : Str
  deriving DecidableEq

structure xmlSlideIdList where
  SlideIds : List xmlSlideId
  deriving DecidableEq

structure xmlPresentation where
  SlideIdList : xmlSlideIdList
  deriving DecidableEq

structure xmlRun where
  Text : Str
  deriving DecidableEq

structure xmlParagraph where
  Runs : List xmlRun
  deriving DecidableEq

structure xmlTxBody where
  Paragraphs : List xmlParagraph
  deriving DecidableEq

/-- The struct `xmlPh`; the field is `Type` in the source. -/
structure xmlPh where
  Typ : Str
  deriving DecidableEq

structure xmlNvPr where
  Ph : Option xmlPh
  deriving DecidableEq

structure xmlNvSpPr where
  NvPr : Option xmlNvPr
  deriving DecidableEq

structure xmlShape where
  NvSpPr : Option xmlNvSpPr
  TxBody : Option xmlTxBody
  deriving DecidableEq

structure xmlBlip where
  Embed : Str
  deriving DecidableEq

structure xmlBlipFill where
  Blip : Option xmlBlip
  deriving DecidableEq

structure xmlPicture where
  BlipFill : Option xmlBlipFill
  deriving DecidableEq

structure xmlGroupShape where
  Shapes : List xmlShape
  Pictures : List xmlPicture
  deriving DecidableEq

structure xmlSpTree where
  Shapes : List xmlShape
  Pictures : List xmlPicture
  GroupShapes : List xmlGroupShape
  deriving DecidableEq

structure xmlCSld where
  SpTree : xmlSpTree
  deriving DecidableEq

structure xmlSlide where
  CSld : xmlCSld
  deriving DecidableEq

/-- The struct `xmlRelationship`; the field `Type` of the source is never read. -/
structure xmlRelationship where
  ID : Str
  Target : Str
  deriving DecidableEq

structure xmlRelationships where
  Relationships : List xmlRelationship
  deriving DecidableEq

/-- The three uses of `xml.Unmarshal`: each maps the bytes of a part to the decoded
structure, or to `none` when decoding fails. -/
structure XmlDecoder where
  rels : Bytes → Option xmlRelationships
  presentation : Bytes → Option xmlPresentation
  slide : Bytes → Option xmlSlide

/-! ## The parser (parser.go) -/

/-- The function `readZipFile`: the content of the first entry named `name`. -/
def readZipFile (zr : ZipReader) (name : Str) : Except Err Bytes :=
  match zr.find? (fun f => f.Name = name) with
  | some f =>
    match f.content with
    | some data => .ok data
    | none => .error (.readFailed name)
  | none => .error (.notInZip name)

/-- The method `Presentation.ReadMedia`. -/
def Presentation.ReadMedia (p : Presentation) (mediaPath : Str) : Except Err Bytes :=
  match p.zip.find? (fun f => f.Name = mediaPath) with
  | some f =>
    match f.content with
    | some data => .ok data
    | none => .error (.readFailed mediaPath)
  | none => .error (.mediaNotFound mediaPath)

/-- The function `parseRels`. -/
def parseRels (dec : XmlDecoder) (zr : ZipReader) (relsPath : Str) :
    Except Err (GoMap Str) :=
  match readZipFile zr relsPath with
  | .error e => .error e
  | .ok data =>
    match dec.rels data with
    | none => .error .badXml
    | some rels =>
      .ok (rels.Relationships.foldl (fun m r => m.set r.ID r.Target) GoMap.empty)

/-- The function `scanSlideFiles`. -/
def scanSlideFiles (zr : ZipReader) : List Str :=
  let slides := zr.foldl (fun slides f =>
    if hasPfx f.Name "ppt/slides/slide".toList && hasSfx f.Name ".xml".toList then
      if !strContains f.Name "_rels".toList then slides ++ [f.Name] else slides
    else slides) []
  sortStrings slides

/-- The function `getSlideOrder`. -/
def getSlideOrder (dec : XmlDecoder) (zr : ZipReader) : Except Err (List Str) :=
  match parseRels dec zr "ppt/_rels/presentation.xml.rels".toList with
  | .error e => .error (.wrap "failed to read presentation rels".toList e)
  | .ok presRels =>
    match readZipFile zr "ppt/presentation.xml".toList with
    | .error e => .error (.wrap "failed to read presentation.xml".toList e)
    | .ok presXML =>
      match dec.presentation presXML with
      | none => .error (.wrap "failed to parse presentation.xml".toList .badXml)
      | some pres =>
        let slides := pres.SlideIdList.SlideIds.foldl (fun slides sid =>
          match presRels sid.RID with
          | none => slides
          | some relTarget =>
            -- Resolve relative path: targets are relative to ppt/
            let slidePath := resolveRelPath "ppt".toList relTarget
            slides ++ [slidePath]) []
        if slides.length = 0 then
          -- Fallback: scan for slide files directly
          .ok (scanSlideFiles zr)
        else .ok slides

/-- The function `isPlaceholderTitle`. -/
def isPlaceholderTitle (sp : xmlShape) : Bool :=
  match sp.NvSpPr with
  | none => false
  | some nvSpPr =>
    match nvSpPr.NvPr with
    | none => false
    | some nvPr =>
      match nvPr.Ph with
      | none => false
      | some ph => ph.Typ = "title".toList || ph.Typ = "ctrTitle".toList

/-- The function `paragraphText`: `strings.Join(parts, "")` of the non-empty run texts. -/
def paragraphText (para : xmlParagraph) : Str :=
  let parts := para.Runs.foldl (fun parts run =>
    if run.Text ≠ [] then parts ++ [run.Text] else parts) []
  stringsJoin parts []

/-- The function `extractShapeText`. -/
def extractShapeText (sp : xmlShape) (slide : Slide) : Slide :=
  match sp.TxBody with
  | none => slide
  | some txBody =>
    let isTitle := isPlaceholderTitle sp
    txBody.Paragraphs.foldl (fun slide para =>
      let text := paragraphText para
      if text = [] then slide
      else if isTitle = true ∧ slide.Title = [] then { slide with Title := text }
      else { slide with Bodies := slide.Bodies ++ [text] }) slide

/-- The function `extractPicture`. -/
def extractPicture (pic : xmlPicture) (slide : Slide) (rels : GoMap Str) : Slide :=
  match pic.BlipFill with
  | none => slide
  | some blipFill =>
    match blipFill.Blip with
    | none => slide
    | some blip =>
      let rID := blip.Embed
      if rID = [] then slide
      else
        let ref : ImageRef :=
          match rels rID with
          | some target => ⟨rID, resolveRelPath "ppt/slides".toList target⟩
          | none => ⟨rID, []⟩
        { slide with Images := slide.Images ++ [ref] }

/-- The part of `parseSlide` after the slide XML and its relationships are decoded
(from the creation of the slide record to `return slide, nil`). -/
def walkSlide (sld : xmlSlide) (slideRels : GoMap Str) (index : Int) : Slide :=
  let slide : Slide := ⟨index, [], [], []⟩
  -- Extract shapes (text + images)
  let slide := sld.CSld.SpTree.Shapes.foldl (fun slide sp => extractShapeText sp slide) slide
  -- Extract grouped shapes
  let slide := sld.CSld.SpTree.GroupShapes.foldl (fun slide grp =>
    let slide := grp.Shapes.foldl (fun slide sp => extractShapeText sp slide) slide
    grp.Pictures.foldl (fun slide pic => extractPicture pic slide slideRels) slide) slide
  -- Extract pictures
  sld.CSld.SpTree.Pictures.foldl (fun slide pic => extractPicture pic slide slideRels) slide

/-- The function `parseSlide`. The error of `parseRels` is discarded by the source
(`slideRels, _ := parseRels(...)`), which leaves a nil map: every lookup fails. -/
def parseSlide (dec : XmlDecoder) (zr : ZipReader) (slidePath : Str) (index : Int) :
    Except Err Slide :=
  match readZipFile zr slidePath with
  | .error e => .error e
  | .ok data =>
    match dec.slide data with
    | none => .error (.wrap "failed to parse slide XML".toList .badXml)
    | some sld =>
      -- Parse rels for this slide
      let relsPath := slideRelsPath slidePath
      let slideRels : GoMap Str :=
        match parseRels dec zr relsPath with
        | .ok m => m
        | .error _ => GoMap.empty
      .ok (walkSlide sld slideRels index)

/-- The loop `for i, slidePath := range slideOrder` of `Parse`; `i` is the index of the
first remaining path and `acc` is `pres.Slides` so far. -/
def parseSlides (dec : XmlDecoder) (zr : ZipReader) : Nat → List Str → List Slide →
    Except Err (List Slide)
  | _, [], acc => .ok acc
  | i, slidePath :: rest, acc =>
    match parseSlide dec zr slidePath (i + 1) with
    | .error e => .error (.wrap ("failed to parse ".toList ++ slidePath) e)
    | .ok slide => parseSlides dec zr (i + 1) rest (acc ++ [slide])

/-- The function `Parse`, from the point where `zip.OpenReader` has returned the
archive `zr`. -/
def Parse (dec : XmlDecoder) (zr : ZipReader) : Except Err Presentation :=
  match getSlideOrder dec zr with
  | .error e => .error e
  | .ok slideOrder =>
    match parseSlides dec zr 0 slideOrder [] with
    | .error e => .error e
    | .ok slides => .ok ⟨slides, zr⟩

/-! ## The converter (converter.go) -/

/-- The local struct `imageExport` of `Convert`. -/
structure imageExport where
  mediaPath : Str
  fileName : Str
  deriving DecidableEq

/-- The block "Handle duplicate filenames", which `Convert` (lines 52-61) and
`buildMarkdown` (lines 119-127) contain verbatim: from the counter map and a media path
it yields the updated counter map and the export file name. -/
def dedupName (imageNames : GoMap Int) (mediaPath : Str) : GoMap Int × Str :=
  let fileName := filepathBase mediaPath
  match imageNames fileName with
  | some count =>
    let ext := filepathExt fileName
    let name := trimSfx fileName ext
    (imageNames.set (filepathBase mediaPath) (count + 1),
      name ++ ['_'] ++ fmtInt (count + 1) ++ ext)
  | none => (imageNames.set fileName 1, fileName)

/-- The body of the inner loop of `Convert` that collects the images to export. -/
def collectStep (st : GoMap Int × List imageExport) (img : ImageRef) :
    GoMap Int × List imageExport :=
  if img.MediaPath = [] then st
  else
    let r := dedupName st.1 img.MediaPath
    (r.1, st.2 ++ [⟨img.MediaPath, r.2⟩])

/-- The slice `images` of `Convert` after the collecting loops (lines 44-67): what the
export loop then reads and writes, in order. -/
def collectImages (slides : List Slide) : List imageExport :=
  (slides.foldl (fun st slide => slide.Images.foldl collectStep st) (GoMap.empty, [])).2

/-- The body of the inner loop of `buildMarkdown` that fills `imageFileMap` and
`imageNames`. -/
def fileMapStep (st : GoMap Str × GoMap Int) (img : ImageRef) : GoMap Str × GoMap Int :=
  if img.MediaPath = [] then st
  else if (st.1 img.MediaPath).isSome then st
  else
    let r := dedupName st.2 img.MediaPath
    (st.1.set img.MediaPath r.2, r.1)

/-- The map `imageFileMap` of `buildMarkdown` after its first loops (lines 109-130). -/
def buildImageFileMap (slides : List Slide) : GoMap Str :=
  (slides.foldl (fun st slide => slide.Images.foldl fileMapStep st)
    (GoMap.empty, GoMap.empty)).1

/-- The file name `buildMarkdown` reads for a media path: `imageFileMap[img.MediaPath]`,
the empty string for a missing key. -/
def linkName (imageFileMap : GoMap Str) (mediaPath : Str) : Str :=
  (imageFileMap mediaPath).getD []

/-- What `buildMarkdown` appends to the builder for one slide at position `i`. -/
def renderSlide (imageFileMap : GoMap Str) (imageDir : Str) (i : Nat) (slide : Slide)
    (sb : Str) : Str :=
  let sb := if i > 0 then sb ++ "\n---\n\n".toList else sb
  -- Slide heading
  let sb :=
    if slide.Title ≠ [] then sb ++ ("## ".toList ++ slide.Title ++ "\n\n".toList)
    else sb ++ ("## Slide ".toList ++ fmtInt slide.Index ++ "\n\n".toList)
  -- Body text
  let sb := slide.Bodies.foldl (fun sb body => sb ++ (body ++ "\n\n".toList)) sb
  -- Images
  slide.Images.foldl (fun sb img =>
    if img.MediaPath = [] then sb
    else
      let fileName := linkName imageFileMap img.MediaPath
      -- Use forward slash for markdown compatibility
      let imgPath := imageDir ++ "/".toList ++ fileName
      sb ++ ("![".toList ++ fileName ++ "](./".toList ++ imgPath ++ ")\n\n".toList)) sb

/-- The loop `for i, slide := range pres.Slides` of `buildMarkdown`, from index `i`. -/
def renderSlides (imageFileMap : GoMap Str) (imageDir : Str) : Nat → List Slide → Str → Str
  | _, [], sb => sb
  | i, slide :: rest, sb =>
    renderSlides imageFileMap imageDir (i + 1) rest
      (renderSlide imageFileMap imageDir i slide sb)

/-- The function `buildMarkdown`. -/
def buildMarkdown (pres : Presentation) (imageDir : Str) : Str :=
  let imageFileMap := buildImageFileMap pres.Slides
  let sb := renderSlides imageFileMap imageDir 0 pres.Slides []
  trimRight sb "\n".toList ++ "\n".toList

/-- The file names of the image links `buildMarkdown` emits, in document order: for
every reference with a non-empty media path, `imageFileMap[img.MediaPath]`. -/
def linkNames (slides : List Slide) : List Str :=
  (slides.flatMap (fun slide => slide.Images)).filterMap (fun img =>
    if img.MediaPath = [] then none
    else some (linkName (buildImageFileMap slides) img.MediaPath))

/-- The export file name of the `k`-th reference (counted from 1) among references with
pairwise distinct media paths that share the base name `b`, as the code assigns it. -/
def nthName (b : Str) (k : Nat) : Str :=
  if k = 1 then b
  else trimSfx b (filepathExt b) ++ ['_'] ++ fmtInt (k : Int) ++ filepathExt b

/-- The export file name of the `k`-th such reference as the specification words it:
the base name first, then `_<k-1>` inserted before the extension. -/
def specNthName (b : Str) (k : Nat) : Str :=
  if k = 1 then b
  else trimSfx b (filepathExt b) ++ ['_'] ++ fmtInt ((k : Int) - 1) ++ filepathExt b

/-- All image references of a presentation, in slide order and then image order. -/
def allRefs (slides : List Slide) : List ImageRef :=
  slides.flatMap (fun slide => slide.Images)

/-- The counter that `imageNames` holds for a base name seen `c` times. -/
def seenCount (c : Nat) : Option Int := if c = 0 then none else some (c : Int)

/-! ## Path normalisation as the specification words it -/

/-- The segments of a path: the pieces between slashes (Go `strings.Split(p, "/")`). -/
def splitSlash : Str → List Str
  | [] => [[]]
  | c :: cs =>
    if c = '/' then [] :: splitSlash cs
    else
      match splitSlash cs with
      | [] => [[c]]
      | seg :: segs => (c :: seg) :: segs

/-- The directory reached while reading the segments of a path: `ups` counts the `..`
segments that had no directory left to ascend from (relative paths only), `names` are
the directories entered and not left again, innermost first. -/
structure NormState where
  ups : Nat
  names : List Str

/-- Reading one segment: an empty segment and `.` change nothing; `..` ascends one
directory (leaving the innermost name; with none left, a relative path records one more
leading `..` and a rooted path stays at the root); any other segment is entered. -/
def normStep (rooted : Bool) (st : NormState) (seg : Str) : NormState :=
  if seg = [] ∨ seg = ['.'] then st
  else if seg = ['.', '.'] then
    match st.names with
    | _ :: ns => ⟨st.ups, ns⟩
    | [] => if rooted then st else ⟨st.ups + 1, []⟩
  else ⟨st.ups, seg :: st.names⟩

/-- The leading `..` elements of a normalised relative path. -/
def upElems (rooted : Bool) (ups : Nat) : List Str :=
  if rooted then [] else List.replicate ups ['.', '.']

/-- The elements of the normalised path, outermost first. -/
def elemsOf (rooted : Bool) (st : NormState) : List Str :=
  upElems rooted st.ups ++ st.names.reverse

/-- The normalised path as text: the elements joined by `/`, after a `/` when the path
is rooted; `.` when a relative path has no element left. -/
def normRender (rooted : Bool) (st : NormState) : Str :=
  if rooted then '/' :: stringsJoin (elemsOf rooted st) ['/']
  else if elemsOf rooted st = [] then ['.']
  else stringsJoin (elemsOf rooted st) ['/']

/-- The normalised form of a path: its segments read from left to right, each `..`
ascending one directory, `.` and empty segments vanishing. -/
def normalise (p : Str) : Str :=
  let rooted : Bool := p.head? = some '/'
  normRender rooted ((splitSlash p).foldl (normStep rooted) ⟨0, []⟩)

/-- The output buffer of `path.Clean` that corresponds to a state of the normalisation. -/
def bufOf (rooted : Bool) (st : NormState) : Str :=
  (if rooted then ['/'] else []) ++ stringsJoin (elemsOf rooted st) ['/']

/-- The value of `dotdot` in `path.Clean` that corresponds to a state of the
normalisation: the length of the part of the buffer that cannot be backtracked over. -/
def ddOf (rooted : Bool) (st : NormState) : Nat :=
  ((if rooted then ['/'] else []) ++ stringsJoin (upElems rooted st.ups) ['/']).length

/-- Every entered directory name is a real path element: not empty and free of `/`. -/
def properNames (names : List Str) : Prop := ∀ n ∈ names, n ≠ [] ∧ '/' ∉ n

/-! ## Example inputs -/

/-- The presentation of the deduplication scenario: three references with distinct
media paths and the base name `img.png`. -/
def threeImages : List Slide :=
  [⟨1, [], [], [⟨"rId1".toList, "ppt/media/a/img.png".toList⟩,
                ⟨"rId2".toList, "ppt/media/b/img.png".toList⟩]⟩,
   ⟨2, [], [], [⟨"rId1".toList, "ppt/media/c/img.png".toList⟩]⟩]

/-- A slide whose second reference repeats the media path of the first, followed by a
reference to another file with the same base name. -/
def repeatedThenOther : List Slide :=
  [⟨1, "A".toList, [], [⟨"rId1".toList, "ppt/media/x/img.png".toList⟩,
                         ⟨"rId2".toList, "ppt/media/x/img.png".toList⟩,
                         ⟨"rId3".toList, "ppt/media/y/img.png".toList⟩]⟩]

/-- The deduplication scenario continued: a fourth reference points at the media path
of the second. -/
def fourthRepeatsSecond : List Slide :=
  [⟨1, [], [], [⟨"rId1".toList, "ppt/media/a/img.png".toList⟩,
                ⟨"rId2".toList, "ppt/media/b/img.png".toList⟩]⟩,
   ⟨2, [], [], [⟨"rId1".toList, "ppt/media/c/img.png".toList⟩,
                ⟨"rId2".toList, "ppt/media/b/img.png".toList⟩]⟩]

/-- The two-slide presentation of the Markdown-shape scenario: titles `A` and `B`, no
bodies, no images. -/
def titlesAB : Presentation :=
  ⟨[⟨1, "A".toList, [], []⟩, ⟨2, "B".toList, [], []⟩], []⟩

/-- A one-slide presentation whose title ends in a line break. -/
def titleWithNewline : Presentation :=
  ⟨[⟨1, "A\n".toList, [], []⟩], []⟩

/-- The heading line of a titled slide, without its line break. -/
def titleHeading (slide : Slide) : Str := "## ".toList ++ slide.Title

/-- The slide path that `getSlideOrder` computes for a slide-ID whose relationship-ID is
a key of the presentation-level relationship map. -/
def slidePathOf (presRels : GoMap Str) (sid : xmlSlideId) : Str :=
  resolveRelPath "ppt".toList ((presRels sid.RID).getD [])

/-- A shape with a placeholder of the given type and the given paragraphs, each of one
run. -/
def placeholderShape (typ : Str) (paragraphs : List Str) : xmlShape :=
  ⟨some ⟨some ⟨some ⟨typ⟩⟩⟩, some ⟨paragraphs.map (fun t => ⟨[⟨t⟩]⟩)⟩⟩

/-- A picture whose blip embeds the given relationship-ID. -/
def pictureOf (rID : Str) : xmlPicture := ⟨some ⟨some ⟨rID⟩⟩⟩

/-- The text of a relationships part without relationships. -/
def relsNoneXml : Bytes := "<Relationships/>".toList

/-- The text of presentation-level relationships for two slides. -/
def relsTwoSlidesXml : Bytes :=
  ("<Relationships><Relationship Id='rId1' Target='slides/slide1.xml'/>"
    ++ "<Relationship Id='rId2' Target='slides/slide2.xml'/></Relationships>").toList

/-- The text of presentation-level relationships for one slide in `ppt/deck`. -/
def relsDeckXml : Bytes :=
  "<Relationships><Relationship Id='rId1' Target='deck/s1.xml'/></Relationships>".toList

/-- The text of slide-level relationships with one image target relative to the slide. -/
def relsImageXml : Bytes :=
  "<Relationships><Relationship Id='rId1' Target='img/a.png'/></Relationships>".toList

/-- The text of a presentation part with an empty slide-ID list. -/
def presNoneXml : Bytes := "<presentation><sldIdLst/></presentation>".toList

/-- The text of a presentation part with one slide-ID. -/
def presOneXml : Bytes :=
  "<presentation><sldIdLst><sldId id='rId1'/></sldIdLst></presentation>".toList

/-- The text of a presentation part with two slide-IDs. -/
def presTwoXml : Bytes :=
  "<presentation><sldIdLst><sldId id='rId1'/><sldId id='rId2'/></sldIdLst></presentation>".toList

/-- The text of a slide part with an empty shape tree. -/
def slideEmptyXml : Bytes := "<sld><cSld><spTree/></cSld></sld>".toList

/-- The text of a slide part with one title placeholder holding the paragraph `T`. -/
def slideTitleXml : Bytes :=
  ("<sld><cSld><spTree><sp><nvSpPr><nvPr><ph type='title'/></nvPr></nvSpPr>"
    ++ "<txBody><p><r><t>T</t></r></p></txBody></sp></spTree></cSld></sld>").toList

/-- The text of a slide part with one picture embedding `rId1`. -/
def slidePictureXml : Bytes :=
  ("<sld><cSld><spTree><pic><blipFill><blip embed='rId1'/></blipFill></pic>"
    ++ "</spTree></cSld></sld>").toList

/-- A decoder for the example packages: a table from the text of a part to the structure
`xml.Unmarshal` fills from it. -/
def sampleDecoder : XmlDecoder where
  rels := fun data =>
    if data = relsNoneXml then some ⟨[]⟩
    else if data = relsTwoSlidesXml then
      some ⟨[⟨"rId1".toList, "slides/slide1.xml".toList⟩,
             ⟨"rId2".toList, "slides/slide2.xml".toList⟩]⟩
    else if data = relsDeckXml then some ⟨[⟨"rId1".toList, "deck/s1.xml".toList⟩]⟩
    else if data = relsImageXml then some ⟨[⟨"rId1".toList, "img/a.png".toList⟩]⟩
    else none
  presentation := fun data =>
    if data = presNoneXml then some ⟨⟨[]⟩⟩
    else if data = presOneXml then some ⟨⟨[⟨"rId1".toList⟩]⟩⟩
    else if data = presTwoXml then some ⟨⟨[⟨"rId1".toList⟩, ⟨"rId2".toList⟩]⟩⟩
    else none
  slide := fun data =>
    if data = slideEmptyXml then some ⟨⟨⟨[], [], []⟩⟩⟩
    else if data = slideTitleXml then
      some ⟨⟨⟨[placeholderShape "title".toList ["T".toList]], [], []⟩⟩⟩
    else if data = slidePictureXml then some ⟨⟨⟨[], [pictureOf "rId1".toList], []⟩⟩⟩
    else none

/-- A package with two slide-IDs, both resolvable. -/
def twoSlidePackage : ZipReader :=
  [⟨"ppt/_rels/presentation.xml.rels".toList,
      some relsTwoSlidesXml⟩,
   ⟨"ppt/presentation.xml".toList, some presTwoXml⟩,
   ⟨"ppt/slides/slide2.xml".toList, some slideEmptyXml⟩,
   ⟨"ppt/slides/slide1.xml".toList, some slideTitleXml⟩]

/-- A package whose presentation part lists no slide-ID, with one slide part in the
slides directory. -/
def noSlideIdPackage : ZipReader :=
  [⟨"ppt/_rels/presentation.xml.rels".toList, some relsNoneXml⟩,
   ⟨"ppt/presentation.xml".toList, some presNoneXml⟩,
   ⟨"ppt/slides/slide1.xml".toList, some slideTitleXml⟩]

/-- The non-empty paragraph texts of a shape, in paragraph order. -/
def shapeTexts (sp : xmlShape) : List Str :=
  match sp.TxBody with
  | none => []
  | some txBody => (txBody.Paragraphs.map paragraphText).filter (fun t => t ≠ [])

/-- The non-empty paragraph texts of a shape when it is a title placeholder, none
otherwise. -/
def shapeTitleTexts (sp : xmlShape) : List Str :=
  if isPlaceholderTitle sp then shapeTexts sp else []

/-- The shapes of a slide in traversal order: the direct shapes, then the shapes inside
the groups. -/
def shapesInOrder (sld : xmlSlide) : List xmlShape :=
  sld.CSld.SpTree.Shapes ++ sld.CSld.SpTree.GroupShapes.flatMap (fun grp => grp.Shapes)

/-- The title the specification describes: the first non-empty paragraph of a title
placeholder in traversal order, the empty string when there is none. -/
def firstTitleText (sld : xmlSlide) : Str :=
  ((shapesInOrder sld).flatMap shapeTitleTexts).head?.getD []

/-- The placeholder type of a shape, when the shape carries a placeholder. -/
def placeholderType (sp : xmlShape) : Option Str :=
  ((sp.NvSpPr.bind (fun nv => nv.NvPr)).bind (fun pr => pr.Ph)).map (fun ph => ph.Typ)

/-- A title shape as the specification describes it: a shape whose placeholder type is
`title` or `ctrTitle`. -/
def titleShape (sp : xmlShape) : Prop :=
  placeholderType sp = some "title".toList ∨ placeholderType sp = some "ctrTitle".toList

instance titleShape_decidable : DecidablePred titleShape := fun sp =>
  inferInstanceAs (Decidable
    (placeholderType sp = some "title".toList ∨ placeholderType sp = some "ctrTitle".toList))

/-- The non-empty paragraphs of a shape, in paragraph order: the text of a paragraph is
its run texts put together. -/
def paragraphsOf (sp : xmlShape) : List Str :=
  match sp.TxBody with
  | none => []
  | some body =>
    (body.Paragraphs.map (fun para => (para.Runs.map (fun r => r.Text)).flatten)).filter
      (fun t => t ≠ [])

/-- The title as the specification describes it: the first non-empty paragraph, in
traversal order, that belongs to a title shape; the empty string when there is none. -/
def describedTitle (sld : xmlSlide) : Str :=
  match ((shapesInOrder sld).filter (fun sp => titleShape sp)).flatMap paragraphsOf with
  | [] => []
  | t :: _ => t

/-- A slide with a subtitle placeholder `S` followed by a centred-title placeholder with
the paragraphs `T` and `X`. -/
def subTitleThenTitle : xmlSlide :=
  ⟨⟨⟨[placeholderShape "subTitle".toList ["S".toList],
      placeholderShape "ctrTitle".toList ["T".toList, "X".toList]], [], []⟩⟩⟩

/-- A slide with a body placeholder `B` at the top level and, inside a group, two title
placeholders `T1` and `T2`. -/
def groupedTitles : xmlSlide :=
  ⟨⟨⟨[placeholderShape "body".toList ["B".toList]], [],
      [⟨[placeholderShape "title".toList ["T1".toList],
         placeholderShape "title".toList ["T2".toList]], []⟩]⟩⟩⟩

/-- The title after more candidates are met: kept when already set, else the first
candidate. -/
def titleOr (title : Str) (candidates : List Str) : Str :=
  if title ≠ [] then title else candidates.head?.getD []

/-- The image reference a picture contributes, if any: the value `extractPicture`
appends. -/
def pictureRef (rels : GoMap Str) (pic : xmlPicture) : Option ImageRef :=
  match pic.BlipFill with
  | none => none
  | some blipFill =>
    match blipFill.Blip with
    | none => none
    | some blip =>
      if blip.Embed = [] then none
      else
        match rels blip.Embed with
        | some target => some ⟨blip.Embed, resolveRelPath "ppt/slides".toList target⟩
        | none => some ⟨blip.Embed, []⟩

/-- A slide whose title placeholder holds the paragraphs `T` and `X`. -/
def titleTwoParagraphs : xmlSlide :=
  ⟨⟨⟨[placeholderShape "title".toList ["T".toList, "X".toList]], [], []⟩⟩⟩

/-- A slide with one top-level picture (`rId1`) and one group holding a picture
(`rId2`). -/
def pictureAndGroup : xmlSlide :=
  ⟨⟨⟨[], [pictureOf "rId1".toList], [⟨[], [pictureOf "rId2".toList]⟩]⟩⟩⟩

/-- The relationship map of a slide with `rId1` and `rId2` pointing at two media files. -/
def twoMediaRels : GoMap Str :=
  (GoMap.empty.set "rId1".toList "../media/image1.png".toList).set
    "rId2".toList "../media/image2.png".toList

/-- A package whose only slide part lies in `ppt/deck`, with a picture whose target
`img/a.png` is relative to that slide. -/
def deckPackage : ZipReader :=
  [⟨"ppt/_rels/presentation.xml.rels".toList,
      some relsDeckXml⟩,
   ⟨"ppt/presentation.xml".toList, some presOneXml⟩,
   ⟨"ppt/deck/s1.xml".toList, some slidePictureXml⟩,
   ⟨"ppt/deck/_rels/s1.xml.rels".toList,
      some relsImageXml⟩,
   ⟨"ppt/deck/img/a.png".toList, some "PNG".toList⟩]

/-- The test `scanSlideFiles` applies to an entry name: it starts with
`ppt/slides/slide`, ends with `.xml` and does not contain `_rels`. -/
def isSlidePartName (name : Str) : Bool :=
  hasPfx name "ppt/slides/slide".toList && hasSfx name ".xml".toList
    && !strContains name "_rels".toList

/-- A package without slide-IDs whose slide parts are `slide1.xml` ... `slide10.xml`,
stored in numeric order, with one relationships part among them. -/
def tenSlidePackage : ZipReader :=
  [⟨"ppt/_rels/presentation.xml.rels".toList, some relsNoneXml⟩,
   ⟨"ppt/presentation.xml".toList, some presNoneXml⟩,
   ⟨"ppt/slides/slide1.xml".toList, some slideEmptyXml⟩,
   ⟨"ppt/slides/_rels/slide1.xml.rels".toList, some relsNoneXml⟩,
   ⟨"ppt/slides/slide2.xml".toList, some slideEmptyXml⟩,
   ⟨"ppt/slides/slide3.xml".toList, some slideEmptyXml⟩,
   ⟨"ppt/slides/slide4.xml".toList, some slideEmptyXml⟩,
   ⟨"ppt/slides/slide5.xml".toList, some slideEmptyXml⟩,
   ⟨"ppt/slides/slide6.xml".toList, some slideEmptyXml⟩,
   ⟨"ppt/slides/slide7.xml".toList, some slideEmptyXml⟩,
   ⟨"ppt/slides/slide8.xml".toList, some slideEmptyXml⟩,
   ⟨"ppt/slides/slide9.xml".toList, some slideEmptyXml⟩,
   ⟨"ppt/slides/slide10.xml".toList, some slideEmptyXml⟩]

/-! ## Bodies as the specification words them -/

/-- The non-empty paragraph texts of a shape, each tagged with whether the shape is a
title placeholder. -/
def shapeTagged (sp : xmlShape) : List (Bool × Str) :=
  (shapeTexts sp).map (fun t => (isPlaceholderTitle sp, t))

/-- The non-empty paragraph texts of a slide in traversal order (direct shapes, then the
shapes inside groups), each tagged with whether its shape is a title placeholder. -/
def taggedTexts (sld : xmlSlide) : List (Bool × Str) :=
  (shapesInOrder sld).flatMap shapeTagged

/-- What one non-empty paragraph does to the pair of title and bodies: it becomes the
title when its shape is a title placeholder and no title is set, else it is appended to
the bodies. -/
def absorbText (st : Str × List Str) (x : Bool × Str) : Str × List Str :=
  if x.1 = true ∧ st.1 = [] then (x.2, st.2) else (st.1, st.2 ++ [x.2])

/-- Go `unicode.IsSpace` on the ASCII range. -/
def isSpaceChar (c : Char) : Bool :=
  c = ' ' || c = '\t' || c = '\n' || c = '\r' || c.toNat = 11 || c.toNat = 12

/-- Go `strings.TrimSpace` (on ASCII white space): what the specification means by
"after trimming". -/
def trimSpace (s : Str) : Str :=
  ((s.dropWhile isSpaceChar).reverse.dropWhile isSpaceChar).reverse

/-- The text of a slide part with one shape, not a placeholder, whose paragraphs are
`X`, `X` and a single blank. -/
def slideBodiesXml : Bytes :=
  ("<sld><cSld><spTree><sp><txBody><p><r><t>X</t></r></p><p><r><t>X</t></r></p>"
    ++ "<p><r><t> </t></r></p></txBody></sp></spTree></cSld></sld>").toList

/-- The example decoder, extended by the slide part `slideBodiesXml`. -/
def bodiesDecoder : XmlDecoder where
  rels := sampleDecoder.rels
  presentation := sampleDecoder.presentation
  slide := fun data =>
    if data = slideBodiesXml then
      some ⟨⟨⟨[⟨none, some ⟨[⟨[⟨"X".toList⟩]⟩, ⟨[⟨"X".toList⟩]⟩, ⟨[⟨" ".toList⟩]⟩]⟩⟩], [], []⟩⟩⟩
    else sampleDecoder.slide data

/-- A package with the single slide part `slideBodiesXml`. -/
def bodiesPackage : ZipReader :=
  [⟨"ppt/_rels/presentation.xml.rels".toList, some relsNoneXml⟩,
   ⟨"ppt/presentation.xml".toList, some presNoneXml⟩,
   ⟨"ppt/slides/slide1.xml".toList, some slideBodiesXml⟩]

/-! ## The rendered document, block by block -/

/-- The heading rule of the specification: the title when there is one, else the
positional heading. -/
def slideHeading (slide : Slide) : Str :=
  if slide.Title ≠ [] then "## ".toList ++ slide.Title
  else "## Slide ".toList ++ fmtInt slide.Index

/-- The separator written before the slide at position `i`: a rule before every slide
except the first. -/
def separatorAt (i : Nat) : Str := if i > 0 then "\n---\n\n".toList else []

/-- The body paragraphs of a slide, each followed by a blank line. -/
def bodyBlocks (slide : Slide) : Str :=
  (slide.Bodies.map (fun body => body ++ "\n\n".toList)).flatten

/-- The image link written for one reference: nothing for an empty media path. -/
def imageLink (imageFileMap : GoMap Str) (imageDir : Str) (img : ImageRef) : Str :=
  if img.MediaPath = [] then []
  else
    "![".toList ++ linkName imageFileMap img.MediaPath ++ "](./".toList
      ++ (imageDir ++ "/".toList ++ linkName imageFileMap img.MediaPath) ++ ")\n\n".toList

/-- The image links of a slide, in image order. -/
def imageBlocks (imageFileMap : GoMap Str) (imageDir : Str) (slide : Slide) : Str :=
  (slide.Images.map (imageLink imageFileMap imageDir)).flatten

/-- Everything written for the slide at position `i`. -/
def slideBlock (imageFileMap : GoMap Str) (imageDir : Str) (i : Nat) (slide : Slide) : Str :=
  separatorAt i ++ (slideHeading slide ++ "\n\n".toList) ++ bodyBlocks slide
    ++ imageBlocks imageFileMap imageDir slide

/-- The text written for the slide at position `i` apart from image links: separator,
heading and bodies. -/
def textBlock (i : Nat) (slide : Slide) : Str :=
  separatorAt i ++ (slideHeading slide ++ "\n\n".toList) ++ bodyBlocks slide

/-! ## `Convert` (converter.go) and its host -/

/-- The struct `ConvertOptions`. -/
structure ConvertOptions where
  ImageDir : Str
  deriving DecidableEq

/-- The struct `ConvertResult`. -/
structure ConvertResult where
  Markdown : Str
  ImageDir : Str
  deriving DecidableEq

/-- What `Convert` asks of its host: `zip.OpenReader` (the archive, or `none` when the
file cannot be opened as one), and whether `os.MkdirAll` and `os.WriteFile` succeed. -/
structure Host where
  openReader : Str → Option ZipReader
  mkdirAll : Str → Bool
  writeFile : Str → Bytes → Bool

/-- A call `Convert` makes to the file system. -/
inductive FsCall where
  | mkdirAll (path : Str)
  | writeFile (path : Str) (data : Bytes)
  deriving DecidableEq

/-- The errors `Convert` returns: the error of `zip.OpenReader` wrapped by `Parse`, an
error of `Parse`, and the three errors `Convert` wraps itself. -/
inductive ConvertErr where
  | openFailed (filePath : Str)
  | parse (e : Err)
  | createDir (dir : Str)
  | readMedia (mediaPath : Str) (e : Err)
  | writeImage (outPath : Str)
  deriving DecidableEq

/-- Go `filepath.Dir` with `/` as the path separator (no volume name): `Clean` of the
path up to and including its last separator. -/
def filepathDir (p : Str) : Str := pathDir p

/-- Go `filepath.Join` with `/` as the path separator: `Clean` of the elements joined by
the separator, starting at the first non-empty element; `""` when all are empty. -/
def filepathJoin : List Str → Str
  | [] => []
  | e :: rest => if e ≠ [] then pathClean (stringsJoin (e :: rest) ['/']) else filepathJoin rest

/-- The image directory name of `Convert` (lines 30-36): `opts.ImageDir`, or the base
name of the input without its extension followed by `_images`. -/
def convertImageDir (filePath : Str) (opts : ConvertOptions) : Str :=
  let baseName := trimSfx (filepathBase filePath) (filepathExt filePath)
  let imageDir := opts.ImageDir
  if imageDir = [] then baseName ++ "_images".toList else imageDir

/-- The value `imageDirFull` of `Convert` (lines 31-37). -/
def convertImageDirFull (filePath : Str) (opts : ConvertOptions) : Str :=
  let outDir := filepathDir filePath
  filepathJoin [outDir, convertImageDir filePath opts]

/-- The loop `for _, img := range images` of `Convert` (lines 74-83): the error it
returns, if any, and the file-system calls made so far (`calls` on entry). -/
def exportImages (host : Host) (pres : Presentation) (imageDirFull : Str) :
    List imageExport → List FsCall → Option ConvertErr × List FsCall
  | [], calls => (none, calls)
  | img :: rest, calls =>
    match pres.ReadMedia img.mediaPath with
    | .error e => (some (.readMedia img.mediaPath e), calls)
    | .ok data =>
      let outPath := filepathJoin [imageDirFull, img.fileName]
      if host.writeFile outPath data then
        exportImages host pres imageDirFull rest (calls ++ [.writeFile outPath data])
      else (some (.writeImage outPath), calls ++ [.writeFile outPath data])

/-- The function `Convert` after `Parse` has returned `pres` (lines 30-93): its result
and the file-system calls it makes, in order. -/
def convertParsed (host : Host) (filePath : Str) (opts : ConvertOptions)
    (pres : Presentation) : Except ConvertErr ConvertResult × List FsCall :=
  let imageDir := convertImageDir filePath opts
  let imageDirFull := convertImageDirFull filePath opts
  -- Collect all images first to know if we need to create the directory
  let images := collectImages pres.Slides
  -- Export images if any
  let exported : Option ConvertErr × List FsCall :=
    if images.length > 0 then
      if host.mkdirAll imageDirFull then
        exportImages host pres imageDirFull images [.mkdirAll imageDirFull]
      else (some (.createDir imageDirFull), [.mkdirAll imageDirFull])
    else (none, [])
  match exported.1 with
  | some e => (.error e, exported.2)
  | none =>
    -- Build markdown
    let md := buildMarkdown pres imageDir
    (.ok ⟨md, if images.length > 0 then imageDirFull else []⟩, exported.2)

/-- The function `Convert`: its result and the file-system calls it makes. -/
def Convert (dec : XmlDecoder) (host : Host) (filePath : Str) (opts : ConvertOptions) :
    Except ConvertErr ConvertResult × List FsCall :=
  match host.openReader filePath with
  | none => (.error (.openFailed filePath), [])
  | some zr =>
    match Parse dec zr with
    | .error e => (.error (.parse e), [])
    | .ok pres => convertParsed host filePath opts pres

/-- A host on which every call succeeds and every input path opens the given archive. -/
def plainHost (zr : ZipReader) : Host where
  openReader := fun _ => some zr
  mkdirAll := fun _ => true
  writeFile := fun _ _ => true

/-- A host on which the given paths are directories: `os.WriteFile` fails on them; every
other call succeeds and every input path opens the given archive. -/
def directoryHost (zr : ZipReader) (dirs : List Str) : Host where
  openReader := fun _ => some zr
  mkdirAll := fun _ => true
  writeFile := fun path _ => !dirs.contains path

/-- A presentation with one entry that cannot be opened or read. -/
def unreadableEntry : Presentation :=
  ⟨[], [⟨"ppt/media/a.png".toList, none⟩, ⟨"ppt/media/a.png".toList, some "PNG".toList⟩]⟩

/-- A package with one slide in `ppt/slides` whose picture resolves to the stored image
`ppt/slides/img/a.png`. -/
def imagePackage : ZipReader :=
  [⟨"ppt/_rels/presentation.xml.rels".toList, some relsTwoSlidesXml⟩,
   ⟨"ppt/presentation.xml".toList, some presOneXml⟩,
   ⟨"ppt/slides/slide1.xml".toList, some slidePictureXml⟩,
   ⟨"ppt/slides/_rels/slide1.xml.rels".toList, some relsImageXml⟩,
   ⟨"ppt/slides/img/a.png".toList, some "PNG".toList⟩]

/-- A presentation in which two files share the base name `img.png` and a third file is
itself named `img_2.png`, with the three media files stored in the archive. -/
def renamedLikeCollision : Presentation :=
  ⟨[⟨1, "A".toList, [], [⟨"rId1".toList, "ppt/media/a/img.png".toList⟩,
                          ⟨"rId2".toList, "ppt/media/b/img.png".toList⟩,
                          ⟨"rId3".toList, "ppt/media/c/img_2.png".toList⟩]⟩],
   [⟨"ppt/media/a/img.png".toList, some "A".toList⟩,
    ⟨"ppt/media/b/img.png".toList, some "B".toList⟩,
    ⟨"ppt/media/c/img_2.png".toList, some "C".toList⟩]⟩

/-! ## Example inputs for the error paths -/

/-- A package with two slide-IDs of which only `rId1` is a key of the relationship map,
and with a slide part that the archive scan would find. -/
def oneResolvedPackage : ZipReader :=
  [⟨"ppt/_rels/presentation.xml.rels".toList, some relsDeckXml⟩,
   ⟨"ppt/presentation.xml".toList, some presTwoXml⟩,
   ⟨"ppt/deck/s1.xml".toList, some slideEmptyXml⟩,
   ⟨"ppt/slides/slide9.xml".toList, some slideEmptyXml⟩]

/-- A package whose only slide embeds the picture `rId1` and has no relationships part. -/
def pictureNoRelsPackage : ZipReader :=
  [⟨"ppt/_rels/presentation.xml.rels".toList, some relsTwoSlidesXml⟩,
   ⟨"ppt/presentation.xml".toList, some presOneXml⟩,
   ⟨"ppt/slides/slide1.xml".toList, some slidePictureXml⟩]

/-! ## Failing parts -/

/-- No archive entry has the given name. -/
def entryAbsent (zr : ZipReader) (name : Str) : Prop := ∀ f ∈ zr, f.Name ≠ name

/-- The first archive entry of the given name cannot be opened or read. -/
def entryUnreadable (zr : ZipReader) (name : Str) : Prop :=
  ∃ f, zr.find? (fun g => g.Name = name) = some f ∧ f.content = none

/-- The part is read but `xml.Unmarshal` rejects its content. -/
def partUndecodable {α : Type} (decode : Bytes → Option α) (zr : ZipReader) (name : Str) :
    Prop :=
  ∃ data, readZipFile zr name = .ok data ∧ decode data = none

/-- The part fails: it is absent, unreadable or undecodable. -/
def partFails {α : Type} (decode : Bytes → Option α) (zr : ZipReader) (name : Str) : Prop :=
  entryAbsent zr name ∨ entryUnreadable zr name ∨ partUndecodable decode zr name

/-- A package whose presentation-level relationships part is stored but cannot be
opened. -/
def unreadableRelsPackage : ZipReader :=
  [⟨"ppt/_rels/presentation.xml.rels".toList, none⟩,
   ⟨"ppt/presentation.xml".toList, some presNoneXml⟩,
   ⟨"ppt/slides/slide1.xml".toList, some slideEmptyXml⟩]

/-- A package whose second slide part is not XML. -/
def brokenSlidePackage : ZipReader :=
  [⟨"ppt/_rels/presentation.xml.rels".toList, some relsTwoSlidesXml⟩,
   ⟨"ppt/presentation.xml".toList, some presTwoXml⟩,
   ⟨"ppt/slides/slide1.xml".toList, some slideEmptyXml⟩,
   ⟨"ppt/slides/slide2.xml".toList, some "not xml".toList⟩]

/-! ## `Parse` with the archive handle -/

/-- A call on the archive handle: `zip.OpenReader(filePath)` and `zr.Close()`. -/
inductive ZipCall where
  | openReader (filePath : Str)
  | close
  deriving DecidableEq

/-- The function `Parse` as a whole (lines 57-81): its result and the calls it makes on
the archive handle, in order. `openReader` is `zip.OpenReader`: the archive, or `none`
when the file cannot be opened as one. -/
def ParseFile (dec : XmlDecoder) (openReader : Str → Option ZipReader) (filePath : Str) :
    Except Err Presentation × List ZipCall :=
  match openReader filePath with
  | none =>
    (.error (.wrap "failed to open pptx".toList (.readFailed filePath)),
      [.openReader filePath])
  | some zr =>
    match getSlideOrder dec zr with
    | .error e => (.error e, [.openReader filePath, .close])
    | .ok slideOrder =>
      match parseSlides dec zr 0 slideOrder [] with
      | .error e => (.error e, [.openReader filePath, .close])
      | .ok slides => (.ok ⟨slides, zr⟩, [.openReader filePath])

/-! ## Export file names as path elements -/

/-- A single path element: not empty, free of `/`, and neither `.` nor `..`. -/
def singleElement (name : Str) : Prop :=
  name ≠ [] ∧ '/' ∉ name ∧ name ≠ ['.'] ∧ name ≠ ['.', '.']

/-- The text of slide-level relationships whose image target ascends three levels. -/
def relsUpXml : Bytes :=
  "<Relationships><Relationship Id='rId1' Target='../../..'/></Relationships>".toList

/-- The example decoder, extended by the relationships part `relsUpXml`. -/
def escapeDecoder : XmlDecoder where
  rels := fun data =>
    if data = relsUpXml then some ⟨[⟨"rId1".toList, "../../..".toList⟩]⟩
    else sampleDecoder.rels data
  presentation := sampleDecoder.presentation
  slide := sampleDecoder.slide

/-- A package whose slide embeds a picture with the target `../../..`, which resolves to
the media path `..`, and which stores an entry of that name. -/
def escapePackage : ZipReader :=
  [⟨"ppt/_rels/presentation.xml.rels".toList, some relsTwoSlidesXml⟩,
   ⟨"ppt/presentation.xml".toList, some presOneXml⟩,
   ⟨"ppt/slides/slide1.xml".toList, some slidePictureXml⟩,
   ⟨"ppt/slides/_rels/slide1.xml.rels".toList, some relsUpXml⟩,
   ⟨"..".toList, some "PNG".toList⟩]

end Pptx2md

/-!
# xlsx2md: the sheet renderer

The definitions below follow `internal/xlsx2md/converter.go`; a sheet is the value of
`[][]string` that `GetRows` hands to `sheetToMarkdown`.
-/

namespace Xlsx2md

open Pptx2md

/-! ## Strings -/

/-- The scan of Go `strings.Replace(s, old, new, -1)` for a non-empty `old`: from left to
right, each occurrence of `old` that starts at the current position is replaced by `new`
and the scan continues behind it (`skip` counts the characters of the occurrence still to
be passed over), every other character is copied. -/
def replaceScan (old new : Str) : Nat → Str → Str
  | _, [] => []
  | skip + 1, _ :: cs => replaceScan old new skip cs
  | 0, c :: cs =>
    if old.isPrefixOf (c :: cs) then new ++ replaceScan old new (old.length - 1) cs
    else c :: replaceScan old new 0 cs

/-- Go `strings.ReplaceAll(s, old, new)`: `s` itself when `old == new`; for an empty `old`
the text `new` is put in front of the string and behind every character; otherwise the
non-overlapping occurrences of `old` are replaced from left to right. -/
def stringsReplaceAll (s old new : Str) : Str :=
  if old = new then s
  else if old = [] then new ++ (s.map (fun c => c :: new)).flatten
  else replaceScan old new 0 s

/-! ## `converter.go` -/

/-- Go `padRow`: `row[:n]` when the row has at least `n` cells, otherwise a fresh slice of
`n` empty strings with the row copied over its front. -/
def padRow (row : List Str) (n : Nat) : List Str :=
  if row.length ≥ n then row.take n
  else row ++ List.replicate (n - row.length) []

/-- Go `escapeCells`: every cell with `|` replaced by `\|`. -/
def escapeCells (cells : List Str) : List Str :=
  cells.map (fun c => stringsReplaceAll c "|".toList "\\|".toList)

/-- Go `sheetToMarkdown`. -/
def sheetToMarkdown (rows : List (List Str)) : Str :=
  match rows with
  | [] => []
  | row0 :: rest =>
    let maxCols := rows.foldl (fun m row => if row.length > m then row.length else m) 0
    if maxCols = 0 then [] else
    let header := padRow row0 maxCols
    let sb := "| ".toList ++ stringsJoin (escapeCells header) " | ".toList ++ " |\n".toList
    let seps := List.replicate maxCols "---".toList
    let sb := sb ++ ("| ".toList ++ stringsJoin seps " | ".toList ++ " |\n".toList)
    rest.foldl (fun sb row =>
      sb ++ ("| ".toList ++ stringsJoin (escapeCells (padRow row maxCols)) " | ".toList
        ++ " |\n".toList)) sb

/-- Go `ConvertSheet`. -/
def ConvertSheet (rows : List (List Str)) : Str := sheetToMarkdown rows

/-! ## The table as the specification describes it -/

/-- A cell with every `|` replaced by `\|` and every other character kept. -/
def escapePipes (c : Str) : Str :=
  (c.map (fun ch => if ch = '|' then "\\|".toList else [ch])).flatten

/-- A table line: the cells joined by ` | ` between `| ` and ` |` and a newline. -/
def tableLine (cells : List Str) : Str :=
  "| ".toList ++ stringsJoin cells " | ".toList ++ " |\n".toList

/-- A row padded on the right with empty cells up to `m` cells. -/
def padRight (row : List Str) (m : Nat) : List Str :=
  row ++ List.replicate (m - row.length) []

/-- The lines of the table of `m` columns: the first row, the separator line, the
remaining rows in order. -/
def tableLines (rows : List (List Str)) (m : Nat) : List Str :=
  match rows with
  | [] => []
  | row0 :: rest =>
    tableLine ((padRight row0 m).map escapePipes)
      :: tableLine (List.replicate m "---".toList)
      :: rest.map (fun row => tableLine ((padRight row m).map escapePipes))

/-- The sheet of the test `ragged rows padded`. -/
def raggedRows : List (List Str) :=
  [["A".toList, "B".toList, "C".toList], ["1".toList], ["x".toList, "y".toList]]

end Xlsx2md

/-! # Theorems -/

namespace Pptx2md

/-! ## Image name deduplication -/

theorem foldl_slides_images {σ : Type} (f : σ → ImageRef → σ) (slides : List Slide)
    (init : σ) :
    slides.foldl (fun st slide => slide.Images.foldl f st) init
      = (allRefs slides).foldl f init := by
  induction slides generalizing init with
  | nil => rfl
  | cons s rest ih =>
    simp only [List.foldl_cons, allRefs, List.flatMap_cons, List.foldl_append]
    exact ih _

theorem dedupName_seen (m : GoMap Int) (p b : Str) (c : Nat)
    (hb : filepathBase p = b) (hm : m b = seenCount c) :
    (dedupName m p).2 = nthName b (c + 1) ∧ (dedupName m p).1 b = seenCount (c + 1) := by
  subst hb
  unfold dedupName
  cases c with
  | zero =>
    have hm0 : m (filepathBase p) = none := by simpa [seenCount] using hm
    simp [hm0, nthName, seenCount, GoMap.set]
  | succ c =>
    have hm1 : m (filepathBase p) = some ((c + 1 : Nat) : Int) := by
      simpa [seenCount] using hm
    simp only [hm1]
    refine ⟨?_, ?_⟩
    · simp [nthName]
    · simp [seenCount, GoMap.set]

theorem collect_shared_base (b : Str) (refs : List ImageRef) :
    ∀ (st : GoMap Int × List imageExport) (c : Nat),
      (∀ r ∈ refs, r.MediaPath ≠ []) →
      (∀ r ∈ refs, filepathBase r.MediaPath = b) →
      st.1 b = seenCount c →
      ((refs.foldl collectStep st).2).map (fun e => e.fileName)
        = st.2.map (fun e => e.fileName)
          ++ (List.range refs.length).map (fun i => nthName b (c + i + 1)) := by
  induction refs with
  | nil => intro st c _ _ _; simp
  | cons r rs ih =>
    intro st c hne hbase hst
    have hr : r.MediaPath ≠ [] := hne r (List.mem_cons_self _ _)
    obtain ⟨hname, hcnt⟩ := dedupName_seen st.1 r.MediaPath b c
      (hbase r (List.mem_cons_self _ _)) hst
    have hstep : collectStep st r
        = ((dedupName st.1 r.MediaPath).1,
            st.2 ++ [⟨r.MediaPath, (dedupName st.1 r.MediaPath).2⟩]) := by
      simp [collectStep, hr]
    rw [List.foldl_cons, hstep,
      ih _ (c + 1) (fun x hx => hne x (List.mem_cons_of_mem _ hx))
        (fun x hx => hbase x (List.mem_cons_of_mem _ hx)) hcnt]
    simp only [List.map_append, List.map_cons, List.map_nil, hname, List.length_cons,
      List.range_succ_eq_map, List.map_map, List.append_assoc, List.singleton_append,
      Nat.add_zero]
    congr 2
    apply List.map_congr_left
    intro i _
    simp only [Function.comp]
    congr 1
    omega

theorem fileMapStep_keeps (st : GoMap Str × GoMap Int) (r : ImageRef) (p v : Str)
    (h : st.1 p = some v) : (fileMapStep st r).1 p = some v := by
  unfold fileMapStep
  by_cases h1 : r.MediaPath = []
  · simp [h1, h]
  · by_cases h2 : (st.1 r.MediaPath).isSome = true
    · simp [h1, h2, h]
    · have hne : p ≠ r.MediaPath := by
        intro he
        rw [he] at h
        simp [h] at h2
      simp [h1, h2, GoMap.set, hne, h]

theorem fileMap_foldl_keeps (refs : List ImageRef) :
    ∀ (st : GoMap Str × GoMap Int) (p v : Str), st.1 p = some v →
      (refs.foldl fileMapStep st).1 p = some v := by
  induction refs with
  | nil => intro st p v h; exact h
  | cons r rs ih =>
    intro st p v h
    exact ih _ p v (fileMapStep_keeps st r p v h)

theorem fileMap_shared_base (b : Str) (refs : List ImageRef) :
    ∀ (st : GoMap Str × GoMap Int) (c : Nat),
      (∀ r ∈ refs, r.MediaPath ≠ []) →
      (∀ r ∈ refs, filepathBase r.MediaPath = b) →
      (refs.map (fun r => r.MediaPath)).Nodup →
      (∀ r ∈ refs, st.1 r.MediaPath = none) →
      st.2 b = seenCount c →
      refs.map (fun r => linkName (refs.foldl fileMapStep st).1 r.MediaPath)
        = (List.range refs.length).map (fun i => nthName b (c + i + 1)) := by
  induction refs with
  | nil => intro st c _ _ _ _ _; simp
  | cons r rs ih =>
    intro st c hne hbase hnd hfresh hst
    have hr : r.MediaPath ≠ [] := hne r (List.mem_cons_self _ _)
    have hr2 : st.1 r.MediaPath = none := hfresh r (List.mem_cons_self _ _)
    obtain ⟨hname, hcnt⟩ := dedupName_seen st.2 r.MediaPath b c
      (hbase r (List.mem_cons_self _ _)) hst
    have hstep : fileMapStep st r
        = (st.1.set r.MediaPath (dedupName st.2 r.MediaPath).2,
            (dedupName st.2 r.MediaPath).1) := by
      simp [fileMapStep, hr, hr2]
    rw [List.map_cons, List.nodup_cons] at hnd
    have hhead : (fileMapStep st r).1 r.MediaPath = some (nthName b (c + 1)) := by
      rw [hstep]; simp [GoMap.set, hname]
    have hfresh2 : ∀ x ∈ rs, (fileMapStep st r).1 x.MediaPath = none := by
      intro x hx
      have hxne : x.MediaPath ≠ r.MediaPath := by
        intro he
        exact hnd.1 (by rw [← he]; exact List.mem_map_of_mem _ hx)
      rw [hstep]
      simp [GoMap.set, hxne, hfresh x (List.mem_cons_of_mem _ hx)]
    have hcnt2 : (fileMapStep st r).2 b = seenCount (c + 1) := by rw [hstep]; exact hcnt
    have ihr := ih (fileMapStep st r) (c + 1)
      (fun x hx => hne x (List.mem_cons_of_mem _ hx))
      (fun x hx => hbase x (List.mem_cons_of_mem _ hx)) hnd.2 hfresh2 hcnt2
    rw [List.map_cons, List.foldl_cons, ihr]
    have h0 : linkName (rs.foldl fileMapStep (fileMapStep st r)).1 r.MediaPath
        = nthName b (c + 1) := by
      simp [linkName, fileMap_foldl_keeps rs _ _ _ hhead]
    rw [h0]
    simp only [List.length_cons, List.range_succ_eq_map, List.map_cons, List.map_map,
      Nat.add_zero]
    congr 1
    apply List.map_congr_left
    intro i _
    simp only [Function.comp]
    congr 1
    omega

/-- C1 (as amended): for references with pairwise distinct, non-empty media paths that
share one base name `b = name ++ ext`, the exporter (`Convert`) and the renderer
(`buildMarkdown`) both name the first reference `b` and the `k`-th reference (`k ≥ 2`)
`name_k ext`: the suffix is the position `k`, not `k - 1`. -/
theorem collision_numbering (slides : List Slide) (b : Str)
    (hne : ∀ r ∈ allRefs slides, r.MediaPath ≠ [])
    (hbase : ∀ r ∈ allRefs slides, filepathBase r.MediaPath = b)
    (hnd : ((allRefs slides).map (fun r => r.MediaPath)).Nodup) :
    (collectImages slides).map (fun e => e.fileName)
        = (List.range (allRefs slides).length).map (fun i => nthName b (i + 1))
      ∧ linkNames slides
        = (List.range (allRefs slides).length).map (fun i => nthName b (i + 1)) := by
  constructor
  · unfold collectImages
    rw [foldl_slides_images]
    have h := collect_shared_base b (allRefs slides) (GoMap.empty, []) 0 hne hbase rfl
    simpa using h
  · have h := fileMap_shared_base b (allRefs slides) (GoMap.empty, GoMap.empty) 0
      hne hbase hnd (fun _ _ => rfl) rfl
    unfold linkNames buildImageFileMap
    rw [foldl_slides_images]
    have hfm : (allRefs slides).filterMap (fun img =>
          if img.MediaPath = [] then none
          else some (linkName ((allRefs slides).foldl fileMapStep
            (GoMap.empty, GoMap.empty)).1 img.MediaPath))
        = (allRefs slides).map (fun r => linkName ((allRefs slides).foldl fileMapStep
            (GoMap.empty, GoMap.empty)).1 r.MediaPath) := by
      rw [← List.filterMap_eq_map]
      apply List.filterMap_congr
      intro r hr
      simp [hne r hr]
    have hfm2 : allRefs slides = slides.flatMap (fun slide => slide.Images) := rfl
    rw [← hfm2, hfm]
    simpa using h

/-- C1, witness: the deduplication scenario satisfies the hypotheses, and its three
references are exported and linked as `img.png`, `img_2.png`, `img_3.png`. -/
theorem collision_numbering_witness :
    (collectImages threeImages).map (fun e => e.fileName)
        = (List.range (allRefs threeImages).length).map
            (fun i => nthName "img.png".toList (i + 1))
      ∧ linkNames threeImages
        = (List.range (allRefs threeImages).length).map
            (fun i => nthName "img.png".toList (i + 1)) :=
  collision_numbering threeImages "img.png".toList (by decide) (by decide) (by decide)

/-- C1, counterexample: on three distinct media paths with base name `img.png` the
exporter and the renderer produce `img.png`, `img_2.png`, `img_3.png`, which differs
from the `img.png`, `img_1.png`, `img_2.png` of the claim (`specNthName`). -/
theorem collision_numbering_counterexample :
    (collectImages threeImages).map (fun e => e.fileName)
        = ["img.png".toList, "img_2.png".toList, "img_3.png".toList]
      ∧ linkNames threeImages
        = ["img.png".toList, "img_2.png".toList, "img_3.png".toList]
      ∧ (List.range 3).map (fun i => specNthName "img.png".toList (i + 1))
        = ["img.png".toList, "img_1.png".toList, "img_2.png".toList]
      ∧ (collectImages threeImages).map (fun e => e.fileName)
        ≠ (List.range 3).map (fun i => specNthName "img.png".toList (i + 1))
      ∧ linkNames threeImages
        ≠ (List.range 3).map (fun i => specNthName "img.png".toList (i + 1))
      ∧ buildMarkdown ⟨threeImages, []⟩ "d".toList
        = ("## Slide 1\n\n![img.png](./d/img.png)\n\n![img_2.png](./d/img_2.png)\n\n\n---\n\n"
            ++ "## Slide 2\n\n![img_3.png](./d/img_3.png)\n").toList := by
  decide

/-- C2, evaluated at the failing input: for the references `x/img.png`, `x/img.png`,
`y/img.png` the exporter writes `img.png`, `img_2.png` (both with the bytes of
`x/img.png`) and `img_3.png`, while the renderer links `img.png`, `img.png`,
`img_2.png`: the link of `y/img.png` names a file written from `x/img.png`. -/
theorem renderer_exporter_disagree :
    collectImages repeatedThenOther
        = [⟨"ppt/media/x/img.png".toList, "img.png".toList⟩,
           ⟨"ppt/media/x/img.png".toList, "img_2.png".toList⟩,
           ⟨"ppt/media/y/img.png".toList, "img_3.png".toList⟩]
      ∧ linkNames repeatedThenOther
        = ["img.png".toList, "img.png".toList, "img_2.png".toList]
      ∧ buildMarkdown ⟨repeatedThenOther, []⟩ "d".toList
        = ("## A\n\n![img.png](./d/img.png)\n\n![img.png](./d/img.png)\n\n"
            ++ "![img_2.png](./d/img_2.png)\n").toList := by
  decide

/-- C3, evaluated at the failing input: when a fourth reference repeats the media path
of the second, `Convert` collects four files to write; the media path `b/img.png` is
written twice, the second time under the new name `img_4.png`. -/
theorem exporter_writes_repeated_path :
    collectImages fourthRepeatsSecond
        = [⟨"ppt/media/a/img.png".toList, "img.png".toList⟩,
           ⟨"ppt/media/b/img.png".toList, "img_2.png".toList⟩,
           ⟨"ppt/media/c/img.png".toList, "img_3.png".toList⟩,
           ⟨"ppt/media/b/img.png".toList, "img_4.png".toList⟩]
      ∧ ¬ ((collectImages fourthRepeatsSecond).map (fun e => e.mediaPath)).Nodup
      ∧ linkNames fourthRepeatsSecond
        = ["img.png".toList, "img_2.png".toList, "img_3.png".toList,
           "img_2.png".toList] := by
  decide

/-! ## Markdown shape -/

theorem trimRight_newlines (x : Str) (c : Char) (hc : c ≠ '\n')
    (hlast : x.getLast? = some c) :
    trimRight (x ++ "\n\n".toList) "\n".toList = x := by
  obtain ⟨y, rfl⟩ : ∃ y, x = y ++ [c] := by
    rcases List.eq_nil_or_concat x with h | ⟨y, d, h⟩
    · subst h; simp at hlast
    · subst h
      simp at hlast
      exact ⟨y, by rw [hlast]; simp⟩
  have hc2 : ("\n".toList.contains c) = false := by
    simp [String.toList, List.contains, hc]
  simp [trimRight, String.toList, List.dropWhile, hc]

theorem renderSlide_title_only (m : GoMap Str) (d : Str) (i : Nat) (slide : Slide)
    (sb : Str) (ht : slide.Title ≠ []) (hb : slide.Bodies = []) (hi : slide.Images = []) :
    renderSlide m d i slide sb
      = sb ++ ((if i > 0 then "\n---\n\n".toList else []) ++ titleHeading slide
          ++ "\n\n".toList) := by
  unfold renderSlide titleHeading
  by_cases h0 : i > 0 <;> simp [h0, ht, hb, hi]

theorem renderSlides_title_only (m : GoMap Str) (d : Str) (slides : List Slide) :
    ∀ (i : Nat) (sb : Str),
      (∀ s ∈ slides, s.Title ≠ [] ∧ s.Bodies = [] ∧ s.Images = []) →
      renderSlides m d (i + 1) slides sb
        = sb ++ (slides.map (fun s =>
            "\n---\n\n".toList ++ titleHeading s ++ "\n\n".toList)).flatten := by
  induction slides with
  | nil => intro i sb _; simp [renderSlides]
  | cons s rest ih =>
    intro i sb h
    obtain ⟨ht, hb, hi⟩ := h s (List.mem_cons_self _ _)
    rw [renderSlides, renderSlide_title_only m d (i + 1) s sb ht hb hi,
      ih (i + 1) _ (fun x hx => h x (List.mem_cons_of_mem _ hx))]
    simp

theorem join_headings (rest : List Slide) :
    ∀ (h : Str),
      h ++ "\n\n".toList ++ (rest.map (fun s =>
          "\n---\n\n".toList ++ titleHeading s ++ "\n\n".toList)).flatten
        = stringsJoin (h :: rest.map titleHeading) "\n\n\n---\n\n".toList
            ++ "\n\n".toList := by
  induction rest with
  | nil => intro h; simp [stringsJoin]
  | cons s rest ih =>
    intro h
    have := ih (titleHeading s)
    simp only [List.map_cons, List.flatten_cons, stringsJoin, List.append_assoc] at this ⊢
    rw [← this]
    simp [String.toList]

theorem stringsJoin_getLast (sep : Str) (l : List Str) :
    ∀ (a : Str) (c : Char), (l.getLast?.getD a).getLast? = some c →
      (stringsJoin (a :: l) sep).getLast? = some c := by
  induction l with
  | nil => intro a c h; simpa [stringsJoin] using h
  | cons b rest ih =>
    intro a c h
    have h2 : (rest.getLast?.getD b).getLast? = some c := by
      cases rest with
      | nil => simpa using h
      | cons x xs => simpa [List.getLast?_cons_cons] using h
    have h3 := ih b c h2
    rw [stringsJoin, List.getLast?_append, h3]
    simp

theorem titleHeading_getLast (s : Slide) (ht : s.Title ≠ []) :
    (titleHeading s).getLast? = s.Title.getLast? := by
  unfold titleHeading
  rw [List.getLast?_append]
  cases h : s.Title.getLast? with
  | none => exact absurd (List.getLast?_eq_none_iff.mp h) ht
  | some c => simp

theorem last_heading (s0 : Slide) (rest : List Slide) :
    (rest.map titleHeading).getLast?.getD (titleHeading s0)
      = titleHeading ((s0 :: rest).getLast (List.cons_ne_nil _ _)) := by
  have h1 : ((s0 :: rest).map titleHeading).getLast?
      = some ((rest.map titleHeading).getLast?.getD (titleHeading s0)) := by
    rw [List.map_cons, List.getLast?_cons]
  have h2 : ((s0 :: rest).map titleHeading).getLast?
      = some (titleHeading ((s0 :: rest).getLast (List.cons_ne_nil _ _))) := by
    rw [List.getLast?_map, List.getLast?_eq_getLast _ (List.cons_ne_nil _ _)]
    rfl
  exact Option.some.inj (h1.symm.trans h2)

/-- C4 (as amended): for `n ≥ 1` slides with non-empty titles, no bodies and no images,
the last title not ending in a line break, `buildMarkdown` returns the headings
`## <title>` joined by `"\n\n\n---\n\n"` (the two line breaks closing a heading followed
by the separator `"\n---\n\n"`) and terminated by one line break; for the titles `A` and
`B` the result is `"## A\n\n\n---\n\n## B\n"`. -/
theorem markdown_shape (slides : List Slide) (zr : ZipReader) (imageDir : Str)
    (hne : slides ≠ [])
    (h : ∀ s ∈ slides, s.Title ≠ [] ∧ s.Bodies = [] ∧ s.Images = [])
    (hlast : (slides.getLast hne).Title.getLast? ≠ some '\n') :
    buildMarkdown ⟨slides, zr⟩ imageDir
        = stringsJoin (slides.map titleHeading) "\n\n\n---\n\n".toList ++ "\n".toList
      ∧ buildMarkdown titlesAB imageDir = "## A\n\n\n---\n\n## B\n".toList := by
  refine ⟨?_, rfl⟩
  cases slides with
  | nil => exact absurd rfl hne
  | cons s0 rest =>
    obtain ⟨ht, hb, hi⟩ := h s0 (List.mem_cons_self _ _)
    have hsl := (h _ (List.getLast_mem hne)).1
    obtain ⟨c, hc⟩ : ∃ c, ((s0 :: rest).getLast hne).Title.getLast? = some c := by
      cases hq : ((s0 :: rest).getLast hne).Title.getLast? with
      | none => exact absurd (List.getLast?_eq_none_iff.mp hq) hsl
      | some c => exact ⟨c, rfl⟩
    have hcn : c ≠ '\n' := by
      intro he
      rw [he] at hc
      exact hlast hc
    have hj : (stringsJoin (titleHeading s0 :: rest.map titleHeading)
        "\n\n\n---\n\n".toList).getLast? = some c := by
      apply stringsJoin_getLast
      rw [last_heading, titleHeading_getLast _ hsl]
      exact hc
    unfold buildMarkdown
    simp only [renderSlides]
    rw [renderSlides_title_only _ _ rest 0 _ (fun x hx => h x (List.mem_cons_of_mem _ hx)),
      renderSlide_title_only _ _ 0 s0 [] ht hb hi]
    have hj2 := join_headings rest (titleHeading s0)
    simp only [Nat.lt_irrefl, if_false, List.nil_append, gt_iff_lt] at hj2 ⊢
    rw [hj2, trimRight_newlines _ c hcn hj]
    simp

/-- C4, witness: the two slides titled `A` and `B` satisfy the hypotheses. -/
theorem markdown_shape_witness :
    buildMarkdown ⟨titlesAB.Slides, []⟩ "d".toList
        = stringsJoin (titlesAB.Slides.map titleHeading) "\n\n\n---\n\n".toList
            ++ "\n".toList
      ∧ buildMarkdown titlesAB "d".toList = "## A\n\n\n---\n\n## B\n".toList :=
  markdown_shape titlesAB.Slides [] "d".toList (by decide) (by decide) (by decide)

/-- C4, counterexample: for the titles `A` and `B` the document is
`"## A\n\n\n---\n\n## B\n"`, with three line breaks before the rule, not the
`"## A\n\n---\n\n## B\n"` of the claim; and a slide titled `"A\n"` is rendered as
`"## A\n"`, not as its heading followed by one line break. -/
theorem markdown_shape_counterexample :
    buildMarkdown titlesAB "d".toList = "## A\n\n\n---\n\n## B\n".toList
      ∧ buildMarkdown titlesAB "d".toList ≠ "## A\n\n---\n\n## B\n".toList
      ∧ buildMarkdown titleWithNewline "d".toList = "## A\n".toList
      ∧ buildMarkdown titleWithNewline "d".toList
        ≠ stringsJoin (titleWithNewline.Slides.map titleHeading) "\n\n---\n\n".toList
            ++ "\n".toList := by
  decide

/-! ## Slide order and `Parse` -/

theorem slideOrder_foldl (presRels : GoMap Str) (ids : List xmlSlideId) :
    ∀ (acc : List Str),
      ids.foldl (fun slides sid =>
          match presRels sid.RID with
          | none => slides
          | some relTarget => slides ++ [resolveRelPath "ppt".toList relTarget]) acc
        = acc ++ ids.filterMap (fun sid =>
            (presRels sid.RID).map (resolveRelPath "ppt".toList)) := by
  induction ids with
  | nil => intro acc; simp
  | cons sid rest ih =>
    intro acc
    rw [List.foldl_cons, ih]
    cases h : presRels sid.RID <;> simp [h]

theorem filterMap_all_resolved (presRels : GoMap Str) (ids : List xmlSlideId)
    (hres : ∀ sid ∈ ids, ∃ t, presRels sid.RID = some t) :
    ids.filterMap (fun sid => (presRels sid.RID).map (resolveRelPath "ppt".toList))
      = ids.map (slidePathOf presRels) := by
  rw [← List.filterMap_eq_map]
  apply List.filterMap_congr
  intro sid hs
  obtain ⟨t, ht⟩ := hres sid hs
  simp [slidePathOf, ht]

theorem getSlideOrder_resolved (dec : XmlDecoder) (zr : ZipReader) (presRels : GoMap Str)
    (presXML : Bytes) (pres : xmlPresentation)
    (hrels : parseRels dec zr "ppt/_rels/presentation.xml.rels".toList = .ok presRels)
    (hxml : readZipFile zr "ppt/presentation.xml".toList = .ok presXML)
    (hdec : dec.presentation presXML = some pres)
    (hN : pres.SlideIdList.SlideIds ≠ [])
    (hres : ∀ sid ∈ pres.SlideIdList.SlideIds, ∃ t, presRels sid.RID = some t) :
    getSlideOrder dec zr = .ok (pres.SlideIdList.SlideIds.map (slidePathOf presRels)) := by
  unfold getSlideOrder
  simp only [hrels, hxml, hdec]
  rw [slideOrder_foldl, filterMap_all_resolved presRels _ hres]
  simp [hN]

theorem parseSlides_ok (dec : XmlDecoder) (zr : ZipReader) (paths : List Str) :
    ∀ (i : Nat) (acc : List Slide),
      (∀ p ∈ paths, ∃ data sld, readZipFile zr p = .ok data ∧ dec.slide data = some sld) →
      ∃ out, parseSlides dec zr i paths acc = .ok (acc ++ out)
        ∧ out.map Except.ok
          = (paths.enumFrom i).map (fun kp => parseSlide dec zr kp.2 ((kp.1 : Int) + 1)) := by
  induction paths with
  | nil => intro i acc _; exact ⟨[], by simp [parseSlides], by simp⟩
  | cons p rest ih =>
    intro i acc h
    obtain ⟨data, sld, hread, hsld⟩ := h p (List.mem_cons_self _ _)
    have hp : ∃ slide, parseSlide dec zr p ((i : Int) + 1) = .ok slide := by
      unfold parseSlide
      simp only [hread, hsld]
      exact ⟨_, rfl⟩
    obtain ⟨slide, hslide⟩ := hp
    obtain ⟨out, hout, hmap⟩ := ih (i + 1) (acc ++ [slide])
      (fun q hq => h q (List.mem_cons_of_mem _ hq))
    refine ⟨slide :: out, ?_, ?_⟩
    · rw [parseSlides, hslide]
      simp only
      rw [hout]
      simp
    · simp only [List.map_cons, List.enumFrom_cons, hslide, hmap]

/-- C5 (as amended): for a package whose presentation part lists `N ≥ 1` slide-IDs, each
with a relationship-ID that is a key of the presentation-level relationship map, and
whose slide parts can be read and decoded, `Parse` returns exactly `N` slides, the
`i`-th being the result of `parseSlide` on `resolveRelPath("ppt", target of the i-th
slide-ID)` with index `i + 1`, in slide-ID list order. -/
theorem parse_round_trip_order (dec : XmlDecoder) (zr : ZipReader) (presRels : GoMap Str)
    (presXML : Bytes) (pres : xmlPresentation)
    (hrels : parseRels dec zr "ppt/_rels/presentation.xml.rels".toList = .ok presRels)
    (hxml : readZipFile zr "ppt/presentation.xml".toList = .ok presXML)
    (hdec : dec.presentation presXML = some pres)
    (hN : pres.SlideIdList.SlideIds ≠ [])
    (hres : ∀ sid ∈ pres.SlideIdList.SlideIds, ∃ t, presRels sid.RID = some t)
    (hparts : ∀ sid ∈ pres.SlideIdList.SlideIds, ∃ data sld,
      readZipFile zr (slidePathOf presRels sid) = .ok data ∧ dec.slide data = some sld) :
    ∃ p, Parse dec zr = .ok p
      ∧ p.Slides.length = pres.SlideIdList.SlideIds.length
      ∧ p.Slides.map Except.ok
        = ((pres.SlideIdList.SlideIds.map (slidePathOf presRels)).enum).map
            (fun kp => parseSlide dec zr kp.2 ((kp.1 : Int) + 1)) := by
  have hparts2 : ∀ q ∈ pres.SlideIdList.SlideIds.map (slidePathOf presRels),
      ∃ data sld, readZipFile zr q = .ok data ∧ dec.slide data = some sld := by
    intro q hq
    obtain ⟨sid, hs, rfl⟩ := List.mem_map.mp hq
    exact hparts sid hs
  obtain ⟨out, hout, hmap⟩ := parseSlides_ok dec zr _ 0 [] hparts2
  refine ⟨⟨out, zr⟩, ?_, ?_, ?_⟩
  · unfold Parse
    rw [getSlideOrder_resolved dec zr presRels presXML pres hrels hxml hdec hN hres]
    simp only [hout, List.nil_append]
  · have hlen := congrArg List.length hmap
    simpa using hlen
  · simpa [List.enum] using hmap

/-- C5, witness: the two-slide example package satisfies the hypotheses. -/
theorem parse_round_trip_order_witness :
    ∃ p, Parse sampleDecoder twoSlidePackage = .ok p
      ∧ p.Slides.length = 2
      ∧ p.Slides.map Except.ok
        = ((([⟨"rId1".toList⟩, ⟨"rId2".toList⟩] : List xmlSlideId).map
              (slidePathOf ((GoMap.empty.set "rId1".toList "slides/slide1.xml".toList).set
                "rId2".toList "slides/slide2.xml".toList))).enum).map
            (fun kp => parseSlide sampleDecoder twoSlidePackage kp.2 ((kp.1 : Int) + 1)) :=
  parse_round_trip_order sampleDecoder twoSlidePackage
    ((GoMap.empty.set "rId1".toList "slides/slide1.xml".toList).set
      "rId2".toList "slides/slide2.xml".toList)
    presTwoXml
    ⟨⟨[⟨"rId1".toList⟩, ⟨"rId2".toList⟩]⟩⟩
    rfl rfl rfl (by decide)
    (by
      intro sid hs
      simp only [List.mem_cons, List.mem_singleton, List.not_mem_nil, or_false] at hs
      rcases hs with rfl | rfl
      · exact ⟨"slides/slide1.xml".toList, rfl⟩
      · exact ⟨"slides/slide2.xml".toList, rfl⟩)
    (by
      intro sid hs
      simp only [List.mem_cons, List.mem_singleton, List.not_mem_nil, or_false] at hs
      rcases hs with rfl | rfl
      · exact ⟨slideTitleXml, _, rfl, rfl⟩
      · exact ⟨slideEmptyXml, _, rfl, rfl⟩)

/-- C5, counterexample: a package whose presentation part lists `N = 0` slide-IDs (all
of them resolvable, vacuously) and that contains `ppt/slides/slide1.xml`: the
relationships and the presentation part decode, yet `Parse` returns one slide, found by
the fallback scan, not `N = 0` slides. -/
theorem parse_round_trip_order_counterexample :
    (∃ presRels, parseRels sampleDecoder noSlideIdPackage
        "ppt/_rels/presentation.xml.rels".toList = .ok presRels)
      ∧ (readZipFile noSlideIdPackage "ppt/presentation.xml".toList).toOption.bind
          sampleDecoder.presentation = some ⟨⟨[]⟩⟩
      ∧ Parse sampleDecoder noSlideIdPackage
        = .ok ⟨[⟨1, "T".toList, [], []⟩], noSlideIdPackage⟩
      ∧ ¬ ∃ p, Parse sampleDecoder noSlideIdPackage = .ok p ∧ p.Slides.length = 0 := by
  refine ⟨⟨_, rfl⟩, rfl, rfl, ?_⟩
  rintro ⟨p, hp, hlen⟩
  have h : Parse sampleDecoder noSlideIdPackage
      = .ok ⟨[⟨1, "T".toList, [], []⟩], noSlideIdPackage⟩ := rfl
  rw [h] at hp
  cases hp
  simp at hlen

/-! ## The shape tree walker -/

theorem titleOr_titleOr (t : Str) (c1 c2 : List Str) (h1 : ∀ x ∈ c1, x ≠ []) :
    titleOr (titleOr t c1) c2 = titleOr t (c1 ++ c2) := by
  unfold titleOr
  by_cases ht : t = []
  · cases c1 with
    | nil => simp [ht]
    | cons x xs =>
      have hx : x ≠ [] := h1 x (List.mem_cons_self _ _)
      simp [ht, hx]
  · simp [ht]

theorem paragraphs_title (isTitle : Bool) (paras : List xmlParagraph) :
    ∀ (slide : Slide),
      (paras.foldl (fun slide para =>
          let text := paragraphText para
          if text = [] then slide
          else if isTitle = true ∧ slide.Title = [] then { slide with Title := text }
          else { slide with Bodies := slide.Bodies ++ [text] }) slide).Title
        = titleOr slide.Title
            (if isTitle then (paras.map paragraphText).filter (fun t => t ≠ []) else []) := by
  induction paras with
  | nil => intro slide; by_cases h : slide.Title = [] <;> simp [titleOr, h]
  | cons para rest ih =>
    intro slide
    rw [List.foldl_cons, ih]
    by_cases htxt : paragraphText para = []
    · simp [htxt]
    · cases isTitle with
      | false => simp [htxt, titleOr]
      | true =>
        by_cases hs : slide.Title = []
        · simp [htxt, hs, titleOr]
        · simp [htxt, hs, titleOr]

theorem extractShapeText_title (sp : xmlShape) (slide : Slide) :
    (extractShapeText sp slide).Title = titleOr slide.Title (shapeTitleTexts sp) := by
  unfold extractShapeText shapeTitleTexts shapeTexts
  cases h : sp.TxBody with
  | none => by_cases hs : slide.Title = [] <;> simp [titleOr, hs]
  | some txBody => simp only [paragraphs_title]

theorem shapeTitleTexts_ne_nil (sp : xmlShape) : ∀ x ∈ shapeTitleTexts sp, x ≠ [] := by
  intro x hx
  unfold shapeTitleTexts shapeTexts at hx
  by_cases ht : isPlaceholderTitle sp = true
  · cases h : sp.TxBody with
    | none => simp [ht, h] at hx
    | some txBody =>
      simp only [ht, h, if_true, List.mem_filter] at hx
      simpa using hx.2
  · simp [ht] at hx

theorem shapes_title (shapes : List xmlShape) :
    ∀ (slide : Slide),
      (shapes.foldl (fun slide sp => extractShapeText sp slide) slide).Title
        = titleOr slide.Title (shapes.flatMap shapeTitleTexts) := by
  induction shapes with
  | nil => intro slide; by_cases h : slide.Title = [] <;> simp [titleOr, h]
  | cons sp rest ih =>
    intro slide
    rw [List.foldl_cons, ih, extractShapeText_title, List.flatMap_cons,
      titleOr_titleOr _ _ _ (shapeTitleTexts_ne_nil sp)]

theorem extractPicture_eq (pic : xmlPicture) (slide : Slide) (rels : GoMap Str) :
    extractPicture pic slide rels
      = { slide with Images := slide.Images ++ (pictureRef rels pic).toList } := by
  obtain ⟨blipFill⟩ := pic
  cases blipFill with
  | none => simp [extractPicture, pictureRef]
  | some blipFill =>
    obtain ⟨blip⟩ := blipFill
    cases blip with
    | none => simp [extractPicture, pictureRef]
    | some blip =>
      by_cases h : blip.Embed = []
      · simp [extractPicture, pictureRef, h]
      · cases hr : rels blip.Embed <;> simp [extractPicture, pictureRef, h, hr]

theorem extractPicture_title (pic : xmlPicture) (slide : Slide) (rels : GoMap Str) :
    (extractPicture pic slide rels).Title = slide.Title := by
  rw [extractPicture_eq]

theorem pictures_title (rels : GoMap Str) (pics : List xmlPicture) :
    ∀ (slide : Slide),
      (pics.foldl (fun slide pic => extractPicture pic slide rels) slide).Title
        = slide.Title := by
  induction pics with
  | nil => intro slide; rfl
  | cons pic rest ih =>
    intro slide
    rw [List.foldl_cons, ih, extractPicture_title]

theorem flatMap_titles_ne_nil (shapes : List xmlShape) :
    ∀ x ∈ shapes.flatMap shapeTitleTexts, x ≠ [] := by
  intro x hx
  obtain ⟨sp, _, hsp⟩ := List.mem_flatMap.mp hx
  exact shapeTitleTexts_ne_nil sp x hsp

theorem groups_title (rels : GoMap Str) (groups : List xmlGroupShape) :
    ∀ (slide : Slide),
      (groups.foldl (fun slide grp =>
          let slide := grp.Shapes.foldl (fun slide sp => extractShapeText sp slide) slide
          grp.Pictures.foldl (fun slide pic => extractPicture pic slide rels) slide)
        slide).Title
        = titleOr slide.Title
            ((groups.flatMap (fun grp => grp.Shapes)).flatMap shapeTitleTexts) := by
  induction groups with
  | nil => intro slide; by_cases h : slide.Title = [] <;> simp [titleOr, h]
  | cons grp rest ih =>
    intro slide
    rw [List.foldl_cons, ih]
    simp only [pictures_title, shapes_title, List.flatMap_cons, List.flatMap_append]
    rw [titleOr_titleOr _ _ _ (flatMap_titles_ne_nil grp.Shapes)]

theorem walkSlide_title (sld : xmlSlide) (slideRels : GoMap Str) (index : Int) :
    (walkSlide sld slideRels index).Title = firstTitleText sld := by
  unfold walkSlide firstTitleText shapesInOrder
  simp only [pictures_title, groups_title, shapes_title, List.flatMap_append]
  rw [titleOr_titleOr _ _ _ (flatMap_titles_ne_nil _)]
  simp [titleOr]

theorem paragraphs_images (isTitle : Bool) (paras : List xmlParagraph) :
    ∀ (slide : Slide),
      (paras.foldl (fun slide para =>
          let text := paragraphText para
          if text = [] then slide
          else if isTitle = true ∧ slide.Title = [] then { slide with Title := text }
          else { slide with Bodies := slide.Bodies ++ [text] }) slide).Images
        = slide.Images := by
  induction paras with
  | nil => intro slide; rfl
  | cons para rest ih =>
    intro slide
    rw [List.foldl_cons, ih]
    by_cases htxt : paragraphText para = []
    · simp [htxt]
    · by_cases hc : isTitle = true ∧ slide.Title = [] <;> simp [htxt, hc]

theorem extractShapeText_images (sp : xmlShape) (slide : Slide) :
    (extractShapeText sp slide).Images = slide.Images := by
  unfold extractShapeText
  cases sp.TxBody with
  | none => rfl
  | some txBody => simp only [paragraphs_images]

theorem shapes_images (shapes : List xmlShape) :
    ∀ (slide : Slide),
      (shapes.foldl (fun slide sp => extractShapeText sp slide) slide).Images
        = slide.Images := by
  induction shapes with
  | nil => intro slide; rfl
  | cons sp rest ih =>
    intro slide
    rw [List.foldl_cons, ih, extractShapeText_images]

theorem pictures_images (rels : GoMap Str) (pics : List xmlPicture) :
    ∀ (slide : Slide),
      (pics.foldl (fun slide pic => extractPicture pic slide rels) slide).Images
        = slide.Images ++ pics.filterMap (pictureRef rels) := by
  induction pics with
  | nil => intro slide; simp
  | cons pic rest ih =>
    intro slide
    rw [List.foldl_cons, ih, extractPicture_eq]
    cases h : pictureRef rels pic <;> simp [h]

theorem groups_images (rels : GoMap Str) (groups : List xmlGroupShape) :
    ∀ (slide : Slide),
      (groups.foldl (fun slide grp =>
          let slide := grp.Shapes.foldl (fun slide sp => extractShapeText sp slide) slide
          grp.Pictures.foldl (fun slide pic => extractPicture pic slide rels) slide)
        slide).Images
        = slide.Images
          ++ (groups.flatMap (fun grp => grp.Pictures)).filterMap (pictureRef rels) := by
  induction groups with
  | nil => intro slide; simp
  | cons grp rest ih =>
    intro slide
    rw [List.foldl_cons, ih]
    simp only [pictures_images, shapes_images, List.flatMap_cons, List.filterMap_append,
      List.append_assoc]

/-- C8, evaluated at the failing input: the slide part `ppt/deck/s1.xml` embeds a
picture whose target `img/a.png` is relative to the slide. `Parse` records the media
path `ppt/slides/img/a.png`, resolved against the constant `ppt/slides`; resolved
against the slide's own directory `ppt/deck` (the directory `slideRelsPath` uses for the
same slide) it is `ppt/deck/img/a.png`, the entry that holds the image, and the recorded
path cannot be read. -/
theorem image_resolved_against_constant :
    Parse sampleDecoder deckPackage
        = .ok ⟨[⟨1, [], [], [⟨"rId1".toList, "ppt/slides/img/a.png".toList⟩]⟩], deckPackage⟩
      ∧ getSlideOrder sampleDecoder deckPackage = .ok ["ppt/deck/s1.xml".toList]
      ∧ slideRelsPath "ppt/deck/s1.xml".toList = "ppt/deck/_rels/s1.xml.rels".toList
      ∧ resolveRelPath (pathDir "ppt/deck/s1.xml".toList) "img/a.png".toList
        = "ppt/deck/img/a.png".toList
      ∧ Presentation.ReadMedia ⟨[], deckPackage⟩ "ppt/deck/img/a.png".toList
        = .ok "PNG".toList
      ∧ Presentation.ReadMedia ⟨[], deckPackage⟩ "ppt/slides/img/a.png".toList
        = .error (.mediaNotFound "ppt/slides/img/a.png".toList) := by
  refine ⟨rfl, rfl, rfl, rfl, rfl, rfl⟩

/-- C10 (as amended): the images of every slide list the references of the pictures
nested inside groups first, in group order and then intra-group order, followed by the
references of the top-level pictures in tree order. -/
theorem image_reference_order (sld : xmlSlide) (slideRels : GoMap Str) (index : Int) :
    (walkSlide sld slideRels index).Images
      = (sld.CSld.SpTree.GroupShapes.flatMap (fun grp => grp.Pictures)
          ++ sld.CSld.SpTree.Pictures).filterMap (pictureRef slideRels) := by
  unfold walkSlide
  simp only [pictures_images, groups_images, shapes_images, List.filterMap_append,
    List.nil_append]

/-- C10, counterexample: for a slide with the top-level picture `rId1` and a group
holding the picture `rId2`, the images are `rId2` then `rId1`: the nested picture comes
first, not the top-level one. -/
theorem image_reference_order_counterexample :
    (walkSlide pictureAndGroup twoMediaRels 1).Images
        = [⟨"rId2".toList, "ppt/media/image2.png".toList⟩,
           ⟨"rId1".toList, "ppt/media/image1.png".toList⟩]
      ∧ (walkSlide pictureAndGroup twoMediaRels 1).Images
        ≠ (pictureAndGroup.CSld.SpTree.Pictures
            ++ pictureAndGroup.CSld.SpTree.GroupShapes.flatMap (fun grp => grp.Pictures)
          ).filterMap (pictureRef twoMediaRels) := by
  decide

/-! ## The fallback slide order -/

theorem strLess_asymm : ∀ (s t : Str), strLess s t = true → strLess t s = false
  | [], [], h => by simp [strLess] at h
  | [], _ :: _, _ => by simp [strLess]
  | _ :: _, [], h => by simp [strLess] at h
  | a :: s, b :: t, h => by
    unfold strLess at h ⊢
    by_cases h1 : a.toNat < b.toNat
    · have h2 : ¬ b.toNat < a.toNat := by omega
      simp [h1, h2]
    · by_cases h2 : b.toNat < a.toNat
      · simp [h1, h2] at h
      · simp only [h1, h2, if_false] at h ⊢
        exact strLess_asymm s t h

theorem strLE_total (s t : Str) : strLE s t ∨ strLE t s := by
  unfold strLE
  cases h : strLess t s with
  | false => exact Or.inl rfl
  | true => exact Or.inr (strLess_asymm t s h)

theorem strLE_trans : ∀ (a b c : Str), strLE a b → strLE b c → strLE a c
  | [], _, [], _, _ => by simp [strLE, strLess]
  | [], _, _ :: _, _, _ => by simp [strLE, strLess]
  | _ :: _, [], _, h, _ => by simp [strLE, strLess] at h
  | _ :: _, _ :: _, [], _, h => by simp [strLE, strLess] at h
  | x :: a, y :: b, z :: c, h1, h2 => by
    unfold strLE at h1 h2 ⊢
    unfold strLess at h1 h2 ⊢
    by_cases hyx : y.toNat < x.toNat
    · simp [hyx] at h1
    · by_cases hxy : x.toNat < y.toNat
      · by_cases hzy : z.toNat < y.toNat
        · simp [hzy] at h2
        · have hzx : ¬ z.toNat < x.toNat := by omega
          have hxz : x.toNat < z.toNat := by omega
          simp [hzx, hxz]
      · simp only [hyx, hxy, if_false] at h1
        by_cases hzy : z.toNat < y.toNat
        · simp [hzy] at h2
        · by_cases hyz : y.toNat < z.toNat
          · have hzx : ¬ z.toNat < x.toNat := by omega
            have hxz : x.toNat < z.toNat := by omega
            simp [hzx, hxz]
          · simp only [hzy, hyz, if_false] at h2
            have hzx : ¬ z.toNat < x.toNat := by omega
            have hxz : ¬ x.toNat < z.toNat := by omega
            simp only [hzx, hxz, if_false]
            exact strLE_trans a b c h1 h2

theorem char_toNat_inj (a b : Char) (h : a.toNat = b.toNat) : a = b := by
  apply Char.ext
  apply UInt32.ext
  exact h

/-- The comparison `strLess` is the lexicographic order of the character codes. -/
theorem strLess_iff_lex : ∀ (s t : Str),
    strLess s t = true ↔ List.Lex (fun a b : Char => a.toNat < b.toNat) s t
  | [], [] => by simp [strLess]
  | [], _ :: _ => by simp [strLess, List.Lex.nil]
  | _ :: _, [] => by simp [strLess]
  | a :: s, b :: t => by
    unfold strLess
    by_cases h1 : a.toNat < b.toNat
    · simp only [h1, if_true, true_iff]
      exact List.Lex.rel h1
    · by_cases h2 : b.toNat < a.toNat
      · simp only [h1, h2, if_false, if_true, Bool.false_eq_true, false_iff]
        intro hl
        cases hl with
        | cons h => omega
        | rel h => exact h1 h
      · have hab : a = b := char_toNat_inj a b (by omega)
        subst hab
        simp only [h1, if_false]
        rw [strLess_iff_lex s t]
        constructor
        · exact List.Lex.cons
        · intro hl
          cases hl with
          | cons h => exact h
          | rel h => exact absurd h h1

theorem sortStrings_sorted (l : List Str) : (sortStrings l).Sorted strLE := by
  haveI : IsTotal Str strLE := ⟨strLE_total⟩
  haveI : IsTrans Str strLE := ⟨strLE_trans⟩
  exact List.sorted_insertionSort strLE l

theorem sortStrings_perm (l : List Str) : (sortStrings l).Perm l :=
  List.perm_insertionSort strLE l

theorem scan_foldl (zr : ZipReader) :
    ∀ (acc : List Str),
      zr.foldl (fun slides f =>
          if hasPfx f.Name "ppt/slides/slide".toList && hasSfx f.Name ".xml".toList then
            if !strContains f.Name "_rels".toList then slides ++ [f.Name] else slides
          else slides) acc
        = acc ++ (zr.map (fun f => f.Name)).filter isSlidePartName := by
  induction zr with
  | nil => intro acc; simp
  | cons f rest ih =>
    intro acc
    rw [List.foldl_cons, ih, List.map_cons, List.filter_cons]
    unfold isSlidePartName
    cases h1 : (hasPfx f.Name "ppt/slides/slide".toList && hasSfx f.Name ".xml".toList)
    · simp
    · cases h2 : strContains f.Name "_rels".toList <;> simp

theorem scanSlideFiles_eq (zr : ZipReader) :
    scanSlideFiles zr = sortStrings ((zr.map (fun f => f.Name)).filter isSlidePartName) := by
  unfold scanSlideFiles
  rw [scan_foldl]
  simp

/-- C9: when the relationships and the presentation part decode and no slide-ID
resolves, `getSlideOrder` returns exactly the archive entry names that start with
`ppt/slides/slide`, end with `.xml` and do not contain `_rels` (each as often as it
occurs), sorted ascending by the lexical order of the full path; for the parts
`slide1.xml` ... `slide10.xml` the result begins `slide1.xml`, `slide10.xml`,
`slide2.xml`. -/
theorem fallback_order (dec : XmlDecoder) (zr : ZipReader) (presRels : GoMap Str)
    (presXML : Bytes) (pres : xmlPresentation)
    (hrels : parseRels dec zr "ppt/_rels/presentation.xml.rels".toList = .ok presRels)
    (hxml : readZipFile zr "ppt/presentation.xml".toList = .ok presXML)
    (hdec : dec.presentation presXML = some pres)
    (hnone : ∀ sid ∈ pres.SlideIdList.SlideIds, presRels sid.RID = none) :
    (∃ order, getSlideOrder dec zr = .ok order
        ∧ order.Perm ((zr.map (fun f => f.Name)).filter isSlidePartName)
        ∧ order.Sorted strLE)
      ∧ getSlideOrder sampleDecoder tenSlidePackage
        = .ok ["ppt/slides/slide1.xml".toList, "ppt/slides/slide10.xml".toList,
               "ppt/slides/slide2.xml".toList, "ppt/slides/slide3.xml".toList,
               "ppt/slides/slide4.xml".toList, "ppt/slides/slide5.xml".toList,
               "ppt/slides/slide6.xml".toList, "ppt/slides/slide7.xml".toList,
               "ppt/slides/slide8.xml".toList, "ppt/slides/slide9.xml".toList] := by
  refine ⟨⟨scanSlideFiles zr, ?_, ?_, ?_⟩, rfl⟩
  · unfold getSlideOrder
    simp only [hrels, hxml, hdec]
    rw [slideOrder_foldl]
    have hnil : pres.SlideIdList.SlideIds.filterMap (fun sid =>
        (presRels sid.RID).map (resolveRelPath "ppt".toList)) = [] := by
      rw [List.filterMap_eq_nil_iff]
      intro sid hs
      simp [hnone sid hs]
    rw [hnil]
    rfl
  · rw [scanSlideFiles_eq]
    exact sortStrings_perm _
  · rw [scanSlideFiles_eq]
    exact sortStrings_sorted _

/-- C9, witness: the ten-slide example package has no slide-ID at all, so none
resolves. -/
theorem fallback_order_witness :
    (∃ order, getSlideOrder sampleDecoder tenSlidePackage = .ok order
        ∧ order.Perm ((tenSlidePackage.map (fun f => f.Name)).filter isSlidePartName)
        ∧ order.Sorted strLE)
      ∧ getSlideOrder sampleDecoder tenSlidePackage
        = .ok ["ppt/slides/slide1.xml".toList, "ppt/slides/slide10.xml".toList,
               "ppt/slides/slide2.xml".toList, "ppt/slides/slide3.xml".toList,
               "ppt/slides/slide4.xml".toList, "ppt/slides/slide5.xml".toList,
               "ppt/slides/slide6.xml".toList, "ppt/slides/slide7.xml".toList,
               "ppt/slides/slide8.xml".toList, "ppt/slides/slide9.xml".toList] :=
  fallback_order sampleDecoder tenSlidePackage GoMap.empty presNoneXml
    ⟨⟨[]⟩⟩ rfl rfl rfl (by intro sid hs; cases hs)

/-! ## `path.Clean` computes the normalised form -/

theorem stringsJoin_cons_cons (sep a b : Str) (rest : List Str) :
    stringsJoin (a :: b :: rest) sep = a ++ sep ++ stringsJoin (b :: rest) sep := rfl

theorem stringsJoin_snoc (sep x : Str) (l : List Str) :
    stringsJoin (l ++ [x]) sep = if l = [] then x else stringsJoin l sep ++ sep ++ x := by
  induction l with
  | nil => simp [stringsJoin]
  | cons a rest ih =>
    cases rest with
    | nil => simp [stringsJoin]
    | cons b rest2 =>
      rw [List.cons_append, List.cons_append, stringsJoin_cons_cons, ← List.cons_append, ih,
        stringsJoin_cons_cons]
      simp

theorem stringsJoin_ne_nil (sep : Str) (l : List Str) (hl : l ≠ [])
    (h : ∀ x ∈ l, x ≠ []) : stringsJoin l sep ≠ [] := by
  cases l with
  | nil => exact absurd rfl hl
  | cons a rest =>
    have ha : a ≠ [] := h a (List.mem_cons_self _ _)
    cases rest with
    | nil => simpa [stringsJoin] using ha
    | cons b rest2 => simp [stringsJoin, ha]

theorem stringsJoin_length_mono (sep : Str) (l m : List Str) :
    (stringsJoin l sep).length ≤ (stringsJoin (l ++ m) sep).length := by
  induction l with
  | nil => simp [stringsJoin]
  | cons a rest ih =>
    cases rest with
    | nil =>
      cases m with
      | nil => simp
      | cons b m2 => simp [stringsJoin]
    | cons b rest2 =>
      rw [List.cons_append, List.cons_append, stringsJoin_cons_cons, stringsJoin_cons_cons,
        ← List.cons_append]
      simp only [List.length_append]
      omega

theorem join_push (rooted : Bool) (elems : List Str) (seg : Str)
    (h : ∀ x ∈ elems, x ≠ []) :
    (if (rooted = true ∧ ((if rooted then ['/'] else []) ++ stringsJoin elems ['/']).length ≠ 1)
          ∨ (rooted = false
            ∧ ((if rooted then ['/'] else []) ++ stringsJoin elems ['/']).length ≠ 0)
        then ((if rooted then ['/'] else []) ++ stringsJoin elems ['/']) ++ ['/']
        else (if rooted then ['/'] else []) ++ stringsJoin elems ['/']) ++ seg
      = (if rooted then ['/'] else []) ++ stringsJoin (elems ++ [seg]) ['/'] := by
  rw [stringsJoin_snoc]
  by_cases he : elems = []
  · subst he
    cases rooted <;> simp [stringsJoin]
  · have hj := stringsJoin_ne_nil ['/'] elems he h
    have hlen : 0 < (stringsJoin elems ['/']).length := List.length_pos.mpr hj
    cases rooted
    · have h0 : (stringsJoin elems ['/']).length ≠ 0 := by omega
      simp [he, h0, hj]
    · have h1 : (stringsJoin elems ['/']).length + 1 ≠ 1 := by omega
      simp [he, hj]

theorem backtrack_stop (buf : List Char) (dd w : Nat)
    (h : w ≤ dd ∨ buf.getD w '/' = '/') : backtrack buf dd w = w := by
  cases w with
  | zero => rfl
  | succ w =>
    rw [backtrack]
    rcases h with h | h
    · exact if_neg (fun hc => absurd hc.1 (by omega))
    · exact if_neg (fun hc => hc.2 h)

theorem backtrack_run (buf : List Char) (dd q : Nat) (hq : dd ≤ q) :
    ∀ (j : Nat), (∀ i, 1 ≤ i → i ≤ j → buf.getD (q + i) '/' ≠ '/') →
      backtrack buf dd (q + j) = backtrack buf dd q := by
  intro j
  induction j with
  | zero => intro _; rfl
  | succ j ih =>
    intro h
    have h1 : q + (j + 1) = (q + j) + 1 := by omega
    have h2 : q + j + 1 > dd := by omega
    have h3 : buf.getD (q + j + 1) '/' ≠ '/' := by
      have := h (j + 1) (by omega) (by omega)
      rwa [h1] at this
    rw [h1, backtrack]
    simp only [h2, h3, ne_eq, not_false_eq_true, and_self, if_true]
    exact ih (fun i hi1 hi2 => h i hi1 (by omega))

theorem getD_no_slash (n : Str) (hs : '/' ∉ n) (i : Nat) (hi : i < n.length) :
    n.getD i '/' ≠ '/' := by
  rw [List.getD_eq_getElem _ _ hi]
  intro he
  exact hs (he ▸ List.getElem_mem hi)

theorem pop_buffer (P S n : Str) (dd : Nat) (hn : n ≠ []) (hs : '/' ∉ n)
    (hdd : dd ≤ P.length) (hS : S = ['/'] ∨ (S = [] ∧ P.length = dd)) :
    (P ++ S ++ n).take (backtrack (P ++ S ++ n) dd ((P ++ S ++ n).length - 1)) = P := by
  have hnl : 0 < n.length := List.length_pos.mpr hn
  have hlen : (P ++ S ++ n).length - 1 = P.length + (S.length + n.length - 1) := by
    simp only [List.length_append]; omega
  have hrun : ∀ i, 1 ≤ i → i ≤ S.length + n.length - 1 →
      (P ++ S ++ n).getD (P.length + i) '/' ≠ '/' := by
    intro i hi1 hi2
    rcases hS with hS | ⟨hS, _⟩
    · subst hS
      have h1 : (P ++ ['/']).length ≤ P.length + i := by simp; omega
      rw [List.getD_append_right _ _ _ _ h1]
      apply getD_no_slash n hs
      simp at hi2 ⊢
      omega
    · subst hS
      have h1 : (P ++ []).length ≤ P.length + i := by simp
      rw [List.getD_append_right _ _ _ _ h1]
      apply getD_no_slash n hs
      simp at hi2 ⊢
      omega
  have hstop : P.length ≤ dd ∨ (P ++ S ++ n).getD P.length '/' = '/' := by
    rcases hS with hS | ⟨_, hP⟩
    · right
      subst hS
      rw [List.append_assoc, List.getD_append_right _ _ _ _ (Nat.le_refl _)]
      simp
    · left; omega
  rw [hlen, backtrack_run _ dd P.length hdd _ hrun, backtrack_stop _ dd _ hstop,
    List.append_assoc, List.take_left]

theorem elems_ne_nil (rooted : Bool) (st : NormState) (h : properNames st.names) :
    ∀ x ∈ elemsOf rooted st, x ≠ [] := by
  intro x hx
  unfold elemsOf upElems at hx
  rcases List.mem_append.mp hx with h1 | h1
  · cases rooted
    · simp only [Bool.false_eq_true, if_false] at h1
      rw [List.eq_of_mem_replicate h1]
      simp
    · simp at h1
  · exact (h x (List.mem_reverse.mp h1)).1

theorem elemsOf_push (rooted : Bool) (ups : Nat) (seg : Str) (names : List Str) :
    elemsOf rooted ⟨ups, seg :: names⟩ = elemsOf rooted ⟨ups, names⟩ ++ [seg] := by
  simp [elemsOf]

theorem buf_push (rooted : Bool) (ups : Nat) (names : List Str) (seg : Str)
    (h : properNames names) :
    (if (rooted = true ∧ (bufOf rooted ⟨ups, names⟩).length ≠ 1)
          ∨ (rooted = false ∧ (bufOf rooted ⟨ups, names⟩).length ≠ 0)
        then bufOf rooted ⟨ups, names⟩ ++ ['/'] else bufOf rooted ⟨ups, names⟩) ++ seg
      = bufOf rooted ⟨ups, seg :: names⟩ := by
  unfold bufOf
  rw [elemsOf_push]
  exact join_push rooted _ seg (elems_ne_nil rooted ⟨ups, names⟩ h)

theorem ddOf_le_buf (rooted : Bool) (st : NormState) :
    ddOf rooted st ≤ (bufOf rooted st).length := by
  unfold ddOf bufOf elemsOf
  simp only [List.length_append]
  have := stringsJoin_length_mono ['/'] (upElems rooted st.ups) st.names.reverse
  omega

theorem buf_pop (rooted : Bool) (ups : Nat) (n : Str) (ns : List Str)
    (h : properNames (n :: ns)) :
    (bufOf rooted ⟨ups, n :: ns⟩).length > ddOf rooted ⟨ups, n :: ns⟩
      ∧ (bufOf rooted ⟨ups, n :: ns⟩).take
          (backtrack (bufOf rooted ⟨ups, n :: ns⟩) (ddOf rooted ⟨ups, n :: ns⟩)
            ((bufOf rooted ⟨ups, n :: ns⟩).length - 1))
        = bufOf rooted ⟨ups, ns⟩ := by
  have hns : properNames ns := fun x hx => h x (List.mem_cons_of_mem _ hx)
  obtain ⟨hn, hsl⟩ := h n (List.mem_cons_self _ _)
  have hnl : 0 < n.length := List.length_pos.mpr hn
  have hdd : ddOf rooted ⟨ups, n :: ns⟩ = ddOf rooted ⟨ups, ns⟩ := rfl
  have hle := ddOf_le_buf rooted ⟨ups, ns⟩
  have hpush := buf_push rooted ups ns n hns
  rw [hdd, ← hpush]
  by_cases hc : (rooted = true ∧ (bufOf rooted ⟨ups, ns⟩).length ≠ 1)
      ∨ (rooted = false ∧ (bufOf rooted ⟨ups, ns⟩).length ≠ 0)
  · rw [if_pos hc]
    refine ⟨by simp only [List.length_append, List.length_singleton]; omega, ?_⟩
    exact pop_buffer _ ['/'] n _ hn hsl hle (Or.inl rfl)
  · rw [if_neg hc]
    have hlen : (bufOf rooted ⟨ups, ns⟩).length = ddOf rooted ⟨ups, ns⟩ := by
      cases rooted
      · have h0 : (bufOf false ⟨ups, ns⟩).length = 0 := by
          by_contra hne
          exact hc (Or.inr ⟨rfl, hne⟩)
        omega
      · have h1 : (bufOf true ⟨ups, ns⟩).length = 1 := by
          by_contra hne
          exact hc (Or.inl ⟨rfl, hne⟩)
        have h2 : 1 ≤ ddOf true ⟨ups, ns⟩ := by simp [ddOf]
        omega
    refine ⟨by simp only [List.length_append]; omega, ?_⟩
    have := pop_buffer (bufOf rooted ⟨ups, ns⟩) [] n _ hn hsl hle (Or.inr ⟨rfl, hlen⟩)
    simpa using this

theorem buf_up (ups : Nat) :
    (bufOf false ⟨ups, []⟩).length = ddOf false ⟨ups, []⟩
      ∧ (if (bufOf false ⟨ups, []⟩).length > 0 then bufOf false ⟨ups, []⟩ ++ ['/']
          else bufOf false ⟨ups, []⟩) ++ ['.', '.'] = bufOf false ⟨ups + 1, []⟩
      ∧ (bufOf false ⟨ups + 1, []⟩).length = ddOf false ⟨ups + 1, []⟩ := by
  have hb : ∀ k, bufOf false ⟨k, []⟩ = stringsJoin (List.replicate k ['.', '.']) ['/'] := by
    intro k; simp [bufOf, elemsOf, upElems]
  have hd : ∀ k, ddOf false ⟨k, []⟩
      = (stringsJoin (List.replicate k ['.', '.']) ['/']).length := by
    intro k; simp [ddOf, upElems]
  refine ⟨by rw [hb, hd], ?_, by rw [hb, hd]⟩
  have hp := join_push false (List.replicate ups ['.', '.']) ['.', '.']
    (fun x hx => by rw [List.eq_of_mem_replicate hx]; simp)
  simp only [Bool.false_eq_true, if_false, false_and, false_or, true_and,
    List.nil_append] at hp
  rw [hb, hb, List.replicate_succ', ← hp]
  by_cases h0 : (stringsJoin (List.replicate ups ['.', '.']) ['/']).length = 0
  · simp [h0]
  · have h1 : (stringsJoin (List.replicate ups ['.', '.']) ['/']).length > 0 := by omega
    simp [h0, h1]

theorem splitSlash_shape (r : Str) :
    splitSlash r = r.takeWhile (fun x => x ≠ '/')
      :: (if r.dropWhile (fun x => x ≠ '/') = [] then []
          else splitSlash (r.dropWhile (fun x => x ≠ '/')).tail) := by
  induction r with
  | nil => simp [splitSlash]
  | cons c cs ih =>
    by_cases hc : c = '/'
    · subst hc
      simp [splitSlash]
    · rw [splitSlash, if_neg hc, ih]
      simp [List.takeWhile_cons, List.dropWhile_cons, hc]

theorem dropWhile_slash (r : Str) :
    r.dropWhile (fun x => x ≠ '/') = []
      ∨ ∃ r2, r.dropWhile (fun x => x ≠ '/') = '/' :: r2 := by
  induction r with
  | nil => left; rfl
  | cons c cs ih =>
    by_cases hc : c = '/'
    · subst hc
      right
      exact ⟨cs, by simp [List.dropWhile_cons]⟩
    · simpa [List.dropWhile_cons, hc] using ih

theorem normStep_nil (rooted : Bool) (st : NormState) : normStep rooted st [] = st := by
  simp [normStep]

theorem fold_split (rooted : Bool) (st : NormState) (r : Str) :
    (splitSlash r).foldl (normStep rooted) st
      = (splitSlash (r.dropWhile (fun x => x ≠ '/'))).foldl (normStep rooted)
          (normStep rooted st (r.takeWhile (fun x => x ≠ '/'))) := by
  rw [splitSlash_shape r]
  rcases dropWhile_slash r with h | ⟨r2, h⟩
  · rw [h]
    simp [splitSlash, normStep_nil]
  · rw [h]
    simp [splitSlash, normStep_nil]

theorem takeWhile_no_slash (r : Str) : '/' ∉ r.takeWhile (fun x => x ≠ '/') := by
  intro h
  have := List.mem_takeWhile_imp h
  simp at this

theorem cleanLoop_nil (rooted : Bool) (fuel : Nat) (out : List Char) (dd : Nat) :
    cleanLoop rooted fuel [] out dd = out := by
  cases fuel <;> rfl

theorem segment_dot (c : Char) (tl : Str) (hc : c ≠ '/') :
    (c :: tl).takeWhile (fun x => x ≠ '/') = ['.']
      ↔ (c = '.' ∧ (tl = [] ∨ tl.head? = some '/')) := by
  cases tl with
  | nil => simp [List.takeWhile_cons, hc]
  | cons d tl2 =>
    by_cases hd : d = '/'
    · subst hd
      simp [List.takeWhile_cons, hc]
    · simp [List.takeWhile_cons, hc, hd]

theorem segment_dotdot (c : Char) (tl : Str) (hc : c ≠ '/') :
    (c :: tl).takeWhile (fun x => x ≠ '/') = ['.', '.']
      ↔ (c = '.' ∧ tl.head? = some '.' ∧ (tl.tail = [] ∨ tl.tail.head? = some '/')) := by
  cases tl with
  | nil => simp [List.takeWhile_cons, hc]
  | cons d tl2 =>
    by_cases hd : d = '/'
    · subst hd
      simp [List.takeWhile_cons, hc]
    · cases tl2 with
      | nil => simp [List.takeWhile_cons, hc, hd]
      | cons e tl3 =>
        by_cases he : e = '/'
        · subst he
          simp [List.takeWhile_cons, hc, hd]
        · simp [List.takeWhile_cons, hc, hd, he]

theorem dropWhile_after_dot (tl : Str) (h : tl = [] ∨ tl.head? = some '/') :
    tl.dropWhile (fun x => x ≠ '/') = tl := by
  cases tl with
  | nil => rfl
  | cons d tl2 =>
    have hd : d = '/' := by simpa using h
    subst hd
    simp [List.dropWhile_cons]

theorem dropWhile_after_dotdot (tl : Str) (h1 : tl.head? = some '.')
    (h2 : tl.tail = [] ∨ tl.tail.head? = some '/') :
    tl.dropWhile (fun x => x ≠ '/') = tl.tail := by
  cases tl with
  | nil => simp at h1
  | cons d tl2 =>
    have hd : d = '.' := by simpa using h1
    subst hd
    have := dropWhile_after_dot tl2 (by simpa using h2)
    simpa [List.dropWhile_cons] using this

theorem cleanLoop_sim (rooted : Bool) :
    ∀ (fuel : Nat) (rest : Str) (st : NormState),
      rest.length ≤ fuel → properNames st.names →
      cleanLoop rooted fuel rest (bufOf rooted st) (ddOf rooted st)
          = bufOf rooted ((splitSlash rest).foldl (normStep rooted) st)
        ∧ properNames ((splitSlash rest).foldl (normStep rooted) st).names := by
  intro fuel
  induction fuel with
  | zero =>
    intro rest st hlen hp
    have hr : rest = [] := List.length_eq_zero.mp (Nat.le_zero.mp hlen)
    subst hr
    simpa [cleanLoop_nil, splitSlash, normStep_nil] using hp
  | succ f ih =>
    intro rest st hlen hp
    cases rest with
    | nil => simpa [cleanLoop_nil, splitSlash, normStep_nil] using hp
    | cons c tl =>
      have hf : tl.length ≤ f := by simpa using hlen
      by_cases hc : c = '/'
      · subst hc
        have hs : splitSlash ('/' :: tl) = [] :: splitSlash tl := by simp [splitSlash]
        rw [hs, List.foldl_cons, normStep_nil]
        have hstep : cleanLoop rooted (f + 1) ('/' :: tl) (bufOf rooted st) (ddOf rooted st)
            = cleanLoop rooted f tl (bufOf rooted st) (ddOf rooted st) := by
          simp [cleanLoop]
        rw [hstep]
        exact ih tl st hf hp
      · rw [fold_split]
        have hdrop : (c :: tl).dropWhile (fun x => x ≠ '/')
            = tl.dropWhile (fun x => x ≠ '/') := by
          simp [List.dropWhile_cons, hc]
        have hdl : (tl.dropWhile (fun x => x ≠ '/')).length ≤ f :=
          Nat.le_trans (List.dropWhile_sublist _).length_le hf
        by_cases h2 : c = '.' ∧ (tl = [] ∨ tl.head? = some '/')
        · -- the segment is `.`
          have hseg := (segment_dot c tl hc).mpr h2
          have hstep : cleanLoop rooted (f + 1) (c :: tl) (bufOf rooted st) (ddOf rooted st)
              = cleanLoop rooted f tl (bufOf rooted st) (ddOf rooted st) := by
            rw [cleanLoop, if_neg hc, if_pos h2]
          have hn : normStep rooted st ['.'] = st := by simp [normStep]
          rw [hstep, hseg, hn, hdrop, dropWhile_after_dot tl h2.2]
          exact ih tl st hf hp
        · by_cases h3 : c = '.' ∧ tl.head? = some '.'
              ∧ (tl.tail = [] ∨ tl.tail.head? = some '/')
          · -- the segment is `..`
            have hseg := (segment_dotdot c tl hc).mpr h3
            have htl : tl.tail.length ≤ f :=
              Nat.le_trans (List.tail_sublist tl).length_le hf
            rw [hseg, hdrop, dropWhile_after_dotdot tl h3.2.1 h3.2.2]
            obtain ⟨ups, names⟩ := st
            cases names with
            | cons n ns =>
              obtain ⟨hgt, htake⟩ := buf_pop rooted ups n ns hp
              have hstep : cleanLoop rooted (f + 1) (c :: tl) (bufOf rooted ⟨ups, n :: ns⟩)
                    (ddOf rooted ⟨ups, n :: ns⟩)
                  = cleanLoop rooted f tl.tail (bufOf rooted ⟨ups, ns⟩)
                      (ddOf rooted ⟨ups, ns⟩) := by
                rw [cleanLoop, if_neg hc, if_neg h2, if_pos h3, if_pos hgt, htake]
                rfl
              have hn : normStep rooted ⟨ups, n :: ns⟩ ['.', '.'] = ⟨ups, ns⟩ := by
                simp [normStep]
              rw [hstep, hn]
              exact ih tl.tail ⟨ups, ns⟩ htl (fun x hx => hp x (List.mem_cons_of_mem _ hx))
            | nil =>
              cases rooted with
              | true =>
                have hstep : cleanLoop true (f + 1) (c :: tl) (bufOf true ⟨ups, []⟩)
                      (ddOf true ⟨ups, []⟩)
                    = cleanLoop true f tl.tail (bufOf true ⟨ups, []⟩)
                        (ddOf true ⟨ups, []⟩) := by
                  have hle : ¬ (bufOf true ⟨ups, []⟩).length > ddOf true ⟨ups, []⟩ := by
                    simp [bufOf, ddOf, elemsOf, upElems, stringsJoin]
                  rw [cleanLoop, if_neg hc, if_neg h2, if_pos h3, if_neg hle,
                    if_neg (by simp)]
                have hn : normStep true ⟨ups, []⟩ ['.', '.'] = ⟨ups, []⟩ := by
                  simp [normStep]
                rw [hstep, hn]
                exact ih tl.tail ⟨ups, []⟩ htl hp
              | false =>
                obtain ⟨hlen0, hout, hlen1⟩ := buf_up ups
                have hstep : cleanLoop false (f + 1) (c :: tl) (bufOf false ⟨ups, []⟩)
                      (ddOf false ⟨ups, []⟩)
                    = cleanLoop false f tl.tail (bufOf false ⟨ups + 1, []⟩)
                        (ddOf false ⟨ups + 1, []⟩) := by
                  have hle : ¬ (bufOf false ⟨ups, []⟩).length > ddOf false ⟨ups, []⟩ := by
                    omega
                  rw [cleanLoop, if_neg hc, if_neg h2, if_pos h3, if_neg hle, if_pos rfl]
                  simp only
                  rw [hout, hlen1]
                have hn : normStep false ⟨ups, []⟩ ['.', '.'] = ⟨ups + 1, []⟩ := by
                  simp [normStep]
                rw [hstep, hn]
                exact ih tl.tail ⟨ups + 1, []⟩ htl hp
          · -- a real path element
            have hne1 : (c :: tl).takeWhile (fun x => x ≠ '/') ≠ ['.'] :=
              fun he => h2 ((segment_dot c tl hc).mp he)
            have hne2 : (c :: tl).takeWhile (fun x => x ≠ '/') ≠ ['.', '.'] :=
              fun he => h3 ((segment_dotdot c tl hc).mp he)
            have hne0 : (c :: tl).takeWhile (fun x => x ≠ '/') ≠ [] := by
              simp [List.takeWhile_cons, hc]
            obtain ⟨ups, names⟩ := st
            have hn : normStep rooted ⟨ups, names⟩ ((c :: tl).takeWhile (fun x => x ≠ '/'))
                = ⟨ups, (c :: tl).takeWhile (fun x => x ≠ '/') :: names⟩ := by
              unfold normStep
              rw [if_neg (fun h => h.elim hne0 hne1), if_neg hne2]
            have hstep : cleanLoop rooted (f + 1) (c :: tl) (bufOf rooted ⟨ups, names⟩)
                  (ddOf rooted ⟨ups, names⟩)
                = cleanLoop rooted f (tl.dropWhile (fun x => x ≠ '/'))
                    (bufOf rooted ⟨ups, (c :: tl).takeWhile (fun x => x ≠ '/') :: names⟩)
                    (ddOf rooted ⟨ups, (c :: tl).takeWhile (fun x => x ≠ '/') :: names⟩) := by
              rw [cleanLoop, if_neg hc, if_neg h2, if_neg h3]
              simp only
              rw [buf_push rooted ups names _ hp, hdrop]
              rfl
            rw [hstep, hn, hdrop]
            refine ih _ _ hdl ?_
            intro x hx
            rcases List.mem_cons.mp hx with hx | hx
            · subst hx
              exact ⟨hne0, takeWhile_no_slash _⟩
            · exact hp x hx

theorem pathClean_normalise (p : Str) : pathClean p = normalise p := by
  cases p with
  | nil => rfl
  | cons c tl =>
    by_cases hc : c = '/'
    · subst hc
      have hb : bufOf true ⟨0, []⟩ = ['/'] := rfl
      have hd : ddOf true ⟨0, []⟩ = 1 := rfl
      obtain ⟨hsim, _⟩ := cleanLoop_sim true (tl.length + 1) tl ⟨0, []⟩ (by omega)
        (fun x hx => by cases hx)
      rw [hb, hd] at hsim
      have hs : splitSlash ('/' :: tl) = [] :: splitSlash tl := by simp [splitSlash]
      unfold pathClean normalise
      simp only [List.head?_cons, List.tail_cons, List.length_cons, decide_True, if_true,
        hsim, hs, List.foldl_cons, normStep_nil]
      simp [bufOf, normRender]
    · have hb : bufOf false ⟨0, []⟩ = [] := rfl
      have hd : ddOf false ⟨0, []⟩ = 0 := rfl
      obtain ⟨hsim, hprop⟩ := cleanLoop_sim false (tl.length + 1) (c :: tl) ⟨0, []⟩
        (by simp) (fun x hx => by cases hx)
      rw [hb, hd] at hsim
      have hr : (decide ((c :: tl).head? = some '/')) = false := by simp [hc]
      unfold pathClean normalise
      simp only [hr, List.length_cons, hsim]
      simp only [bufOf, normRender, Bool.false_eq_true, if_false, List.nil_append]
      by_cases he : elemsOf false ((splitSlash (c :: tl)).foldl (normStep false) ⟨0, []⟩) = []
      · simp [he, stringsJoin]
      · have hj := stringsJoin_ne_nil ['/'] _ he (elems_ne_nil false _ hprop)
        have hl : (stringsJoin (elemsOf false
            ((splitSlash (c :: tl)).foldl (normStep false) ⟨0, []⟩)) ['/']).length ≠ 0 := by
          intro h0
          exact hj (List.length_eq_zero.mp h0)
        simp [he, hl]

/-- C7: `resolveRelPath(base, target)` is `target` without its leading slash when
`target` starts with `/`, and otherwise the normalised form of `base + "/" + target`, in
which each `..` segment ascends one directory and `.` (and empty) segments vanish; in
particular `resolve("ppt/slides", "../media/image1.png") = "ppt/media/image1.png"` and
`resolve("ppt", "/ppt/media/x.png") = "ppt/media/x.png"`. -/
theorem path_resolution (base target : Str) :
    resolveRelPath base target
        = (if target.head? = some '/' then target.tail
           else normalise (base ++ ['/'] ++ target))
      ∧ resolveRelPath "ppt/slides".toList "../media/image1.png".toList
        = "ppt/media/image1.png".toList
      ∧ resolveRelPath "ppt".toList "/ppt/media/x.png".toList = "ppt/media/x.png".toList := by
  refine ⟨?_, by decide, by decide⟩
  unfold resolveRelPath
  rw [pathClean_normalise]
  cases target with
  | nil => simp [hasPfx, List.isPrefixOf]
  | cons c tl =>
    by_cases hc : c = '/'
    · subst hc
      simp [hasPfx, trimPfx, List.isPrefixOf]
    · have hc2 : ¬ '/' = c := fun h => hc h.symm
      simp [hasPfx, List.isPrefixOf, hc, hc2]

/-! ## Bodies -/

theorem paragraphs_absorb (isTitle : Bool) (paras : List xmlParagraph) :
    ∀ (slide : Slide),
      (fun s : Slide => (s.Title, s.Bodies))
          (paras.foldl (fun slide para =>
            let text := paragraphText para
            if text = [] then slide
            else if isTitle = true ∧ slide.Title = [] then { slide with Title := text }
            else { slide with Bodies := slide.Bodies ++ [text] }) slide)
        = (((paras.map paragraphText).filter (fun t => t ≠ [])).map
            (fun t => (isTitle, t))).foldl absorbText (slide.Title, slide.Bodies) := by
  induction paras with
  | nil => intro slide; rfl
  | cons para rest ih =>
    intro slide
    rw [List.foldl_cons, ih]
    by_cases htxt : paragraphText para = []
    · simp [htxt]
    · by_cases hc : isTitle = true ∧ slide.Title = []
      · simp [htxt, hc, absorbText]
      · simp [htxt, hc, absorbText]

theorem extractShapeText_absorb (sp : xmlShape) (slide : Slide) :
    ((extractShapeText sp slide).Title, (extractShapeText sp slide).Bodies)
      = (shapeTagged sp).foldl absorbText (slide.Title, slide.Bodies) := by
  unfold extractShapeText shapeTagged shapeTexts
  cases h : sp.TxBody with
  | none => rfl
  | some txBody => exact paragraphs_absorb _ _ slide

theorem shapes_absorb (shapes : List xmlShape) :
    ∀ (slide : Slide),
      (fun s : Slide => (s.Title, s.Bodies))
          (shapes.foldl (fun slide sp => extractShapeText sp slide) slide)
        = (shapes.flatMap shapeTagged).foldl absorbText (slide.Title, slide.Bodies) := by
  induction shapes with
  | nil => intro slide; rfl
  | cons sp rest ih =>
    intro slide
    rw [List.foldl_cons, ih, List.flatMap_cons, List.foldl_append, extractShapeText_absorb]

theorem pictures_text (rels : GoMap Str) (pics : List xmlPicture) :
    ∀ (slide : Slide),
      (fun s : Slide => (s.Title, s.Bodies))
          (pics.foldl (fun slide pic => extractPicture pic slide rels) slide)
        = (slide.Title, slide.Bodies) := by
  induction pics with
  | nil => intro slide; rfl
  | cons pic rest ih =>
    intro slide
    rw [List.foldl_cons, ih, extractPicture_eq]

theorem groups_absorb (rels : GoMap Str) (groups : List xmlGroupShape) :
    ∀ (slide : Slide),
      (fun s : Slide => (s.Title, s.Bodies))
          (groups.foldl (fun slide grp =>
            let slide := grp.Shapes.foldl (fun slide sp => extractShapeText sp slide) slide
            grp.Pictures.foldl (fun slide pic => extractPicture pic slide rels) slide)
          slide)
        = ((groups.flatMap (fun grp => grp.Shapes)).flatMap shapeTagged).foldl absorbText
            (slide.Title, slide.Bodies) := by
  induction groups with
  | nil => intro slide; rfl
  | cons grp rest ih =>
    intro slide
    rw [List.foldl_cons, ih]
    have h1 := pictures_text rels grp.Pictures
      (grp.Shapes.foldl (fun slide sp => extractShapeText sp slide) slide)
    have h2 := shapes_absorb grp.Shapes slide
    simp only at h1 h2 ⊢
    rw [h1, h2, List.flatMap_cons, List.flatMap_append, List.foldl_append]

theorem walkSlide_absorb (sld : xmlSlide) (slideRels : GoMap Str) (index : Int) :
    ((walkSlide sld slideRels index).Title, (walkSlide sld slideRels index).Bodies)
      = (taggedTexts sld).foldl absorbText ([], []) := by
  unfold walkSlide taggedTexts shapesInOrder
  have h1 := pictures_text slideRels sld.CSld.SpTree.Pictures
  have h2 := groups_absorb slideRels sld.CSld.SpTree.GroupShapes
  have h3 := shapes_absorb sld.CSld.SpTree.Shapes ⟨index, [], [], []⟩
  simp only at h1 h2 h3 ⊢
  rw [h1, h2, h3, List.flatMap_append, List.foldl_append]

theorem absorb_foldl (l : List (Bool × Str)) :
    ∀ (t : Str) (bodies : List Str), (∀ x ∈ l, x.2 ≠ []) →
      (l.foldl absorbText (t, bodies)).2
        = bodies ++ (if t ≠ [] then l else l.eraseP (fun x => x.1)).map Prod.snd := by
  induction l with
  | nil => intro t bodies _; simp
  | cons x xs ih =>
    intro t bodies h
    have hx : x.2 ≠ [] := h x (List.mem_cons_self _ _)
    have hxs : ∀ y ∈ xs, y.2 ≠ [] := fun y hy => h y (List.mem_cons_of_mem _ hy)
    rw [List.foldl_cons]
    by_cases hc : x.1 = true ∧ t = []
    · have hstep : absorbText (t, bodies) x = (x.2, bodies) := by simp [absorbText, hc]
      rw [hstep, ih _ _ hxs]
      simp [hx, hc.1, hc.2, List.eraseP_cons]
    · have hstep : absorbText (t, bodies) x = (t, bodies ++ [x.2]) := by
        simp only [absorbText]
        rw [if_neg hc]
      rw [hstep, ih _ _ hxs]
      by_cases ht : t = []
      · have hx1 : x.1 = false := by
          cases hb : x.1 with
          | false => rfl
          | true => exact absurd ⟨hb, ht⟩ hc
        simp [ht, List.eraseP_cons, hx1]
      · simp [ht]

theorem taggedTexts_ne_nil (sld : xmlSlide) : ∀ x ∈ taggedTexts sld, x.2 ≠ [] := by
  intro x hx
  unfold taggedTexts at hx
  obtain ⟨sp, _, hsp⟩ := List.mem_flatMap.mp hx
  unfold shapeTagged shapeTexts at hsp
  cases h : sp.TxBody with
  | none => simp [h] at hsp
  | some txBody =>
    simp only [h, List.mem_map, List.mem_filter] at hsp
    obtain ⟨t, ⟨_, ht⟩, rfl⟩ := hsp
    simpa using ht

theorem walkSlide_bodies (sld : xmlSlide) (slideRels : GoMap Str) (index : Int) :
    (walkSlide sld slideRels index).Bodies
      = ((taggedTexts sld).eraseP (fun x => x.1)).map Prod.snd := by
  have h := congrArg Prod.snd (walkSlide_absorb sld slideRels index)
  simp only at h
  rw [h, absorb_foldl _ _ _ (taggedTexts_ne_nil sld)]
  simp

theorem parseSlide_walk (dec : XmlDecoder) (zr : ZipReader) (slidePath : Str) (index : Int)
    (slide : Slide) (h : parseSlide dec zr slidePath index = .ok slide) :
    ∃ sld slideRels, slide = walkSlide sld slideRels index := by
  unfold parseSlide at h
  cases hr : readZipFile zr slidePath with
  | error e => simp [hr] at h
  | ok data =>
    cases hd : dec.slide data with
    | none => simp [hr, hd] at h
    | some sld =>
      simp only [hr, hd] at h
      injection h with h
      exact ⟨sld, _, h.symm⟩

theorem runs_foldl (runs : List xmlRun) :
    ∀ (acc : List Str),
      runs.foldl (fun parts run => if run.Text ≠ [] then parts ++ [run.Text] else parts) acc
        = acc ++ (runs.map (fun r => r.Text)).filter (fun t => t ≠ []) := by
  induction runs with
  | nil => intro acc; simp
  | cons r rest ih =>
    intro acc
    rw [List.foldl_cons, ih]
    by_cases h : r.Text = [] <;> simp [h]

theorem stringsJoin_nil_sep (l : List Str) : stringsJoin l [] = l.flatten := by
  induction l with
  | nil => rfl
  | cons a rest ih =>
    cases rest with
    | nil => simp [stringsJoin]
    | cons b rest2 =>
      rw [stringsJoin_cons_cons, ih]
      simp

theorem flatten_filter_ne_nil (l : List Str) :
    (l.filter (fun t => t ≠ [])).flatten = l.flatten := by
  induction l with
  | nil => rfl
  | cons a rest ih =>
    by_cases h : a = []
    · subst h
      rw [List.filter_cons]
      simpa using ih
    · rw [List.filter_cons]
      have hd : decide (a ≠ []) = true := by simpa using h
      rw [if_pos hd, List.flatten_cons, List.flatten_cons, ih]

theorem paragraphText_eq (para : xmlParagraph) :
    paragraphText para = (para.Runs.map (fun r => r.Text)).flatten := by
  unfold paragraphText
  simp only [runs_foldl, List.nil_append, stringsJoin_nil_sep, flatten_filter_ne_nil]

theorem isPlaceholderTitle_iff (sp : xmlShape) :
    isPlaceholderTitle sp = true ↔ titleShape sp := by
  unfold isPlaceholderTitle titleShape placeholderType
  cases sp.NvSpPr with
  | none => simp
  | some nv =>
    cases h1 : nv.NvPr with
    | none => simp [h1]
    | some pr =>
      cases h2 : pr.Ph with
      | none => simp [h1, h2]
      | some ph => simp [h1, h2]

theorem shapeTexts_paragraphsOf (sp : xmlShape) : shapeTexts sp = paragraphsOf sp := by
  unfold shapeTexts paragraphsOf
  cases sp.TxBody with
  | none => rfl
  | some body =>
    simp only
    congr 1
    exact List.map_congr_left (fun para _ => paragraphText_eq para)

theorem titleTexts_filter (shapes : List xmlShape) :
    shapes.flatMap shapeTitleTexts
      = (shapes.filter (fun sp => titleShape sp)).flatMap paragraphsOf := by
  induction shapes with
  | nil => rfl
  | cons sp rest ih =>
    rw [List.flatMap_cons, ih]
    unfold shapeTitleTexts
    by_cases h : titleShape sp
    · rw [if_pos ((isPlaceholderTitle_iff sp).mpr h), List.filter_cons_of_pos (by simpa using h),
        List.flatMap_cons, shapeTexts_paragraphsOf]
    · have hb : ¬ isPlaceholderTitle sp = true := fun hc => h ((isPlaceholderTitle_iff sp).mp hc)
      rw [if_neg hb, List.filter_cons_of_neg (by simpa using h), List.nil_append]

theorem firstTitleText_described (sld : xmlSlide) : firstTitleText sld = describedTitle sld := by
  unfold firstTitleText describedTitle
  rw [titleTexts_filter]
  cases ((shapesInOrder sld).filter (fun sp => titleShape sp)).flatMap paragraphsOf <;> rfl

/-- C6: the title of every slide is the first non-empty paragraph, in traversal order
(direct shapes, then shapes inside groups), of a shape whose placeholder type is `title`
or `ctrTitle`, and is empty when there is none; `isPlaceholderTitle` holds of exactly
those shapes; once set the title is never overwritten: a title shape with the paragraphs
`T` and `X` yields the title `T` and the bodies `[X]`, a subtitle does not become the
title, and of two title shapes inside a group the first gives the title. -/
theorem title_precedence (sld : xmlSlide) (slideRels : GoMap Str) (index : Int) :
    (walkSlide sld slideRels index).Title = describedTitle sld
      ∧ (∀ sp : xmlShape, isPlaceholderTitle sp = true
          ↔ (placeholderType sp = some "title".toList
            ∨ placeholderType sp = some "ctrTitle".toList))
      ∧ (walkSlide titleTwoParagraphs slideRels index).Title = "T".toList
      ∧ (walkSlide titleTwoParagraphs slideRels index).Bodies = ["X".toList]
      ∧ (walkSlide subTitleThenTitle slideRels index).Title = "T".toList
      ∧ (walkSlide subTitleThenTitle slideRels index).Bodies = ["S".toList, "X".toList]
      ∧ (walkSlide groupedTitles slideRels index).Title = "T1".toList
      ∧ (walkSlide groupedTitles slideRels index).Bodies = ["B".toList, "T2".toList] := by
  refine ⟨?_, isPlaceholderTitle_iff, rfl, rfl, rfl, rfl, rfl, rfl⟩
  rw [walkSlide_title, firstTitleText_described]

theorem absorb_foldl_title (l : List (Bool × Str)) :
    ∀ (t : Str) (bodies : List Str), (∀ x ∈ l, x.2 ≠ []) →
      (l.foldl absorbText (t, bodies)).1
        = if t ≠ [] then t else ((l.find? (fun x => x.1)).map Prod.snd).getD [] := by
  induction l with
  | nil => intro t bodies _; by_cases ht : t = [] <;> simp [ht]
  | cons x xs ih =>
    intro t bodies h
    have hx : x.2 ≠ [] := h x (List.mem_cons_self _ _)
    have hxs : ∀ y ∈ xs, y.2 ≠ [] := fun y hy => h y (List.mem_cons_of_mem _ hy)
    rw [List.foldl_cons]
    by_cases hc : x.1 = true ∧ t = []
    · have hstep : absorbText (t, bodies) x = (x.2, bodies) := by simp [absorbText, hc]
      rw [hstep, ih _ _ hxs]
      simp [hx, hc.1, hc.2, List.find?_cons]
    · have hstep : absorbText (t, bodies) x = (t, bodies ++ [x.2]) := by
        simp only [absorbText]
        rw [if_neg hc]
      rw [hstep, ih _ _ hxs]
      by_cases ht : t = []
      · have hx1 : x.1 = false := by
          cases hb : x.1 with
          | false => rfl
          | true => exact absurd ⟨hb, ht⟩ hc
        simp [ht, List.find?_cons, hx1]
      · simp [ht]

/-- C12: the bodies of every slide are exactly the non-empty paragraph texts of the
direct shapes followed by those of the shapes inside groups, in that order, with only
the first paragraph of a title placeholder (the one that became the title) removed; the
text of a paragraph is the concatenation of its run texts in run order, without a
separator. -/
theorem body_completeness (sld : xmlSlide) (slideRels : GoMap Str) (index : Int) :
    (walkSlide sld slideRels index).Bodies
        = ((taggedTexts sld).eraseP (fun x => x.1)).map Prod.snd
      ∧ (walkSlide sld slideRels index).Title
        = (((taggedTexts sld).find? (fun x => x.1)).map Prod.snd).getD []
      ∧ (∀ sp : xmlShape, shapeTexts sp
          = match sp.TxBody with
            | none => []
            | some txBody =>
              (txBody.Paragraphs.map (fun para =>
                (para.Runs.map (fun r => r.Text)).flatten)).filter (fun t => t ≠ [])) := by
  refine ⟨walkSlide_bodies sld slideRels index, ?_, ?_⟩
  · have h := congrArg Prod.fst (walkSlide_absorb sld slideRels index)
    simp only at h
    rw [h, absorb_foldl_title _ _ _ (taggedTexts_ne_nil sld)]
    simp
  · intro sp
    unfold shapeTexts
    cases sp.TxBody with
    | none => rfl
    | some txBody =>
      simp only
      congr 1
      apply List.map_congr_left
      intro para _
      exact paragraphText_eq para

/-- C11 (as amended): no body paragraph of a slide produced by `parseSlide` is the empty
string. (Paragraphs are neither trimmed nor compared with one another: equal paragraphs
and paragraphs of white space are kept.) -/
theorem body_hygiene (dec : XmlDecoder) (zr : ZipReader) (slidePath : Str) (index : Int)
    (slide : Slide) (h : parseSlide dec zr slidePath index = .ok slide) :
    ∀ b ∈ slide.Bodies, b ≠ [] := by
  obtain ⟨sld, slideRels, rfl⟩ := parseSlide_walk dec zr slidePath index slide h
  intro b hb
  rw [walkSlide_bodies] at hb
  obtain ⟨x, hx, rfl⟩ := List.mem_map.mp hb
  exact taggedTexts_ne_nil sld x (List.mem_of_mem_eraseP hx)

/-- C11, witness: the slide part of the example package `bodiesPackage` is parsed into
the bodies `X`, `X`, blank; the last of them is not empty. -/
theorem body_hygiene_witness : " ".toList ≠ [] :=
  body_hygiene bodiesDecoder bodiesPackage "ppt/slides/slide1.xml".toList 1
    ⟨1, [], ["X".toList, "X".toList, " ".toList], []⟩ rfl " ".toList (by decide)

/-- C11, counterexample: a shape with the paragraphs `X`, `X` and a single blank is
parsed into the bodies `X`, `X`, blank: two equal paragraphs, and one that is empty
after trimming white space. -/
theorem body_hygiene_counterexample :
    parseSlide bodiesDecoder bodiesPackage "ppt/slides/slide1.xml".toList 1
        = .ok ⟨1, [], ["X".toList, "X".toList, " ".toList], []⟩
      ∧ ¬ (["X".toList, "X".toList, " ".toList] : List Str).Nodup
      ∧ ∃ b ∈ (["X".toList, "X".toList, " ".toList] : List Str), trimSpace b = [] := by
  refine ⟨rfl, by decide, " ".toList, by decide, by decide⟩

/-! ## The rendered document -/

theorem dropWhile_head_false (p : Char → Bool) (l : List Char) :
    l.dropWhile p = [] ∨ ∃ c rest, l.dropWhile p = c :: rest ∧ p c = false := by
  induction l with
  | nil => left; rfl
  | cons a rest ih =>
    cases h : p a with
    | true => simpa [List.dropWhile_cons, h] using ih
    | false => right; exact ⟨a, rest, by simp [List.dropWhile_cons, h], h⟩

/-- C13: for every presentation (also one without slides) and every image-directory
name, the string returned by `buildMarkdown` ends with a line break and does not end
with two line breaks. -/
theorem single_trailing_newline (pres : Presentation) (imageDir : Str) :
    hasSfx (buildMarkdown pres imageDir) "\n".toList = true
      ∧ hasSfx (buildMarkdown pres imageDir) "\n\n".toList = false
      ∧ buildMarkdown ⟨[], pres.zip⟩ imageDir = "\n".toList := by
  refine ⟨?_, ?_, rfl⟩
  · simp [buildMarkdown, hasSfx, List.isSuffixOf, String.toList, List.isPrefixOf]
  · unfold buildMarkdown trimRight hasSfx
    simp only [List.isSuffixOf, String.toList, List.reverse_append, List.reverse_reverse,
      List.reverse_cons, List.reverse_nil, List.nil_append, List.singleton_append,
      List.cons_append]
    rcases dropWhile_head_false (fun c => ['\n'].contains c)
        (renderSlides (buildImageFileMap pres.Slides) imageDir 0 pres.Slides []).reverse
      with h | ⟨c, rest, h, hc⟩
    · rw [h]; simp [List.isPrefixOf]
    · rw [h]
      have hne : ('\n' == c) = false := by
        cases hq : ('\n' == c) with
        | false => rfl
        | true =>
          have : c = '\n' := (beq_iff_eq.mp hq).symm
          subst this
          simp at hc
      simp [List.isPrefixOf, hne]

theorem bodies_foldl (bodies : List Str) :
    ∀ (sb : Str),
      bodies.foldl (fun sb body => sb ++ (body ++ "\n\n".toList)) sb
        = sb ++ (bodies.map (fun body => body ++ "\n\n".toList)).flatten := by
  induction bodies with
  | nil => intro sb; simp
  | cons b rest ih =>
    intro sb
    rw [List.foldl_cons, ih]
    simp

theorem images_foldl (m : GoMap Str) (d : Str) (imgs : List ImageRef) :
    ∀ (sb : Str),
      imgs.foldl (fun sb img =>
          if img.MediaPath = [] then sb
          else
            let fileName := linkName m img.MediaPath
            let imgPath := d ++ "/".toList ++ fileName
            sb ++ ("![".toList ++ fileName ++ "](./".toList ++ imgPath ++ ")\n\n".toList)) sb
        = sb ++ (imgs.map (imageLink m d)).flatten := by
  induction imgs with
  | nil => intro sb; simp
  | cons img rest ih =>
    intro sb
    rw [List.foldl_cons, ih]
    by_cases h : img.MediaPath = []
    · simp [imageLink, h]
    · simp [imageLink, h]

theorem renderSlide_eq (m : GoMap Str) (d : Str) (i : Nat) (slide : Slide) (sb : Str) :
    renderSlide m d i slide sb = sb ++ slideBlock m d i slide := by
  unfold renderSlide slideBlock separatorAt slideHeading bodyBlocks imageBlocks
  simp only [images_foldl, bodies_foldl]
  by_cases h0 : i > 0 <;> by_cases ht : slide.Title = [] <;> simp [h0, ht]

theorem renderSlides_eq (m : GoMap Str) (d : Str) (slides : List Slide) :
    ∀ (i : Nat) (sb : Str),
      renderSlides m d i slides sb
        = sb ++ ((slides.enumFrom i).map (fun kp => slideBlock m d kp.1 kp.2)).flatten := by
  induction slides with
  | nil => intro i sb; simp [renderSlides]
  | cons s rest ih =>
    intro i sb
    rw [renderSlides, ih, renderSlide_eq]
    simp

theorem buildMarkdown_eq (pres : Presentation) (d : Str) :
    buildMarkdown pres d
      = trimRight ((pres.Slides.enum.map
          (fun kp => slideBlock (buildImageFileMap pres.Slides) d kp.1 kp.2)).flatten)
          "\n".toList ++ "\n".toList := by
  unfold buildMarkdown
  simp only [renderSlides_eq, List.nil_append, List.enum]

/-! ## Slide indices -/

theorem paragraphs_index (isTitle : Bool) (paras : List xmlParagraph) :
    ∀ (slide : Slide),
      (paras.foldl (fun slide para =>
          let text := paragraphText para
          if text = [] then slide
          else if isTitle = true ∧ slide.Title = [] then { slide with Title := text }
          else { slide with Bodies := slide.Bodies ++ [text] }) slide).Index
        = slide.Index := by
  induction paras with
  | nil => intro slide; rfl
  | cons para rest ih =>
    intro slide
    rw [List.foldl_cons, ih]
    by_cases htxt : paragraphText para = []
    · simp [htxt]
    · by_cases hc : isTitle = true ∧ slide.Title = [] <;> simp [htxt, hc]

theorem extractShapeText_index (sp : xmlShape) (slide : Slide) :
    (extractShapeText sp slide).Index = slide.Index := by
  unfold extractShapeText
  cases sp.TxBody with
  | none => rfl
  | some txBody => simp only [paragraphs_index]

theorem shapes_index (shapes : List xmlShape) :
    ∀ (slide : Slide),
      (shapes.foldl (fun slide sp => extractShapeText sp slide) slide).Index
        = slide.Index := by
  induction shapes with
  | nil => intro slide; rfl
  | cons sp rest ih =>
    intro slide
    rw [List.foldl_cons, ih, extractShapeText_index]

theorem pictures_index (rels : GoMap Str) (pics : List xmlPicture) :
    ∀ (slide : Slide),
      (pics.foldl (fun slide pic => extractPicture pic slide rels) slide).Index
        = slide.Index := by
  induction pics with
  | nil => intro slide; rfl
  | cons pic rest ih =>
    intro slide
    rw [List.foldl_cons, ih, extractPicture_eq]

theorem groups_index (rels : GoMap Str) (groups : List xmlGroupShape) :
    ∀ (slide : Slide),
      (groups.foldl (fun slide grp =>
          let slide := grp.Shapes.foldl (fun slide sp => extractShapeText sp slide) slide
          grp.Pictures.foldl (fun slide pic => extractPicture pic slide rels) slide)
        slide).Index = slide.Index := by
  induction groups with
  | nil => intro slide; rfl
  | cons grp rest ih =>
    intro slide
    rw [List.foldl_cons, ih]
    simp only [pictures_index, shapes_index]

theorem walkSlide_index (sld : xmlSlide) (slideRels : GoMap Str) (index : Int) :
    (walkSlide sld slideRels index).Index = index := by
  unfold walkSlide
  simp only [pictures_index, groups_index, shapes_index]

theorem parseSlide_index (dec : XmlDecoder) (zr : ZipReader) (slidePath : Str) (index : Int)
    (slide : Slide) (h : parseSlide dec zr slidePath index = .ok slide) :
    slide.Index = index := by
  obtain ⟨sld, slideRels, rfl⟩ := parseSlide_walk dec zr slidePath index slide h
  exact walkSlide_index sld slideRels index

theorem parseSlides_index (dec : XmlDecoder) (zr : ZipReader) (paths : List Str) :
    ∀ (i : Nat) (acc out : List Slide), parseSlides dec zr i paths acc = .ok out →
      ∃ added, out = acc ++ added
        ∧ ∀ (k : Nat) (slide : Slide), added[k]? = some slide →
            slide.Index = ((i + k : Nat) : Int) + 1 := by
  induction paths with
  | nil =>
    intro i acc out h
    simp only [parseSlides] at h
    injection h with h
    exact ⟨[], by simp [h], by intro k slide hk; simp at hk⟩
  | cons p rest ih =>
    intro i acc out h
    rw [parseSlides] at h
    cases hp : parseSlide dec zr p ((i : Int) + 1) with
    | error e => simp [hp] at h
    | ok s =>
      simp only [hp] at h
      obtain ⟨added, hout, hidx⟩ := ih (i + 1) (acc ++ [s]) out h
      refine ⟨s :: added, by simp [hout], ?_⟩
      intro k slide hk
      cases k with
      | zero =>
        simp only [List.getElem?_cons_zero, Option.some.injEq] at hk
        subst hk
        simpa using parseSlide_index dec zr p _ _ hp
      | succ k =>
        simp only [List.getElem?_cons_succ] at hk
        have := hidx k slide hk
        rw [this]
        push_cast
        omega

theorem Parse_index (dec : XmlDecoder) (zr : ZipReader) (p : Presentation)
    (h : Parse dec zr = .ok p) (k : Nat) (slide : Slide) (hk : p.Slides[k]? = some slide) :
    slide.Index = (k : Int) + 1 := by
  unfold Parse at h
  cases ho : getSlideOrder dec zr with
  | error e => simp [ho] at h
  | ok order =>
    simp only [ho] at h
    cases hs : parseSlides dec zr 0 order [] with
    | error e => simp [hs] at h
    | ok slides =>
      simp only [hs] at h
      injection h with h
      subst h
      obtain ⟨added, hout, hidx⟩ := parseSlides_index dec zr order 0 [] slides hs
      simp only [List.nil_append] at hout
      subst hout
      simpa using hidx k slide hk

/-- C19: in every presentation returned by `Parse` the slide at position `k` (counted
from 0) has the index `k + 1`, its position in the slide order. -/
theorem slide_index_position (dec : XmlDecoder) (zr : ZipReader) (p : Presentation)
    (h : Parse dec zr = .ok p) (k : Nat) (slide : Slide) (hk : p.Slides[k]? = some slide) :
    slide.Index = (k : Int) + 1 :=
  Parse_index dec zr p h k slide hk

/-- C19, witness: the second slide of the two-slide example package has the index 2. -/
theorem slide_index_position_witness :
    (⟨2, [], [], []⟩ : Slide).Index = ((1 : Nat) : Int) + 1 :=
  slide_index_position sampleDecoder twoSlidePackage
    ⟨[⟨1, "T".toList, [], []⟩, ⟨2, [], [], []⟩], twoSlidePackage⟩ rfl 1 ⟨2, [], [], []⟩ rfl

/-- C14: for every slide `buildMarkdown` writes, after the separator, the heading
`## <Title>` when the title is non-empty and `## Slide <Index>` (the index in decimal)
otherwise, followed by a blank line, the bodies and the image links; in a presentation
returned by `Parse` a slide without a title at position `k` (counted from 0) is therefore
headed `## Slide <k + 1>`. -/
theorem heading_rule (dec : XmlDecoder) (zr : ZipReader) (p : Presentation)
    (hparse : Parse dec zr = .ok p) (k : Nat) (slide : Slide)
    (hk : p.Slides[k]? = some slide) (hno : slide.Title = []) :
    (∀ (m : GoMap Str) (d : Str) (i : Nat) (s : Slide) (sb : Str),
        renderSlide m d i s sb
          = sb ++ (separatorAt i ++ (slideHeading s ++ "\n\n".toList) ++ bodyBlocks s
              ++ imageBlocks m d s))
      ∧ (∀ (pres : Presentation) (d : Str),
          buildMarkdown pres d
            = trimRight ((pres.Slides.enum.map (fun kp =>
                separatorAt kp.1 ++ (slideHeading kp.2 ++ "\n\n".toList) ++ bodyBlocks kp.2
                  ++ imageBlocks (buildImageFileMap pres.Slides) d kp.2)).flatten)
                "\n".toList ++ "\n".toList)
      ∧ (∀ s : Slide, s.Title ≠ [] → slideHeading s = "## ".toList ++ s.Title)
      ∧ (∀ s : Slide, s.Title = [] →
          slideHeading s = "## Slide ".toList ++ fmtInt s.Index)
      ∧ slideHeading slide = "## Slide ".toList ++ Nat.toDigits 10 (k + 1) := by
  refine ⟨fun m d i s sb => renderSlide_eq m d i s sb, fun pres d => buildMarkdown_eq pres d,
    ?_, ?_, ?_⟩
  · intro s hs
    simp [slideHeading, hs]
  · intro s hs
    simp [slideHeading, hs]
  · have hidx := Parse_index dec zr p hparse k slide hk
    have hf : fmtInt ((k : Int) + 1) = Nat.toDigits 10 (k + 1) := by
      have h1 : ¬ ((k : Int) + 1 < 0) := by omega
      have h2 : ((k : Int) + 1).toNat = k + 1 := by omega
      simp only [fmtInt, h1, if_false, h2]
    simp [slideHeading, hno, hidx, hf]

/-- C14, witness: the second slide of the two-slide example package has no title and is
headed `## Slide 2`. -/
theorem heading_rule_witness :
    slideHeading ⟨2, [], [], []⟩ = "## Slide ".toList ++ Nat.toDigits 10 (1 + 1) :=
  (heading_rule sampleDecoder twoSlidePackage
    ⟨[⟨1, "T".toList, [], []⟩, ⟨2, [], [], []⟩], twoSlidePackage⟩ rfl 1 ⟨2, [], [], []⟩
    rfl rfl).2.2.2.2

/-! ## Media lookup -/

theorem find_first (zr : ZipReader) (name : Str) (before after : List ZipFile) (f : ZipFile)
    (hz : zr = before ++ f :: after) (hb : ∀ g ∈ before, g.Name ≠ name)
    (hf : f.Name = name) :
    zr.find? (fun g => g.Name = name) = some f := by
  subst hz
  induction before with
  | nil => simp [List.find?_cons, hf]
  | cons g rest ih =>
    have hg : g.Name ≠ name := hb g (List.mem_cons_self _ _)
    rw [List.cons_append, List.find?_cons]
    simp only [hg, decide_False]
    exact ih (fun x hx => hb x (List.mem_cons_of_mem _ hx))

theorem find_none (zr : ZipReader) (name : Str) (h : ∀ g ∈ zr, g.Name ≠ name) :
    zr.find? (fun g => g.Name = name) = none := by
  rw [List.find?_eq_none]
  intro g hg
  simpa using h g hg

theorem find_split (zr : ZipReader) (name : Str) (f : ZipFile)
    (h : zr.find? (fun g => g.Name = name) = some f) :
    ∃ before after, zr = before ++ f :: after ∧ (∀ g ∈ before, g.Name ≠ name)
      ∧ f.Name = name := by
  induction zr with
  | nil => simp at h
  | cons g rest ih =>
    rw [List.find?_cons] at h
    by_cases hg : g.Name = name
    · simp only [hg, decide_True, Option.some.injEq] at h
      subst h
      exact ⟨[], rest, rfl, by simp, hg⟩
    · simp only [hg, decide_False] at h
      obtain ⟨before, after, hz, hb, hf⟩ := ih h
      refine ⟨g :: before, after, by simp [hz], ?_, hf⟩
      intro x hx
      rcases List.mem_cons.mp hx with hx | hx
      · subst hx; exact hg
      · exact hb x hx

/-- C20 (as amended): `ReadMedia(p)` returns the bytes of the first archive entry named
exactly `p` when that entry can be opened and read, the error of opening or reading it
when it cannot, and the error "media not found" when no entry is named `p`; so it
returns an error iff no entry is named `p` or the first entry named `p` cannot be opened
or read. -/
theorem media_lookup (p : Presentation) (mediaPath : Str) :
    ((∀ g ∈ p.zip, g.Name ≠ mediaPath) →
        p.ReadMedia mediaPath = .error (.mediaNotFound mediaPath))
      ∧ (∀ (before after : List ZipFile) (f : ZipFile),
          p.zip = before ++ f :: after → (∀ g ∈ before, g.Name ≠ mediaPath) →
          f.Name = mediaPath →
          p.ReadMedia mediaPath
            = match f.content with
              | some data => .ok data
              | none => .error (.readFailed mediaPath))
      ∧ ((∃ e, p.ReadMedia mediaPath = .error e)
          ↔ ((∀ g ∈ p.zip, g.Name ≠ mediaPath)
            ∨ ∃ (before after : List ZipFile) (f : ZipFile),
                p.zip = before ++ f :: after ∧ (∀ g ∈ before, g.Name ≠ mediaPath)
                  ∧ f.Name = mediaPath ∧ f.content = none)) := by
  have h1 : (∀ g ∈ p.zip, g.Name ≠ mediaPath) →
      p.ReadMedia mediaPath = .error (.mediaNotFound mediaPath) := by
    intro h
    simp only [Presentation.ReadMedia, find_none p.zip mediaPath h]
  have h2 : ∀ (before after : List ZipFile) (f : ZipFile),
      p.zip = before ++ f :: after → (∀ g ∈ before, g.Name ≠ mediaPath) →
      f.Name = mediaPath →
      p.ReadMedia mediaPath
        = match f.content with
          | some data => .ok data
          | none => .error (.readFailed mediaPath) := by
    intro before after f hz hb hf
    simp only [Presentation.ReadMedia, find_first p.zip mediaPath before after f hz hb hf]
  refine ⟨h1, h2, ?_, ?_⟩
  · rintro ⟨e, he⟩
    cases hfind : p.zip.find? (fun g => g.Name = mediaPath) with
    | none =>
      left
      intro g hg
      have := List.find?_eq_none.mp hfind g hg
      simpa using this
    | some f =>
      right
      obtain ⟨before, after, hz, hb, hf⟩ := find_split p.zip mediaPath f hfind
      refine ⟨before, after, f, hz, hb, hf, ?_⟩
      cases hc : f.content with
      | none => rfl
      | some data =>
        rw [h2 before after f hz hb hf, hc] at he
        cases he
  · rintro (h | ⟨before, after, f, hz, hb, hf, hc⟩)
    · exact ⟨_, h1 h⟩
    · refine ⟨.readFailed mediaPath, ?_⟩
      rw [h2 before after f hz hb hf, hc]

/-- C20, counterexample: the archive has an entry named `ppt/media/a.png` (even two),
but the first one cannot be opened, and `ReadMedia` returns an error although an entry
of that name exists. -/
theorem media_lookup_counterexample :
    unreadableEntry.ReadMedia "ppt/media/a.png".toList
        = .error (.readFailed "ppt/media/a.png".toList)
      ∧ ∃ f ∈ unreadableEntry.zip, f.Name = "ppt/media/a.png".toList := by
  refine ⟨rfl, ⟨"ppt/media/a.png".toList, none⟩, by decide, rfl⟩

/-! ## `Convert` -/

theorem collect_foldl_paths (refs : List ImageRef) :
    ∀ (st : GoMap Int × List imageExport),
      ((refs.foldl collectStep st).2).map (fun e => e.mediaPath)
        = st.2.map (fun e => e.mediaPath)
          ++ (refs.filter (fun r => r.MediaPath ≠ [])).map (fun r => r.MediaPath) := by
  induction refs with
  | nil => intro st; simp
  | cons r rest ih =>
    intro st
    rw [List.foldl_cons, ih]
    by_cases h : r.MediaPath = []
    · simp [collectStep, h]
    · simp [collectStep, h, List.filter_cons]

theorem collectImages_paths (slides : List Slide) :
    (collectImages slides).map (fun e => e.mediaPath)
      = ((allRefs slides).filter (fun r => r.MediaPath ≠ [])).map (fun r => r.MediaPath) := by
  unfold collectImages
  rw [foldl_slides_images, collect_foldl_paths]
  simp

theorem collectImages_nil (slides : List Slide)
    (h : ∀ r ∈ allRefs slides, r.MediaPath = []) : collectImages slides = [] := by
  have hp := collectImages_paths slides
  have hf : (allRefs slides).filter (fun r => r.MediaPath ≠ []) = [] := by
    rw [List.filter_eq_nil_iff]
    intro r hr
    simp [h r hr]
  rw [hf] at hp
  simpa using hp

theorem collectImages_pos (slides : List Slide)
    (h : ∃ r ∈ allRefs slides, r.MediaPath ≠ []) : (collectImages slides).length > 0 := by
  obtain ⟨r, hr, hne⟩ := h
  have hp := congrArg List.length (collectImages_paths slides)
  simp only [List.length_map] at hp
  rw [hp]
  apply List.length_pos_of_mem (a := r)
  rw [List.mem_filter]
  exact ⟨hr, by simpa using hne⟩

theorem imageBlocks_nil (m : GoMap Str) (d : Str) (slide : Slide)
    (h : ∀ r ∈ slide.Images, r.MediaPath = []) : imageBlocks m d slide = [] := by
  unfold imageBlocks
  rw [List.flatten_eq_nil_iff]
  intro l hl
  obtain ⟨r, hr, rfl⟩ := List.mem_map.mp hl
  simp [imageLink, h r hr]

theorem pathClean_ne_nil (p : Str) : pathClean p ≠ [] := by
  have key : ∀ out : List Char, (if out.length = 0 then ['.'] else out) ≠ [] := by
    intro out
    by_cases h : out.length = 0
    · simp [h]
    · rw [if_neg h]
      intro he
      rw [he] at h
      exact h rfl
  unfold pathClean
  by_cases hp : p = []
  · simp [hp]
  · simp only [hp, if_false]
    exact key _

theorem convertImageDirFull_ne_nil (filePath : Str) (opts : ConvertOptions) :
    convertImageDirFull filePath opts ≠ [] := by
  unfold convertImageDirFull filepathDir pathDir
  simp only [filepathJoin, pathClean_ne_nil, ne_eq, not_false_eq_true, if_true]

theorem mem_allRefs (slides : List Slide) (slide : Slide) (hs : slide ∈ slides)
    (r : ImageRef) (hr : r ∈ slide.Images) : r ∈ allRefs slides := by
  unfold allRefs
  exact List.mem_flatMap.mpr ⟨slide, hs, hr⟩

theorem buildMarkdown_text_only (pres : Presentation) (d : Str)
    (h : ∀ r ∈ allRefs pres.Slides, r.MediaPath = []) :
    buildMarkdown pres d
      = trimRight ((pres.Slides.enum.map (fun kp => textBlock kp.1 kp.2)).flatten)
          "\n".toList ++ "\n".toList := by
  rw [buildMarkdown_eq]
  congr 3
  apply List.map_congr_left
  intro kp hkp
  have hmem : kp.2 ∈ pres.Slides := by
    have := List.mem_map_of_mem Prod.snd hkp
    rwa [List.enum_map_snd] at this
  unfold slideBlock textBlock
  rw [imageBlocks_nil _ _ _ (fun r hr => h r (mem_allRefs pres.Slides kp.2 hmem r hr))]
  simp

theorem exportImages_calls_head (host : Host) (pres : Presentation) (dir : Str)
    (images : List imageExport) :
    ∀ (calls : List FsCall) (c : FsCall), calls.head? = some c →
      (exportImages host pres dir images calls).2.head? = some c := by
  induction images with
  | nil => intro calls c h; exact h
  | cons img rest ih =>
    intro calls c h
    rw [exportImages]
    cases hr : pres.ReadMedia img.mediaPath with
    | error e => exact h
    | ok data =>
      simp only
      have hc2 : (calls ++ [FsCall.writeFile (filepathJoin [dir, img.fileName]) data]).head?
          = some c := by
        cases calls with
        | nil => simp at h
        | cons x xs => simpa using h
      by_cases hw : host.writeFile (filepathJoin [dir, img.fileName]) data = true
      · rw [if_pos hw]
        exact ih _ c hc2
      · rw [if_neg hw]
        exact hc2

/-- C15: when no image reference of the parsed presentation has a non-empty media path,
`Convert` makes no file-system call (so it does not create the image directory) and
succeeds with `ImageDir = ""` and a Markdown document made of separators, headings and
bodies only; when some reference has a non-empty media path and `Convert` succeeds,
`ImageDir` is the non-empty full image directory, created by the first file-system
call. -/
theorem no_images_no_directory (dec : XmlDecoder) (host : Host) (filePath : Str)
    (opts : ConvertOptions) (zr : ZipReader) (pres : Presentation)
    (hopen : host.openReader filePath = some zr) (hparse : Parse dec zr = .ok pres) :
    ((∀ r ∈ allRefs pres.Slides, r.MediaPath = []) →
        Convert dec host filePath opts
            = (.ok ⟨buildMarkdown pres (convertImageDir filePath opts), []⟩, [])
          ∧ buildMarkdown pres (convertImageDir filePath opts)
            = trimRight ((pres.Slides.enum.map (fun kp => textBlock kp.1 kp.2)).flatten)
                "\n".toList ++ "\n".toList)
      ∧ ((∃ r ∈ allRefs pres.Slides, r.MediaPath ≠ []) →
          ∀ res, (Convert dec host filePath opts).1 = .ok res →
            res.ImageDir ≠ [] ∧ res.ImageDir = convertImageDirFull filePath opts
              ∧ (Convert dec host filePath opts).2.head?
                = some (.mkdirAll (convertImageDirFull filePath opts))) := by
  have hconv : Convert dec host filePath opts = convertParsed host filePath opts pres := by
    simp only [Convert, hopen, hparse]
  rw [hconv]
  constructor
  · intro h
    refine ⟨?_, buildMarkdown_text_only pres _ h⟩
    simp [convertParsed, collectImages_nil pres.Slides h]
  · intro h res hres
    have hpos := collectImages_pos pres.Slides h
    unfold convertParsed at hres ⊢
    simp only [hpos, if_true] at hres ⊢
    by_cases hm : host.mkdirAll (convertImageDirFull filePath opts) = true
    · simp only [hm, if_true] at hres ⊢
      have hhead := exportImages_calls_head host pres (convertImageDirFull filePath opts)
        (collectImages pres.Slides) [.mkdirAll (convertImageDirFull filePath opts)]
        (.mkdirAll (convertImageDirFull filePath opts)) rfl
      cases he : (exportImages host pres (convertImageDirFull filePath opts)
          (collectImages pres.Slides) [.mkdirAll (convertImageDirFull filePath opts)]).1 with
      | some e => simp [he] at hres
      | none =>
        simp only [he] at hres ⊢
        injection hres with hres
        subst hres
        exact ⟨convertImageDirFull_ne_nil filePath opts, rfl, hhead⟩
    · simp [hm] at hres

/-- C15, witness: the two-slide example package has no image and is converted without
any file-system call; the example package with one stored image is converted with the
image directory `deck_images` next to the input. -/
theorem no_images_no_directory_witness :
    (Convert sampleDecoder (plainHost twoSlidePackage) "in/deck.pptx".toList ⟨[]⟩
        = (.ok ⟨"## T\n\n\n---\n\n## Slide 2\n".toList, []⟩, []))
      ∧ (Convert sampleDecoder (plainHost imagePackage) "in/deck.pptx".toList ⟨[]⟩
        = (.ok ⟨"## Slide 1\n\n![a.png](./deck_images/a.png)\n".toList,
              "in/deck_images".toList⟩,
            [.mkdirAll "in/deck_images".toList,
             .writeFile "in/deck_images/a.png".toList "PNG".toList]))
      ∧ "in/deck_images".toList ≠ [] :=
  ⟨((no_images_no_directory sampleDecoder (plainHost twoSlidePackage) "in/deck.pptx".toList
      ⟨[]⟩ twoSlidePackage ⟨[⟨1, "T".toList, [], []⟩, ⟨2, [], [], []⟩], twoSlidePackage⟩
      rfl rfl).1 (by decide)).1,
   rfl,
   ((no_images_no_directory sampleDecoder (plainHost imagePackage) "in/deck.pptx".toList
      ⟨[]⟩ imagePackage
      ⟨[⟨1, [], [], [⟨"rId1".toList, "ppt/slides/img/a.png".toList⟩]⟩], imagePackage⟩
      rfl rfl).2 ⟨⟨"rId1".toList, "ppt/slides/img/a.png".toList⟩, by decide, by decide⟩
      ⟨"## Slide 1\n\n![a.png](./deck_images/a.png)\n".toList, "in/deck_images".toList⟩
      rfl).1⟩

/-! ## First occurrences and repeated media paths -/

theorem dedupName_keys (m : GoMap Int) (p k : Str) (h : (dedupName m p).1 k ≠ none) :
    m k ≠ none ∨ k = filepathBase p := by
  by_cases hk : k = filepathBase p
  · exact Or.inr hk
  · left
    unfold dedupName at h
    cases hm : m (filepathBase p) with
    | none => simpa [hm, GoMap.set, hk] using h
    | some c => simpa [hm, GoMap.set, hk] using h

theorem dedupName_fresh (m : GoMap Int) (p : Str) (h : m (filepathBase p) = none) :
    (dedupName m p).2 = filepathBase p := by
  simp [dedupName, h]

theorem collect_keys (refs : List ImageRef) :
    ∀ (st : GoMap Int × List imageExport) (k : Str),
      (refs.foldl collectStep st).1 k ≠ none →
      st.1 k ≠ none ∨ ∃ x ∈ refs, x.MediaPath ≠ [] ∧ filepathBase x.MediaPath = k := by
  induction refs with
  | nil => intro st k h; exact Or.inl h
  | cons r rest ih =>
    intro st k h
    rw [List.foldl_cons] at h
    rcases ih _ k h with h1 | ⟨x, hx, hne, hb⟩
    · by_cases hr : r.MediaPath = []
      · left; simpa [collectStep, hr] using h1
      · have h2 : (dedupName st.1 r.MediaPath).1 k ≠ none := by
          simpa [collectStep, hr] using h1
        rcases dedupName_keys _ _ _ h2 with h3 | h3
        · exact Or.inl h3
        · exact Or.inr ⟨r, List.mem_cons_self _ _, hr, h3.symm⟩
    · exact Or.inr ⟨x, List.mem_cons_of_mem _ hx, hne, hb⟩

theorem collect_extends (refs : List ImageRef) :
    ∀ (st : GoMap Int × List imageExport),
      ∃ extra, (refs.foldl collectStep st).2 = st.2 ++ extra := by
  induction refs with
  | nil => intro st; exact ⟨[], by simp⟩
  | cons r rest ih =>
    intro st
    obtain ⟨extra, he⟩ := ih (collectStep st r)
    rw [List.foldl_cons, he]
    by_cases hr : r.MediaPath = []
    · exact ⟨extra, by simp [collectStep, hr]⟩
    · exact ⟨⟨r.MediaPath, (dedupName st.1 r.MediaPath).2⟩ :: extra,
        by simp [collectStep, hr]⟩

theorem fileMap_keys (refs : List ImageRef) :
    ∀ (st : GoMap Str × GoMap Int),
      (∀ p, (refs.foldl fileMapStep st).1 p ≠ none →
          st.1 p ≠ none ∨ ∃ x ∈ refs, x.MediaPath ≠ [] ∧ x.MediaPath = p)
        ∧ (∀ k, (refs.foldl fileMapStep st).2 k ≠ none →
          st.2 k ≠ none ∨ ∃ x ∈ refs, x.MediaPath ≠ [] ∧ filepathBase x.MediaPath = k) := by
  induction refs with
  | nil => intro st; exact ⟨fun p h => Or.inl h, fun k h => Or.inl h⟩
  | cons r rest ih =>
    intro st
    obtain ⟨ih1, ih2⟩ := ih (fileMapStep st r)
    simp only [List.foldl_cons]
    have hstep : fileMapStep st r = st
        ∨ (r.MediaPath ≠ [] ∧ fileMapStep st r
            = (st.1.set r.MediaPath (dedupName st.2 r.MediaPath).2,
                (dedupName st.2 r.MediaPath).1)) := by
      unfold fileMapStep
      by_cases hr : r.MediaPath = []
      · left; simp [hr]
      · by_cases hs : (st.1 r.MediaPath).isSome = true
        · left; simp [hr, hs]
        · right; exact ⟨hr, by simp [hr, hs]⟩
    constructor
    · intro p h
      rcases ih1 p h with h1 | ⟨x, hx, hne, hp⟩
      · rcases hstep with hs | ⟨hr, hs⟩
        · rw [hs] at h1; exact Or.inl h1
        · rw [hs] at h1
          by_cases hp : p = r.MediaPath
          · exact Or.inr ⟨r, List.mem_cons_self _ _, hr, hp.symm⟩
          · left; simpa [GoMap.set, hp] using h1
      · exact Or.inr ⟨x, List.mem_cons_of_mem _ hx, hne, hp⟩
    · intro k h
      rcases ih2 k h with h1 | ⟨x, hx, hne, hb⟩
      · rcases hstep with hs | ⟨hr, hs⟩
        · rw [hs] at h1; exact Or.inl h1
        · rw [hs] at h1
          rcases dedupName_keys _ _ _ h1 with h3 | h3
          · exact Or.inl h3
          · exact Or.inr ⟨r, List.mem_cons_self _ _, hr, h3.symm⟩
      · exact Or.inr ⟨x, List.mem_cons_of_mem _ hx, hne, hb⟩

theorem fileMap_at_first (before after : List ImageRef) (r : ImageRef)
    (hne : r.MediaPath ≠ []) (hfirst : ∀ x ∈ before, x.MediaPath ≠ r.MediaPath) :
    ((before ++ r :: after).foldl fileMapStep (GoMap.empty, GoMap.empty)).1 r.MediaPath
      = some (dedupName (before.foldl fileMapStep (GoMap.empty, GoMap.empty)).2
          r.MediaPath).2 := by
  rw [List.foldl_append, List.foldl_cons]
  apply fileMap_foldl_keeps
  have hnone : (before.foldl fileMapStep (GoMap.empty, GoMap.empty)).1 r.MediaPath = none := by
    by_contra hc
    rcases (fileMap_keys before (GoMap.empty, GoMap.empty)).1 _ hc with h1 | ⟨x, hx, _, hp⟩
    · exact h1 rfl
    · exact hfirst x hx hp
  simp [fileMapStep, hne, hnone, GoMap.set]

/-- C16: the first image reference (in slide order, then image order) with a non-empty
media path of base name `b` is given the export file name `b` unchanged, by `Convert`
(in the list of images it exports) and by `buildMarkdown` (in the link name of that
media path). -/
theorem first_occurrence_keeps_name (slides : List Slide) (before after : List ImageRef)
    (r : ImageRef) (hrefs : allRefs slides = before ++ r :: after)
    (hne : r.MediaPath ≠ [])
    (hfirst : ∀ x ∈ before, x.MediaPath ≠ [] →
      filepathBase x.MediaPath ≠ filepathBase r.MediaPath) :
    (collectImages slides)[(before.filter (fun x => x.MediaPath ≠ [])).length]?
        = some ⟨r.MediaPath, filepathBase r.MediaPath⟩
      ∧ linkName (buildImageFileMap slides) r.MediaPath = filepathBase r.MediaPath := by
  constructor
  · unfold collectImages
    rw [foldl_slides_images, hrefs, List.foldl_append, List.foldl_cons]
    have hkey : (before.foldl collectStep (GoMap.empty, [])).1 (filepathBase r.MediaPath)
        = none := by
      by_contra hc
      rcases collect_keys before (GoMap.empty, []) _ hc with h1 | ⟨x, hx, hxne, hb⟩
      · exact h1 rfl
      · exact hfirst x hx hxne hb
    have hlen : (before.foldl collectStep (GoMap.empty, [])).2.length
        = (before.filter (fun x => x.MediaPath ≠ [])).length := by
      have := congrArg List.length (collect_foldl_paths before (GoMap.empty, []))
      simpa using this
    have hstep : collectStep (before.foldl collectStep (GoMap.empty, [])) r
        = ((dedupName (before.foldl collectStep (GoMap.empty, [])).1 r.MediaPath).1,
            (before.foldl collectStep (GoMap.empty, [])).2
              ++ [⟨r.MediaPath, filepathBase r.MediaPath⟩]) := by
      simp [collectStep, hne, dedupName_fresh _ _ hkey]
    obtain ⟨extra, hex⟩ := collect_extends after
      (collectStep (before.foldl collectStep (GoMap.empty, [])) r)
    rw [hex, hstep, ← hlen, List.append_assoc,
      List.getElem?_append_right (Nat.le_refl _)]
    simp
  · unfold buildImageFileMap
    rw [foldl_slides_images, hrefs]
    have hpath : ∀ x ∈ before, x.MediaPath ≠ r.MediaPath := by
      intro x hx he
      exact hfirst x hx (by rw [he]; exact hne) (by rw [he])
    have hkey : (before.foldl fileMapStep (GoMap.empty, GoMap.empty)).2
        (filepathBase r.MediaPath) = none := by
      by_contra hc
      rcases (fileMap_keys before (GoMap.empty, GoMap.empty)).2 _ hc with
        h1 | ⟨x, hx, hxne, hb⟩
      · exact h1 rfl
      · exact hfirst x hx hxne hb
    unfold linkName
    rw [fileMap_at_first before after r hne hpath, dedupName_fresh _ _ hkey]
    rfl

/-- C16, witness: in the example `renamedLikeCollision` the third reference is the first
one with the base name `img_2.png`, and it is exported and linked as `img_2.png`. -/
theorem first_occurrence_keeps_name_witness :
    (collectImages renamedLikeCollision.Slides)[2]?
        = some ⟨"ppt/media/c/img_2.png".toList, "img_2.png".toList⟩
      ∧ linkName (buildImageFileMap renamedLikeCollision.Slides)
          "ppt/media/c/img_2.png".toList = "img_2.png".toList :=
  first_occurrence_keeps_name renamedLikeCollision.Slides
    [⟨"rId1".toList, "ppt/media/a/img.png".toList⟩,
     ⟨"rId2".toList, "ppt/media/b/img.png".toList⟩] []
    ⟨"rId3".toList, "ppt/media/c/img_2.png".toList⟩ rfl (by decide) (by decide)

/-- C17: every image reference whose media path equals the non-empty media path of an
earlier (or the same) reference `r`, the first one with that path, is rendered by
`buildMarkdown` with the export file name assigned when `r` was met, so all references
to one media path get the same link. -/
theorem true_duplicates_share_name (slides : List Slide) (before after : List ImageRef)
    (r r2 : ImageRef) (d : Str) (hrefs : allRefs slides = before ++ r :: after)
    (hne : r.MediaPath ≠ []) (hfirst : ∀ x ∈ before, x.MediaPath ≠ r.MediaPath)
    (_hr2 : r2 ∈ allRefs slides) (hsame : r2.MediaPath = r.MediaPath) :
    linkName (buildImageFileMap slides) r2.MediaPath
        = (dedupName (before.foldl fileMapStep (GoMap.empty, GoMap.empty)).2
            r.MediaPath).2
      ∧ imageLink (buildImageFileMap slides) d r2
        = imageLink (buildImageFileMap slides) d r := by
  constructor
  · unfold buildImageFileMap
    rw [foldl_slides_images, hrefs, hsame]
    unfold linkName
    rw [fileMap_at_first before after r hne hfirst]
    rfl
  · simp [imageLink, hsame]

/-- C17, witness: in the deduplication scenario the fourth reference repeats the media
path of the second and is linked under the name given to the second, `img_2.png`. -/
theorem true_duplicates_share_name_witness :
    linkName (buildImageFileMap fourthRepeatsSecond) "ppt/media/b/img.png".toList
        = "img_2.png".toList
      ∧ imageLink (buildImageFileMap fourthRepeatsSecond) "d".toList
          ⟨"rId2".toList, "ppt/media/b/img.png".toList⟩
        = "![img_2.png](./d/img_2.png)\n\n".toList :=
  true_duplicates_share_name fourthRepeatsSecond
    [⟨"rId1".toList, "ppt/media/a/img.png".toList⟩]
    [⟨"rId1".toList, "ppt/media/c/img.png".toList⟩,
     ⟨"rId2".toList, "ppt/media/b/img.png".toList⟩]
    ⟨"rId2".toList, "ppt/media/b/img.png".toList⟩
    ⟨"rId2".toList, "ppt/media/b/img.png".toList⟩ "d".toList rfl (by decide) (by decide)
    (by decide) rfl

/-- C18, evaluated at the failing input: for the media files `a/img.png`, `b/img.png`
and `c/img_2.png` the renderer and the exporter both name the second and the third file
`img_2.png`. Two different media paths share one export file name; `Convert` writes
`deck_images/img_2.png` twice, the second write replacing the first image. -/
theorem renamed_name_collides :
    linkNames renamedLikeCollision.Slides
        = ["img.png".toList, "img_2.png".toList, "img_2.png".toList]
      ∧ linkName (buildImageFileMap renamedLikeCollision.Slides)
          "ppt/media/b/img.png".toList
        = linkName (buildImageFileMap renamedLikeCollision.Slides)
            "ppt/media/c/img_2.png".toList
      ∧ collectImages renamedLikeCollision.Slides
        = [⟨"ppt/media/a/img.png".toList, "img.png".toList⟩,
           ⟨"ppt/media/b/img.png".toList, "img_2.png".toList⟩,
           ⟨"ppt/media/c/img_2.png".toList, "img_2.png".toList⟩]
      ∧ (convertParsed (plainHost []) "in/deck.pptx".toList ⟨[]⟩ renamedLikeCollision).2
        = [.mkdirAll "in/deck_images".toList,
           .writeFile "in/deck_images/img.png".toList "A".toList,
           .writeFile "in/deck_images/img_2.png".toList "B".toList,
           .writeFile "in/deck_images/img_2.png".toList "C".toList] := by
  refine ⟨by decide, by decide, by decide, by decide⟩

/-! ## Skipped slide-IDs and tolerated relationship parts -/

/-- C27: when the relationships and the presentation part decode and at least one
slide-ID has a relationship-ID that is a key of the relationship map, `getSlideOrder`
returns, without error, exactly the resolved targets of the matching slide-IDs in
document order; the non-matching ones are omitted and nothing of the archive scan is
added, whatever the archive contains. -/
theorem unresolved_ids_skipped (dec : XmlDecoder) (zr : ZipReader) (presRels : GoMap Str)
    (presXML : Bytes) (pres : xmlPresentation)
    (hrels : parseRels dec zr "ppt/_rels/presentation.xml.rels".toList = .ok presRels)
    (hxml : readZipFile zr "ppt/presentation.xml".toList = .ok presXML)
    (hdec : dec.presentation presXML = some pres)
    (hsome : ∃ sid ∈ pres.SlideIdList.SlideIds, presRels sid.RID ≠ none) :
    getSlideOrder dec zr
        = .ok (pres.SlideIdList.SlideIds.filterMap (fun sid =>
            (presRels sid.RID).map (resolveRelPath "ppt".toList)))
      ∧ (pres.SlideIdList.SlideIds.filterMap (fun sid =>
            (presRels sid.RID).map (resolveRelPath "ppt".toList))).length
        = (pres.SlideIdList.SlideIds.filter (fun sid => (presRels sid.RID).isSome)).length := by
  constructor
  · unfold getSlideOrder
    simp only [hrels, hxml, hdec]
    rw [slideOrder_foldl, List.nil_append]
    have hne : (pres.SlideIdList.SlideIds.filterMap (fun sid =>
        (presRels sid.RID).map (resolveRelPath "ppt".toList))).length ≠ 0 := by
      obtain ⟨sid, hs, hr⟩ := hsome
      cases ht : presRels sid.RID with
      | none => exact absurd ht hr
      | some t =>
        have hmem : resolveRelPath "ppt".toList t
            ∈ pres.SlideIdList.SlideIds.filterMap (fun sid =>
                (presRels sid.RID).map (resolveRelPath "ppt".toList)) :=
          List.mem_filterMap.mpr ⟨sid, hs, by simp [ht]⟩
        exact Nat.pos_iff_ne_zero.mp (List.length_pos_of_mem hmem)
    rw [if_neg hne]
  · generalize pres.SlideIdList.SlideIds = ids
    induction ids with
    | nil => rfl
    | cons sid rest ih =>
      cases ht : presRels sid.RID with
      | none => simpa [List.filterMap_cons, List.filter_cons, ht] using ih
      | some t => simpa [List.filterMap_cons, List.filter_cons, ht] using ih

/-- C27, witness: in the example package only the first of two slide-IDs resolves; the
order is its target alone, and the slide part `ppt/slides/slide9.xml` that the scan
would find is not added. -/
theorem unresolved_ids_skipped_witness :
    getSlideOrder sampleDecoder oneResolvedPackage = .ok ["ppt/deck/s1.xml".toList]
      ∧ (1 : Nat) = 1 :=
  unresolved_ids_skipped sampleDecoder oneResolvedPackage
    (GoMap.empty.set "rId1".toList "deck/s1.xml".toList) presTwoXml
    ⟨⟨[⟨"rId1".toList⟩, ⟨"rId2".toList⟩]⟩⟩ rfl rfl rfl
    ⟨⟨"rId1".toList⟩, by decide, by decide⟩

/-- C22: for every slide part that can be read and decoded, `parseSlide` succeeds,
whatever happens to the slide's relationships part; when that part is absent the slide is
the walk of the shape tree with an empty relationship map; and a picture whose non-empty
embed-ID is not a key of the relationship map contributes the image reference with that
ID and the empty media path. -/
theorem missing_rels_tolerated (dec : XmlDecoder) (zr : ZipReader) (slidePath : Str)
    (index : Int) (data : Bytes) (sld : xmlSlide)
    (hread : readZipFile zr slidePath = .ok data) (hdec : dec.slide data = some sld) :
    (∃ slideRels, parseSlide dec zr slidePath index = .ok (walkSlide sld slideRels index))
      ∧ ((∀ f ∈ zr, f.Name ≠ slideRelsPath slidePath) →
          parseSlide dec zr slidePath index = .ok (walkSlide sld GoMap.empty index))
      ∧ (∀ (rels : GoMap Str) (rID : Str) (slide : Slide), rID ≠ [] → rels rID = none →
          extractPicture (pictureOf rID) slide rels
            = { slide with Images := slide.Images ++ [⟨rID, []⟩] })
      ∧ (∀ slideRels : GoMap Str, (walkSlide sld slideRels index).Images
          = (sld.CSld.SpTree.GroupShapes.flatMap (fun grp => grp.Pictures)
              ++ sld.CSld.SpTree.Pictures).filterMap (pictureRef slideRels)) := by
  refine ⟨?_, ?_, ?_, ?_⟩
  · unfold parseSlide
    simp only [hread, hdec]
    exact ⟨_, rfl⟩
  · intro habs
    have hr : readZipFile zr (slideRelsPath slidePath)
        = .error (.notInZip (slideRelsPath slidePath)) := by
      simp only [readZipFile, find_none zr _ habs]
    unfold parseSlide
    simp only [hread, hdec, parseRels, hr]
  · intro rels rID slide hne hnone
    simp [extractPicture, pictureOf, hne, hnone]
  · intro slideRels
    unfold walkSlide
    simp only [pictures_images, groups_images, shapes_images, List.filterMap_append,
      List.nil_append]

/-- C22, witness: the slide of the example package embeds `rId1` and has no
relationships part; it is parsed, with the reference `rId1` and an empty media path. -/
theorem missing_rels_tolerated_witness :
    parseSlide sampleDecoder pictureNoRelsPackage "ppt/slides/slide1.xml".toList 1
      = .ok ⟨1, [], [], [⟨"rId1".toList, []⟩]⟩ :=
  (missing_rels_tolerated sampleDecoder pictureNoRelsPackage "ppt/slides/slide1.xml".toList
    1 slidePictureXml ⟨⟨⟨[], [pictureOf "rId1".toList], []⟩⟩⟩ rfl rfl).2.1 (by decide)

/-! ## Failures of `Parse` -/

theorem partFails_iff {α : Type} (decode : Bytes → Option α) (zr : ZipReader) (name : Str) :
    partFails decode zr name
      ↔ ¬ ∃ data v, readZipFile zr name = .ok data ∧ decode data = some v := by
  unfold partFails entryAbsent entryUnreadable partUndecodable readZipFile
  cases hf : zr.find? (fun g => g.Name = name) with
  | none =>
    have habs : ∀ f ∈ zr, f.Name ≠ name := by
      intro f hfm
      simpa using List.find?_eq_none.mp hf f hfm
    simp only [ne_eq]
    constructor
    · intro _
      rintro ⟨data, v, h, _⟩
      cases h
    · intro _
      exact Or.inl habs
  | some f =>
    obtain ⟨before, after, hz, hb, hn⟩ := find_split zr name f hf
    have hpres : ¬ ∀ g ∈ zr, g.Name ≠ name := by
      intro h
      exact h f (by rw [hz]; simp) hn
    cases hc : f.content with
    | none => simp [hc]
    | some data =>
      cases hd : decode data with
      | none => simp [hc, hd, hpres]
      | some v => simp [hc, hd, hpres]

theorem parseRels_ok_iff (dec : XmlDecoder) (zr : ZipReader) (name : Str) :
    (∃ m, parseRels dec zr name = .ok m) ↔ ¬ partFails dec.rels zr name := by
  rw [partFails_iff, not_not]
  unfold parseRels
  cases hr : readZipFile zr name with
  | error e => simp
  | ok data =>
    cases hd : dec.rels data with
    | none => simp [hd]
    | some rels => simp [hd]

theorem parseSlide_ok_iff (dec : XmlDecoder) (zr : ZipReader) (slidePath : Str) (index : Int) :
    (∃ s, parseSlide dec zr slidePath index = .ok s) ↔ ¬ partFails dec.slide zr slidePath := by
  rw [partFails_iff, not_not]
  unfold parseSlide
  cases hr : readZipFile zr slidePath with
  | error e => simp
  | ok data =>
    cases hd : dec.slide data with
    | none => simp [hd]
    | some sld => simp [hd]

theorem except_cases {ε α : Type} (x : Except ε α) : (∃ e, x = .error e) ∨ ∃ a, x = .ok a := by
  cases x with
  | error e => exact Or.inl ⟨e, rfl⟩
  | ok a => exact Or.inr ⟨a, rfl⟩

theorem except_not_both {ε α : Type} (x : Except ε α) (h1 : ∃ e, x = .error e)
    (h2 : ∃ a, x = .ok a) : False := by
  obtain ⟨e, he⟩ := h1
  obtain ⟨a, ha⟩ := h2
  rw [he] at ha
  cases ha

theorem getSlideOrder_ok_iff (dec : XmlDecoder) (zr : ZipReader) :
    (∃ order, getSlideOrder dec zr = .ok order)
      ↔ ¬ partFails dec.rels zr "ppt/_rels/presentation.xml.rels".toList
        ∧ ¬ partFails dec.presentation zr "ppt/presentation.xml".toList := by
  rw [← parseRels_ok_iff, partFails_iff, not_not]
  unfold getSlideOrder
  cases hrels : parseRels dec zr "ppt/_rels/presentation.xml.rels".toList with
  | error e => simp
  | ok presRels =>
    cases hr : readZipFile zr "ppt/presentation.xml".toList with
    | error e => simp
    | ok data =>
      cases hd : dec.presentation data with
      | none => simp [hd]
      | some pres =>
        simp only [hd]
        constructor
        · intro _
          exact ⟨⟨presRels, rfl⟩, data, pres, rfl, hd⟩
        · intro _
          split
          · exact ⟨_, rfl⟩
          · exact ⟨_, rfl⟩

theorem parseSlides_first_failure (dec : XmlDecoder) (zr : ZipReader) (before : List Str) :
    ∀ (i : Nat) (acc : List Slide) (path : Str) (after : List Str),
      (∀ q ∈ before, ¬ partFails dec.slide zr q) → partFails dec.slide zr path →
      ∃ e, parseSlides dec zr i (before ++ path :: after) acc
        = .error (.wrap ("failed to parse ".toList ++ path) e) := by
  induction before with
  | nil =>
    intro i acc path after _ hfail
    have hno : ¬ ∃ s, parseSlide dec zr path ((i : Int) + 1) = .ok s :=
      fun h => (parseSlide_ok_iff dec zr path _).mp h hfail
    rcases except_cases (parseSlide dec zr path ((i : Int) + 1)) with ⟨e, he⟩ | hok
    · exact ⟨e, by simp [parseSlides, he]⟩
    · exact absurd hok hno
  | cons q rest ih =>
    intro i acc path after hb hfail
    obtain ⟨s, hs⟩ := (parseSlide_ok_iff dec zr q ((i : Int) + 1)).mpr
      (hb q (List.mem_cons_self _ _))
    obtain ⟨e, he⟩ := ih (i + 1) (acc ++ [s]) path after
      (fun x hx => hb x (List.mem_cons_of_mem _ hx)) hfail
    refine ⟨e, ?_⟩
    rw [List.cons_append, parseSlides, hs]
    exact he

theorem parseSlides_all_ok (dec : XmlDecoder) (zr : ZipReader) (paths : List Str) :
    ∀ (i : Nat) (acc : List Slide), (∀ q ∈ paths, ¬ partFails dec.slide zr q) →
      ∃ out, parseSlides dec zr i paths acc = .ok out
        ∧ out.length = acc.length + paths.length := by
  induction paths with
  | nil => intro i acc _; exact ⟨acc, rfl, by simp⟩
  | cons q rest ih =>
    intro i acc h
    obtain ⟨s, hs⟩ := (parseSlide_ok_iff dec zr q ((i : Int) + 1)).mpr
      (h q (List.mem_cons_self _ _))
    obtain ⟨out, hout, hlen⟩ := ih (i + 1) (acc ++ [s])
      (fun x hx => h x (List.mem_cons_of_mem _ hx))
    refine ⟨out, ?_, ?_⟩
    · rw [parseSlides, hs]
      exact hout
    · rw [hlen, List.length_append, List.length_singleton, List.length_cons]
      omega

theorem first_failing (P : Str → Prop) (l : List Str) (h : ∃ x ∈ l, P x) :
    ∃ before x after, l = before ++ x :: after ∧ (∀ y ∈ before, ¬ P y) ∧ P x := by
  induction l with
  | nil => obtain ⟨x, hx, _⟩ := h; cases hx
  | cons a rest ih =>
    by_cases ha : P a
    · exact ⟨[], a, rest, rfl, by simp, ha⟩
    · obtain ⟨x, hx, hpx⟩ := h
      have hrest : ∃ x ∈ rest, P x := by
        rcases List.mem_cons.mp hx with hxa | hxr
        · subst hxa; exact absurd hpx ha
        · exact ⟨x, hxr, hpx⟩
      obtain ⟨before, y, after, hl, hb, hy⟩ := ih hrest
      refine ⟨a :: before, y, after, by simp [hl], ?_, hy⟩
      intro z hz
      rcases List.mem_cons.mp hz with hza | hzb
      · subst hza; exact ha
      · exact hb z hzb

/-- C21 (as amended): over an opened archive, `Parse` returns an error iff the
presentation-level relationships part is absent, unreadable or undecodable, or
`ppt/presentation.xml` is absent, unreadable or undecodable, or some slide path of the
resolved order is absent, unreadable or undecodable (unreadable: the first entry of that
name cannot be opened or read); the error of the first failing slide path names that
path; otherwise `Parse` returns one slide per path of the order. -/
theorem parse_fails_on_required_parts (dec : XmlDecoder) (zr : ZipReader) :
    ((∃ e, Parse dec zr = .error e)
        ↔ (partFails dec.rels zr "ppt/_rels/presentation.xml.rels".toList
          ∨ partFails dec.presentation zr "ppt/presentation.xml".toList
          ∨ ∃ order, getSlideOrder dec zr = .ok order
              ∧ ∃ path ∈ order, partFails dec.slide zr path))
      ∧ (∀ (order before after : List Str) (path : Str),
          getSlideOrder dec zr = .ok order → order = before ++ path :: after →
          (∀ q ∈ before, ¬ partFails dec.slide zr q) → partFails dec.slide zr path →
          ∃ e, Parse dec zr = .error (.wrap ("failed to parse ".toList ++ path) e))
      ∧ (∀ p, Parse dec zr = .ok p →
          ∃ order, getSlideOrder dec zr = .ok order ∧ p.Slides.length = order.length
            ∧ p.zip = zr) := by
  have hnamed : ∀ (order before after : List Str) (path : Str),
      getSlideOrder dec zr = .ok order → order = before ++ path :: after →
      (∀ q ∈ before, ¬ partFails dec.slide zr q) → partFails dec.slide zr path →
      ∃ e, Parse dec zr = .error (.wrap ("failed to parse ".toList ++ path) e) := by
    intro order before after path ho hsplit hb hfail
    obtain ⟨e, he⟩ := parseSlides_first_failure dec zr before 0 [] path after hb hfail
    refine ⟨e, ?_⟩
    unfold Parse
    simp only [ho, hsplit, he]
  have hok : ∀ order, getSlideOrder dec zr = .ok order →
      (∀ q ∈ order, ¬ partFails dec.slide zr q) →
      ∃ slides, Parse dec zr = .ok ⟨slides, zr⟩ ∧ slides.length = order.length := by
    intro order ho hall
    obtain ⟨out, hout, hlen⟩ := parseSlides_all_ok dec zr order 0 [] hall
    refine ⟨out, ?_, by simpa using hlen⟩
    unfold Parse
    simp only [ho, hout]
  refine ⟨⟨?_, ?_⟩, hnamed, ?_⟩
  · intro herr
    by_cases hr : partFails dec.rels zr "ppt/_rels/presentation.xml.rels".toList
    · exact Or.inl hr
    · by_cases hp : partFails dec.presentation zr "ppt/presentation.xml".toList
      · exact Or.inr (Or.inl hp)
      · right; right
        obtain ⟨order, ho⟩ := (getSlideOrder_ok_iff dec zr).mpr ⟨hr, hp⟩
        refine ⟨order, ho, ?_⟩
        by_contra hnone
        have hall : ∀ q ∈ order, ¬ partFails dec.slide zr q :=
          fun q hq hf => hnone ⟨q, hq, hf⟩
        obtain ⟨slides, hs, _⟩ := hok order ho hall
        exact except_not_both _ herr ⟨_, hs⟩
  · rintro (hr | hp | ⟨order, ho, hex⟩)
    · have hno : ¬ ∃ order, getSlideOrder dec zr = .ok order :=
        fun h => ((getSlideOrder_ok_iff dec zr).mp h).1 hr
      rcases except_cases (getSlideOrder dec zr) with ⟨e, he⟩ | h
      · exact ⟨e, by simp [Parse, he]⟩
      · exact absurd h hno
    · have hno : ¬ ∃ order, getSlideOrder dec zr = .ok order :=
        fun h => ((getSlideOrder_ok_iff dec zr).mp h).2 hp
      rcases except_cases (getSlideOrder dec zr) with ⟨e, he⟩ | h
      · exact ⟨e, by simp [Parse, he]⟩
      · exact absurd h hno
    · obtain ⟨before, path, after, hsplit, hb, hfail⟩ :=
        first_failing (fun q => partFails dec.slide zr q) order hex
      obtain ⟨e, he⟩ := hnamed order before after path ho hsplit hb hfail
      exact ⟨_, he⟩
  · intro p hp
    rcases except_cases (getSlideOrder dec zr) with ⟨e, he⟩ | ⟨order, ho⟩
    · simp [Parse, he] at hp
    · refine ⟨order, ho, ?_⟩
      by_cases hall : ∀ q ∈ order, ¬ partFails dec.slide zr q
      · obtain ⟨slides, hs, hlen⟩ := hok order ho hall
        rw [hs] at hp
        injection hp with hp
        subst hp
        exact ⟨hlen, rfl⟩
      · have hex : ∃ q ∈ order, partFails dec.slide zr q := by
          by_contra hc
          exact hall (fun q hq hf => hc ⟨q, hq, hf⟩)
        obtain ⟨before, path, after, hsplit, hb, hfail⟩ :=
          first_failing (fun q => partFails dec.slide zr q) order hex
        obtain ⟨e, he⟩ := hnamed order before after path ho hsplit hb hfail
        rw [he] at hp
        cases hp

/-- C21, counterexample: the presentation-level relationships part is stored in the
archive (so it is not absent) but cannot be opened; nothing is read that could fail to
decode, and `Parse` returns the error of reading the part. -/
theorem parse_fails_on_required_parts_counterexample :
    Parse sampleDecoder unreadableRelsPackage
        = .error (.wrap "failed to read presentation rels".toList
            (.readFailed "ppt/_rels/presentation.xml.rels".toList))
      ∧ ¬ entryAbsent unreadableRelsPackage "ppt/_rels/presentation.xml.rels".toList
      ∧ ¬ partUndecodable sampleDecoder.rels unreadableRelsPackage
          "ppt/_rels/presentation.xml.rels".toList
      ∧ ¬ partFails sampleDecoder.presentation unreadableRelsPackage
          "ppt/presentation.xml".toList
      ∧ ¬ partFails sampleDecoder.slide unreadableRelsPackage
          "ppt/slides/slide1.xml".toList
      ∧ Parse sampleDecoder brokenSlidePackage
        = .error (.wrap "failed to parse ppt/slides/slide2.xml".toList
            (.wrap "failed to parse slide XML".toList .badXml)) := by
  refine ⟨rfl, ?_, ?_, ?_, ?_, rfl⟩
  · intro h
    exact h ⟨"ppt/_rels/presentation.xml.rels".toList, none⟩ (by decide) rfl
  · rintro ⟨data, h, _⟩
    cases h
  · rw [partFails_iff, not_not]
    exact ⟨presNoneXml, ⟨⟨[]⟩⟩, rfl, rfl⟩
  · rw [partFails_iff, not_not]
    exact ⟨slideEmptyXml, ⟨⟨⟨[], [], []⟩⟩⟩, rfl, rfl⟩

/-! ## The archive handle -/

theorem ParseFile_result (dec : XmlDecoder) (openReader : Str → Option ZipReader)
    (filePath : Str) (zr : ZipReader) (hopen : openReader filePath = some zr) :
    (ParseFile dec openReader filePath).1 = Parse dec zr := by
  unfold ParseFile Parse
  simp only [hopen]
  cases getSlideOrder dec zr with
  | error e => rfl
  | ok order =>
    simp only
    cases parseSlides dec zr 0 order [] with
    | error e => rfl
    | ok slides => rfl

/-- C28: on every execution of `Parse` that opens the archive, the result is that of
parsing the opened archive; when it is an error (of the slide order or of a slide) the
calls on the handle are the opening followed by exactly one `Close`, made before the
error is returned, and when it is a presentation the handle is not closed. -/
theorem archive_released_on_failure (dec : XmlDecoder) (openReader : Str → Option ZipReader)
    (filePath : Str) (zr : ZipReader) (hopen : openReader filePath = some zr) :
    (ParseFile dec openReader filePath).1 = Parse dec zr
      ∧ ((∃ e, Parse dec zr = .error e) →
          (ParseFile dec openReader filePath).2 = [.openReader filePath, .close]
            ∧ (ParseFile dec openReader filePath).2.count .close = 1)
      ∧ ((∃ p, Parse dec zr = .ok p) →
          (ParseFile dec openReader filePath).2 = [.openReader filePath]
            ∧ (ParseFile dec openReader filePath).2.count .close = 0) := by
  refine ⟨ParseFile_result dec openReader filePath zr hopen, ?_, ?_⟩
  · rintro ⟨e, he⟩
    unfold Parse at he
    unfold ParseFile
    simp only [hopen]
    cases ho : getSlideOrder dec zr with
    | error e2 => exact ⟨rfl, by simp⟩
    | ok order =>
      simp only [ho] at he ⊢
      cases hs : parseSlides dec zr 0 order [] with
      | error e2 => exact ⟨rfl, by simp⟩
      | ok slides => simp [hs] at he
  · rintro ⟨p, hp⟩
    unfold Parse at hp
    unfold ParseFile
    simp only [hopen]
    cases ho : getSlideOrder dec zr with
    | error e2 => simp [ho] at hp
    | ok order =>
      simp only [ho] at hp ⊢
      cases hs : parseSlides dec zr 0 order [] with
      | error e2 => simp [hs] at hp
      | ok slides => exact ⟨rfl, by simp⟩

/-- C28, witness: parsing the package with a broken second slide opens the archive and
closes it once; parsing the two-slide package opens it and leaves it open. -/
theorem archive_released_on_failure_witness :
    ((ParseFile sampleDecoder (fun _ => some brokenSlidePackage) "deck.pptx".toList).2
        = [.openReader "deck.pptx".toList, .close]
        ∧ (ParseFile sampleDecoder (fun _ => some brokenSlidePackage)
            "deck.pptx".toList).2.count .close = 1)
      ∧ ((ParseFile sampleDecoder (fun _ => some twoSlidePackage) "deck.pptx".toList).2
        = [.openReader "deck.pptx".toList]
        ∧ (ParseFile sampleDecoder (fun _ => some twoSlidePackage)
            "deck.pptx".toList).2.count .close = 0) :=
  ⟨(archive_released_on_failure sampleDecoder (fun _ => some brokenSlidePackage)
      "deck.pptx".toList brokenSlidePackage rfl).2.1 ⟨_, rfl⟩,
   (archive_released_on_failure sampleDecoder (fun _ => some twoSlidePackage)
      "deck.pptx".toList twoSlidePackage rfl).2.2 ⟨_, rfl⟩⟩

/-! ## The image directory -/

theorem isPrefixOf_self_append (a b : List Char) : a.isPrefixOf (a ++ b) = true := by
  induction a with
  | nil => simp [List.isPrefixOf]
  | cons c rest ih => simp [List.isPrefixOf, ih]

theorem trimSfx_append (x e : Str) : trimSfx (x ++ e) e = x := by
  have h : hasSfx (x ++ e) e = true := by
    simp only [hasSfx, List.isSuffixOf, List.reverse_append]
    exact isPrefixOf_self_append _ _
  unfold trimSfx
  rw [if_pos h]
  have hl : (x ++ e).length - e.length = x.length := by
    simp only [List.length_append]; omega
  rw [hl, List.take_left]

theorem extScan_shape (l : List Char) :
    ∀ (acc : List Char), extScan l acc = []
      ∨ ∃ walked rest, l = walked ++ '.' :: rest
          ∧ (∀ c ∈ walked, c ≠ '/' ∧ c ≠ '.')
          ∧ extScan l acc = '.' :: (walked.reverse ++ acc) := by
  induction l with
  | nil => intro acc; left; rfl
  | cons c cs ih =>
    intro acc
    by_cases hs : c = '/'
    · left; simp [extScan, hs]
    · by_cases hd : c = '.'
      · right
        refine ⟨[], cs, by simp [hd], by simp, ?_⟩
        subst hd
        simp [extScan]
      · rcases ih (c :: acc) with h | ⟨walked, rest, hl, hw, he⟩
        · left; simp [extScan, hs, hd, h]
        · right
          refine ⟨c :: walked, rest, by simp [hl], ?_, ?_⟩
          · intro x hx
            rcases List.mem_cons.mp hx with hx | hx
            · subst hx; exact ⟨hs, hd⟩
            · exact hw x hx
          · simp [extScan, hs, hd, he]

theorem base_without_ext (p : Str) :
    trimSfx (filepathBase p) (filepathExt p) ++ filepathExt p = filepathBase p := by
  rcases extScan_shape p.reverse [] with h | ⟨walked, rest, hl, hw, he⟩
  · have hx : filepathExt p = [] := h
    rw [hx]
    simp [trimSfx, hasSfx, List.isSuffixOf, List.isPrefixOf]
  · have hx : filepathExt p = '.' :: walked.reverse := by
      unfold filepathExt
      rw [he]
      simp
    have hp : p ≠ [] := by
      intro h0
      rw [h0] at hl
      cases walked <;> simp at hl
    have hdrop : p.reverse.dropWhile (fun c => c = '/') = p.reverse := by
      rw [hl]
      cases walked with
      | nil => simp [List.dropWhile_cons]
      | cons w ws =>
        have hw0 : w ≠ '/' := (hw w (List.mem_cons_self _ _)).1
        simp [List.dropWhile_cons, hw0]
    have htake : p.reverse.takeWhile (fun c => c ≠ '/')
        = walked ++ '.' :: rest.takeWhile (fun c => c ≠ '/') := by
      rw [hl, List.takeWhile_append_of_pos (fun a ha => by simpa using (hw a ha).1)]
      simp [List.takeWhile_cons]
    have hb : filepathBase p
        = (rest.takeWhile (fun c => c ≠ '/')).reverse ++ '.' :: walked.reverse := by
      unfold filepathBase pathBase
      simp only [hp, if_false, hdrop, List.reverse_reverse, htake]
      simp
    rw [hb, hx, trimSfx_append]

theorem exportImages_calls (host : Host) (pres : Presentation) (dir : Str)
    (images : List imageExport) :
    ∀ (calls : List FsCall) (c : FsCall),
      c ∈ (exportImages host pres dir images calls).2 →
      c ∈ calls ∨ ∃ e ∈ images, ∃ data, pres.ReadMedia e.mediaPath = .ok data
        ∧ c = .writeFile (filepathJoin [dir, e.fileName]) data := by
  induction images with
  | nil => intro calls c h; exact Or.inl h
  | cons img rest ih =>
    intro calls c h
    rw [exportImages] at h
    cases hr : pres.ReadMedia img.mediaPath with
    | error e => simp only [hr] at h; exact Or.inl h
    | ok data =>
      simp only [hr] at h
      have hnew : c ∈ calls ++ [FsCall.writeFile (filepathJoin [dir, img.fileName]) data] →
          c ∈ calls ∨ ∃ e ∈ img :: rest, ∃ data, pres.ReadMedia e.mediaPath = .ok data
            ∧ c = .writeFile (filepathJoin [dir, e.fileName]) data := by
        intro hc
        rcases List.mem_append.mp hc with hc | hc
        · exact Or.inl hc
        · right
          exact ⟨img, List.mem_cons_self _ _, data, hr, by simpa using hc⟩
      by_cases hw : host.writeFile (filepathJoin [dir, img.fileName]) data = true
      · rw [if_pos hw] at h
        rcases ih _ c h with h1 | ⟨e, he, d2, hd2, hc⟩
        · exact hnew h1
        · exact Or.inr ⟨e, List.mem_cons_of_mem _ he, d2, hd2, hc⟩
      · rw [if_neg hw] at h
        exact hnew h

theorem convertParsed_calls (host : Host) (filePath : Str) (opts : ConvertOptions)
    (pres : Presentation) (c : FsCall) (h : c ∈ (convertParsed host filePath opts pres).2) :
    c = .mkdirAll (convertImageDirFull filePath opts)
      ∨ ∃ e ∈ collectImages pres.Slides, ∃ data, pres.ReadMedia e.mediaPath = .ok data
          ∧ c = .writeFile (filepathJoin [convertImageDirFull filePath opts, e.fileName])
              data := by
  have hcalls : (convertParsed host filePath opts pres).2
      = (if (collectImages pres.Slides).length > 0 then
          if host.mkdirAll (convertImageDirFull filePath opts) then
            exportImages host pres (convertImageDirFull filePath opts)
              (collectImages pres.Slides) [.mkdirAll (convertImageDirFull filePath opts)]
          else (some (.createDir (convertImageDirFull filePath opts)),
            [.mkdirAll (convertImageDirFull filePath opts)])
        else (none, [])).2 := by
    unfold convertParsed
    simp only
    split <;> rfl
  rw [hcalls] at h
  by_cases hpos : (collectImages pres.Slides).length > 0
  · rw [if_pos hpos] at h
    by_cases hm : host.mkdirAll (convertImageDirFull filePath opts) = true
    · rw [if_pos hm] at h
      rcases exportImages_calls host pres _ _ _ c h with h1 | h2
      · left; simpa using h1
      · exact Or.inr h2
    · rw [if_neg hm] at h
      left; simpa using h
  · rw [if_neg hpos] at h
    simp at h

theorem convertParsed_markdown (host : Host) (filePath : Str) (opts : ConvertOptions)
    (pres : Presentation) (res : ConvertResult)
    (h : (convertParsed host filePath opts pres).1 = .ok res) :
    res.Markdown = buildMarkdown pres (convertImageDir filePath opts) := by
  unfold convertParsed at h
  simp only at h
  split at h
  · cases h
  · injection h with h
    rw [← h]

/-- C23: the image directory name of `Convert` is `opts.ImageDir` when that is non-empty
and otherwise the base name of the input followed by `_images`, the base name being
`filepath.Base` of the input without its extension (`filepath.Ext`); the Markdown is
rendered with that name, the directory created and every file written lie under
`filepath.Join(filepath.Dir(input), name)`, and every image link is
`![<file>](./<dir>/<file>)` followed by a blank line. -/
theorem image_directory_name (filePath : Str) (opts : ConvertOptions) :
    (opts.ImageDir ≠ [] → convertImageDir filePath opts = opts.ImageDir)
      ∧ (opts.ImageDir = [] →
          convertImageDir filePath opts
            = trimSfx (filepathBase filePath) (filepathExt filePath) ++ "_images".toList)
      ∧ trimSfx (filepathBase filePath) (filepathExt filePath) ++ filepathExt filePath
        = filepathBase filePath
      ∧ (∀ (host : Host) (pres : Presentation) (res : ConvertResult),
          (convertParsed host filePath opts pres).1 = .ok res →
          res.Markdown = buildMarkdown pres (convertImageDir filePath opts))
      ∧ (∀ (host : Host) (pres : Presentation) (c : FsCall),
          c ∈ (convertParsed host filePath opts pres).2 →
          c = .mkdirAll (filepathJoin [filepathDir filePath, convertImageDir filePath opts])
            ∨ ∃ e ∈ collectImages pres.Slides, ∃ data,
                c = .writeFile (filepathJoin
                  [filepathJoin [filepathDir filePath, convertImageDir filePath opts],
                    e.fileName]) data)
      ∧ (∀ (m : GoMap Str) (d : Str) (img : ImageRef), img.MediaPath ≠ [] →
          imageLink m d img
            = "![".toList ++ linkName m img.MediaPath ++ "](./".toList ++ d ++ "/".toList
                ++ linkName m img.MediaPath ++ ")\n\n".toList)
      ∧ (∀ (m : GoMap Str) (d : Str) (i : Nat) (s : Slide) (sb : Str),
          renderSlide m d i s sb
            = sb ++ (textBlock i s ++ (s.Images.map (imageLink m d)).flatten))
      ∧ convertImageDir "/tmp/x/sample.pptx".toList ⟨[]⟩ = "sample_images".toList
      ∧ convertImageDir "/tmp/x/test.pptx".toList ⟨"my_pics".toList⟩ = "my_pics".toList := by
  refine ⟨?_, ?_, base_without_ext filePath, ?_, ?_, ?_, ?_, by decide, by decide⟩
  · intro h
    simp [convertImageDir, h]
  · intro h
    simp [convertImageDir, h]
  · intro host pres res h
    exact convertParsed_markdown host filePath opts pres res h
  · intro host pres c h
    rcases convertParsed_calls host filePath opts pres c h with h1 | ⟨e, he, data, _, hc⟩
    · exact Or.inl h1
    · exact Or.inr ⟨e, he, data, hc⟩
  · intro m d img h
    simp [imageLink, h]
  · intro m d i s sb
    rw [renderSlide_eq]
    rfl

/-! ## Export file names -/

theorem digitChar_ne_slash (k : Nat) (h : k < 10) : Nat.digitChar k ≠ '/' := by
  interval_cases k <;> decide

theorem toDigitsCore_no_slash : ∀ (fuel n : Nat) (ds : List Char), '/' ∉ ds →
    '/' ∉ Nat.toDigitsCore 10 fuel n ds := by
  intro fuel
  induction fuel with
  | zero => intro n ds h; simpa [Nat.toDigitsCore] using h
  | succ f ih =>
    intro n ds h
    unfold Nat.toDigitsCore
    have hd : '/' ∉ Nat.digitChar (n % 10) :: ds := by
      intro hm
      rcases List.mem_cons.mp hm with h1 | h1
      · exact digitChar_ne_slash _ (Nat.mod_lt _ (by decide)) h1.symm
      · exact h h1
    simp only
    split
    · exact hd
    · exact ih _ _ hd

theorem fmtInt_no_slash (n : Int) : '/' ∉ fmtInt n := by
  have h : ∀ k, '/' ∉ Nat.toDigits 10 k := by
    intro k
    unfold Nat.toDigits
    exact toDigitsCore_no_slash _ _ _ (by simp)
  unfold fmtInt
  split
  · intro hm
    rcases List.mem_cons.mp hm with h1 | h1
    · exact absurd h1 (by decide)
    · exact h _ h1
  · exact h _

theorem ext_no_slash (p : Str) : '/' ∉ filepathExt p := by
  rcases extScan_shape p.reverse [] with h | ⟨walked, rest, _, hw, he⟩
  · have hx : filepathExt p = [] := h
    rw [hx]; simp
  · have hx : filepathExt p = '.' :: walked.reverse := by
      unfold filepathExt
      rw [he]; simp
    rw [hx]
    intro hm
    rcases List.mem_cons.mp hm with h1 | h1
    · exact absurd h1 (by decide)
    · exact (hw _ (List.mem_reverse.mp h1)).1 rfl

theorem trimSfx_no_slash (b e : Str) (h : '/' ∉ b) : '/' ∉ trimSfx b e := by
  unfold trimSfx
  split
  · exact fun hm => h (List.mem_of_mem_take hm)
  · exact h

theorem pathBase_shape (p : Str) :
    pathBase p ≠ [] ∧ (pathBase p = ['/'] ∨ '/' ∉ pathBase p) := by
  unfold pathBase
  by_cases hp : p = []
  · simp [hp]
  · simp only [hp, if_false]
    split
    · simp
    · rename_i hne
      refine ⟨hne, Or.inr ?_⟩
      intro hm
      have := List.mem_takeWhile_imp (List.mem_reverse.mp hm)
      simp at this

theorem dedupName_cases (m : GoMap Int) (p : Str) :
    (dedupName m p).2 = filepathBase p
      ∨ ∃ count : Int, (dedupName m p).2
          = trimSfx (filepathBase p) (filepathExt (filepathBase p)) ++ ['_']
              ++ fmtInt (count + 1) ++ filepathExt (filepathBase p) := by
  cases h : m (filepathBase p) with
  | none => left; simp [dedupName, h]
  | some count => right; exact ⟨count, by simp [dedupName, h]⟩

theorem dedupName_single (m : GoMap Int) (p : Str)
    (hb : filepathBase p ≠ ['.'] ∧ filepathBase p ≠ ['.', '.'] ∧ filepathBase p ≠ ['/']) :
    singleElement (dedupName m p).2 := by
  obtain ⟨hne, hsl⟩ := pathBase_shape p
  have hslash : '/' ∉ filepathBase p := by
    rcases hsl with h | h
    · exact absurd h hb.2.2
    · exact h
  rcases dedupName_cases m p with h | ⟨count, h⟩
  · rw [h]
    exact ⟨hne, hslash, hb.1, hb.2.1⟩
  · rw [h]
    have hus : '_' ∈ trimSfx (filepathBase p) (filepathExt (filepathBase p)) ++ ['_']
        ++ fmtInt (count + 1) ++ filepathExt (filepathBase p) := by simp
    refine ⟨?_, ?_, ?_, ?_⟩
    · intro h0
      rw [h0] at hus
      cases hus
    · intro hm
      simp only [List.mem_append, List.mem_singleton] at hm
      rcases hm with ((h1 | h1) | h1) | h1
      · exact trimSfx_no_slash _ _ hslash h1
      · exact absurd h1 (by decide)
      · exact fmtInt_no_slash _ h1
      · exact ext_no_slash _ h1
    · intro h0
      rw [h0] at hus
      simp at hus
    · intro h0
      rw [h0] at hus
      simp at hus

theorem collect_foldl_names (refs : List ImageRef) :
    ∀ (st : GoMap Int × List imageExport) (e : imageExport),
      e ∈ (refs.foldl collectStep st).2 →
      e ∈ st.2 ∨ (e.mediaPath ≠ [] ∧ ∃ m, e.fileName = (dedupName m e.mediaPath).2) := by
  induction refs with
  | nil => intro st e h; exact Or.inl h
  | cons r rest ih =>
    intro st e h
    rw [List.foldl_cons] at h
    rcases ih _ e h with h1 | h1
    · by_cases hr : r.MediaPath = []
      · left; simpa [collectStep, hr] using h1
      · have h2 : e ∈ st.2 ++ [⟨r.MediaPath, (dedupName st.1 r.MediaPath).2⟩] := by
          simpa [collectStep, hr] using h1
        rcases List.mem_append.mp h2 with h3 | h3
        · exact Or.inl h3
        · right
          have he : e = ⟨r.MediaPath, (dedupName st.1 r.MediaPath).2⟩ := by simpa using h3
          subst he
          exact ⟨hr, st.1, rfl⟩
    · exact Or.inr h1

theorem collectImages_names (slides : List Slide) (e : imageExport)
    (h : e ∈ collectImages slides) :
    e.mediaPath ≠ [] ∧ ∃ m, e.fileName = (dedupName m e.mediaPath).2 := by
  unfold collectImages at h
  rw [foldl_slides_images] at h
  rcases collect_foldl_names _ _ e h with h1 | h1
  · cases h1
  · exact h1

theorem splitSlash_ne_nil (r : Str) : splitSlash r ≠ [] := by
  rw [splitSlash_shape]
  simp

theorem splitSlash_append (a b : Str) :
    splitSlash (a ++ '/' :: b) = splitSlash a ++ splitSlash b := by
  induction a with
  | nil => simp [splitSlash]
  | cons c rest ih =>
    by_cases hc : c = '/'
    · subst hc
      simp [splitSlash, ih]
    · rw [List.cons_append, splitSlash, if_neg hc, ih, splitSlash, if_neg hc]
      cases hs : splitSlash rest with
      | nil => exact absurd hs (splitSlash_ne_nil rest)
      | cons seg segs => simp

theorem splitSlash_single (n : Str) (h : '/' ∉ n) : splitSlash n = [n] := by
  have hall : ∀ c ∈ n, (fun x => decide (x ≠ '/')) c = true := by
    intro c hc
    have : c ≠ '/' := fun he => h (he ▸ hc)
    simpa using this
  rw [splitSlash_shape, List.takeWhile_eq_self_iff.mpr hall,
    List.dropWhile_eq_nil_iff.mpr hall]
  simp

theorem join_single (dir name : Str) (hdir : dir ≠ []) (hname : singleElement name) :
    (filepathJoin [dir, name] = name ∧ pathClean dir = ['.'])
      ∨ (filepathJoin [dir, name] = '/' :: name ∧ pathClean dir = ['/'])
      ∨ filepathJoin [dir, name] = pathClean dir ++ '/' :: name := by
  obtain ⟨hne, hsl, hdot, hdd⟩ := hname
  have hj : filepathJoin [dir, name] = pathClean (dir ++ '/' :: name) := by
    simp [filepathJoin, hdir, stringsJoin]
  have hhead : (dir ++ '/' :: name).head? = dir.head? := by
    cases dir with
    | nil => exact absurd rfl hdir
    | cons c rest => rfl
  obtain ⟨_, hprop⟩ := cleanLoop_sim (decide (dir.head? = some '/')) dir.length dir ⟨0, []⟩
    (Nat.le_refl _) (fun x hx => by cases hx)
  have hstep : normStep (decide (dir.head? = some '/'))
      ((splitSlash dir).foldl (normStep (decide (dir.head? = some '/'))) ⟨0, []⟩) name
      = ⟨((splitSlash dir).foldl (normStep (decide (dir.head? = some '/'))) ⟨0, []⟩).ups,
          name :: ((splitSlash dir).foldl
            (normStep (decide (dir.head? = some '/'))) ⟨0, []⟩).names⟩ := by
    unfold normStep
    rw [if_neg (fun h => h.elim hne hdot), if_neg hdd]
  rw [hj, pathClean_normalise, pathClean_normalise]
  unfold normalise
  simp only [hhead, splitSlash_append, splitSlash_single name hsl, List.foldl_append,
    List.foldl_cons, List.foldl_nil, hstep]
  generalize (splitSlash dir).foldl (normStep (decide (dir.head? = some '/'))) ⟨0, []⟩ = st
    at hprop ⊢
  obtain ⟨ups, names⟩ := st
  have helems := elems_ne_nil (decide (dir.head? = some '/')) ⟨ups, names⟩ hprop
  unfold normRender
  rw [elemsOf_push, stringsJoin_snoc]
  cases hr : decide (dir.head? = some '/') with
  | true =>
    rw [hr] at helems
    simp only [if_true]
    by_cases he : elemsOf true ⟨ups, names⟩ = []
    · right; left
      simp [he, stringsJoin]
    · right; right
      simp [he]
  | false =>
    rw [hr] at helems
    simp only [Bool.false_eq_true, if_false]
    by_cases he : elemsOf false ⟨ups, names⟩ = []
    · left
      simp [he]
    · right; right
      simp [he]

/-- C29 (as amended): for every image that `Convert` exports whose media path has a base
name other than `.`, `..` and `/`, the export file name is a single path element (not
empty, without `/`, neither `.` nor `..`), so the path `Convert` passes to `os.WriteFile`
for it, `filepath.Join(imageDirFull, fileName)`, is the file name directly under the
cleaned image directory; and every file-system call of `Convert` is the creation of the
image directory or a write to the image directory joined with an export file name. -/
theorem export_single_element (host : Host) (filePath : Str) (opts : ConvertOptions)
    (pres : Presentation) (e : imageExport) (he : e ∈ collectImages pres.Slides)
    (hb : filepathBase e.mediaPath ≠ ['.'] ∧ filepathBase e.mediaPath ≠ ['.', '.']
      ∧ filepathBase e.mediaPath ≠ ['/']) :
    singleElement e.fileName
      ∧ ((filepathJoin [convertImageDirFull filePath opts, e.fileName] = e.fileName
            ∧ pathClean (convertImageDirFull filePath opts) = ['.'])
          ∨ (filepathJoin [convertImageDirFull filePath opts, e.fileName] = '/' :: e.fileName
            ∧ pathClean (convertImageDirFull filePath opts) = ['/'])
          ∨ filepathJoin [convertImageDirFull filePath opts, e.fileName]
            = pathClean (convertImageDirFull filePath opts) ++ '/' :: e.fileName)
      ∧ (∀ c ∈ (convertParsed host filePath opts pres).2,
          c = .mkdirAll (convertImageDirFull filePath opts)
            ∨ ∃ e2 ∈ collectImages pres.Slides, ∃ data,
                c = .writeFile (filepathJoin [convertImageDirFull filePath opts, e2.fileName])
                  data) := by
  obtain ⟨_, m, hm⟩ := collectImages_names pres.Slides e he
  have hsingle : singleElement e.fileName := by
    rw [hm]
    exact dedupName_single m e.mediaPath hb
  refine ⟨hsingle, join_single _ _ (convertImageDirFull_ne_nil filePath opts) hsingle, ?_⟩
  intro c hc
  rcases convertParsed_calls host filePath opts pres c hc with h1 | ⟨e2, he2, data, _, h2⟩
  · exact Or.inl h1
  · exact Or.inr ⟨e2, he2, data, h2⟩

/-- C29, witness: the image of the example package `imagePackage` is exported as `a.png`,
a single path element, written to `in/deck_images/a.png`. -/
theorem export_single_element_witness :
    singleElement "a.png".toList
      ∧ filepathJoin [convertImageDirFull "in/deck.pptx".toList ⟨[]⟩, "a.png".toList]
        = "in/deck_images/a.png".toList :=
  ⟨(export_single_element (plainHost imagePackage) "in/deck.pptx".toList ⟨[]⟩
      ⟨[⟨1, [], [], [⟨"rId1".toList, "ppt/slides/img/a.png".toList⟩]⟩], imagePackage⟩
      ⟨"ppt/slides/img/a.png".toList, "a.png".toList⟩ (by decide)
      ⟨by decide, by decide, by decide⟩).1,
    by decide⟩

/-- C29, counterexample: a picture with the relationship target `../../..` has the media
path `..`; its export file name is `..`, which is not a single path element, and
`filepath.Join("in/deck_images", "..")` is `in`, the directory that holds the image
directory. On a host where `in` and `in/deck_images` are directories `Convert` creates
the image directory, calls `os.WriteFile` on `in`, and returns the error of that call. -/
theorem export_single_element_counterexample :
    resolveRelPath "ppt/slides".toList "../../..".toList = "..".toList
      ∧ Parse escapeDecoder escapePackage
        = .ok ⟨[⟨1, [], [], [⟨"rId1".toList, "..".toList⟩]⟩], escapePackage⟩
      ∧ collectImages [⟨1, [], [], [⟨"rId1".toList, "..".toList⟩]⟩]
        = [⟨"..".toList, "..".toList⟩]
      ∧ ¬ singleElement "..".toList
      ∧ filepathJoin ["in/deck_images".toList, "..".toList] = "in".toList
      ∧ Convert escapeDecoder
          (directoryHost escapePackage ["in".toList, "in/deck_images".toList])
          "in/deck.pptx".toList ⟨[]⟩
        = (.error (.writeImage "in".toList),
            [.mkdirAll "in/deck_images".toList, .writeFile "in".toList "PNG".toList]) := by
  refine ⟨by decide, rfl, by decide, ?_, by decide, rfl⟩
  intro h
  exact h.2.2.2 rfl

end Pptx2md

namespace Xlsx2md

open Pptx2md

/-! ## The sheet renderer -/

theorem escapePipes_nil : escapePipes [] = [] := rfl

theorem escapePipes_pipe (cs : Str) :
    escapePipes ('|' :: cs) = '\\' :: '|' :: escapePipes cs := by
  simp [escapePipes]

theorem escapePipes_other (ch : Char) (cs : Str) (h : ch ≠ '|') :
    escapePipes (ch :: cs) = ch :: escapePipes cs := by
  simp [escapePipes, h]

theorem replaceScan_pipe (c : Str) :
    replaceScan "|".toList "\\|".toList 0 c = escapePipes c := by
  induction c with
  | nil => rfl
  | cons ch cs ih =>
    by_cases h : ch = '|'
    · subst h
      rw [escapePipes_pipe, ← ih]
      simp [replaceScan]
    · rw [escapePipes_other ch cs h, ← ih]
      simp [replaceScan, Ne.symm h]

theorem stringsReplaceAll_pipe (c : Str) :
    stringsReplaceAll c "|".toList "\\|".toList = escapePipes c := by
  unfold stringsReplaceAll
  rw [if_neg (by decide), if_neg (by decide)]
  exact replaceScan_pipe c

theorem escapeCells_map (cells : List Str) : escapeCells cells = cells.map escapePipes := by
  unfold escapeCells
  exact List.map_congr_left (fun c _ => stringsReplaceAll_pipe c)

theorem escapePipes_head (c : Str) (t : Str) : escapePipes c ≠ '|' :: t := by
  cases c with
  | nil => simp [escapePipes]
  | cons ch cs =>
    by_cases h : ch = '|'
    · subst h
      rw [escapePipes_pipe]
      intro h2
      exact absurd (List.cons.inj h2).1 (by decide)
    · rw [escapePipes_other ch cs h]
      intro h2
      exact h (List.cons.inj h2).1

theorem unescape_scan (c : Str) :
    replaceScan "\\|".toList "|".toList 0 (escapePipes c) = c := by
  induction c with
  | nil => rfl
  | cons ch cs ih =>
    by_cases h : ch = '|'
    · subst h
      rw [escapePipes_pipe]
      simp [replaceScan]
      exact ih
    · rw [escapePipes_other ch cs h]
      have hno : List.isPrefixOf "\\|".toList (ch :: escapePipes cs) = false := by
        cases hc : escapePipes cs with
        | nil => simp [List.isPrefixOf]
        | cons x t =>
          have hx : x ≠ '|' := by
            rintro rfl
            exact escapePipes_head cs t hc
          simp [List.isPrefixOf, Ne.symm hx]
      rw [replaceScan, hno, if_neg (by decide), ih]

theorem pipes_preceded (c pre post : Str) (h : escapePipes c = pre ++ '|' :: post) :
    ∃ pre2, pre = pre2 ++ ['\\'] := by
  induction c generalizing pre with
  | nil => simp [escapePipes] at h
  | cons ch cs ih =>
    by_cases hch : ch = '|'
    · subst hch
      rw [escapePipes_pipe] at h
      match pre, h with
      | [], h => exact absurd (List.cons.inj h).1 (by decide)
      | [x], h =>
        have := (List.cons.inj h).1
        exact ⟨[], by simp [← this]⟩
      | x :: y :: pre2, h =>
        have h2 := (List.cons.inj (List.cons.inj h).2).2
        obtain ⟨p, hp⟩ := ih pre2 h2
        exact ⟨x :: y :: p, by simp [hp]⟩
    · rw [escapePipes_other ch cs hch] at h
      match pre, h with
      | [], h => exact absurd (List.cons.inj h).1 hch
      | x :: pre2, h =>
        obtain ⟨p, hp⟩ := ih pre2 (List.cons.inj h).2
        exact ⟨x :: p, by simp [hp]⟩

theorem maxFold_ge (rows : List (List Str)) (m0 : Nat) :
    m0 ≤ rows.foldl (fun m row => if row.length > m then row.length else m) m0
      ∧ ∀ row ∈ rows,
        row.length ≤ rows.foldl (fun m row => if row.length > m then row.length else m) m0 := by
  induction rows generalizing m0 with
  | nil => simp
  | cons r rs ih =>
    rw [List.foldl_cons]
    have h1 := ih (if r.length > m0 then r.length else m0)
    refine ⟨?_, ?_⟩
    · refine le_trans ?_ h1.1
      split <;> omega
    · intro row hrow
      rcases List.mem_cons.mp hrow with rfl | hmem
      · refine le_trans ?_ h1.1
        split <;> omega
      · exact h1.2 row hmem

theorem maxFold_attained (rows : List (List Str)) (m0 : Nat) :
    rows.foldl (fun m row => if row.length > m then row.length else m) m0 = m0
      ∨ ∃ row ∈ rows,
        row.length = rows.foldl (fun m row => if row.length > m then row.length else m) m0 := by
  induction rows generalizing m0 with
  | nil => simp
  | cons r rs ih =>
    rw [List.foldl_cons]
    rcases ih (if r.length > m0 then r.length else m0) with h | ⟨row, hrow, h⟩
    · rw [h]
      by_cases hr : r.length > m0
      · rw [if_pos hr]
        exact Or.inr ⟨r, List.mem_cons_self _ _, rfl⟩
      · rw [if_neg hr]
        exact Or.inl rfl
    · exact Or.inr ⟨row, List.mem_cons_of_mem _ hrow, h⟩

theorem maxFold_eq (rows : List (List Str)) (m : Nat)
    (hle : ∀ row ∈ rows, row.length ≤ m) (hex : ∃ row ∈ rows, row.length = m) :
    rows.foldl (fun m row => if row.length > m then row.length else m) 0 = m := by
  obtain ⟨r, hr, hrm⟩ := hex
  have h1 := (maxFold_ge rows 0).2 r hr
  rcases maxFold_attained rows 0 with h | ⟨row, hrow, h⟩
  · omega
  · have := hle row hrow
    omega

theorem maxFold_zero (rows : List (List Str)) :
    rows.foldl (fun m row => if row.length > m then row.length else m) 0 = 0
      ↔ ∀ row ∈ rows, row.length = 0 := by
  constructor
  · intro h row hrow
    have := (maxFold_ge rows 0).2 row hrow
    omega
  · intro h
    rcases maxFold_attained rows 0 with h0 | ⟨row, hrow, h1⟩
    · exact h0
    · rw [← h1]
      exact h row hrow

theorem foldl_lines (g : List Str → Str) (rest : List (List Str)) (init : Str) :
    rest.foldl (fun sb row => sb ++ g row) init = init ++ (rest.map g).flatten := by
  induction rest generalizing init with
  | nil => simp
  | cons r rs ih =>
    rw [List.foldl_cons, ih]
    simp

theorem padRow_padRight (row : List Str) (m : Nat) (h : row.length ≤ m) :
    padRow row m = padRight row m ∧ (padRight row m).length = m := by
  unfold padRow padRight
  refine ⟨?_, ?_⟩
  · by_cases hge : row.length ≥ m
    · have : row.length = m := by omega
      rw [if_pos hge, ← this]
      simp
    · rw [if_neg hge]
  · rw [List.length_append, List.length_replicate]
    omega

theorem sheetToMarkdown_lines (rows : List (List Str)) (m : Nat) (hm : 0 < m)
    (hle : ∀ row ∈ rows, row.length ≤ m) (hex : ∃ row ∈ rows, row.length = m) :
    sheetToMarkdown rows = (tableLines rows m).flatten := by
  have hmax := maxFold_eq rows m hle hex
  cases rows with
  | nil =>
    obtain ⟨r, hr, _⟩ := hex
    cases hr
  | cons row0 rest =>
    unfold sheetToMarkdown tableLines
    simp only [hmax]
    rw [if_neg (by omega), foldl_lines (fun row => "| ".toList ++ stringsJoin (escapeCells (padRow row m)) " | ".toList ++ " |\n".toList)]
    rw [escapeCells_map, (padRow_padRight row0 m (hle row0 (List.mem_cons_self _ _))).1]
    have hrest : rest.map (fun row => "| ".toList ++ stringsJoin (escapeCells (padRow row m)) " | ".toList ++ " |\n".toList)
        = rest.map (fun row => tableLine ((padRight row m).map escapePipes)) := by
      apply List.map_congr_left
      intro row hrow
      rw [escapeCells_map, (padRow_padRight row m (hle row (List.mem_cons_of_mem _ hrow))).1]
      rfl
    rw [hrest]
    simp [tableLine]

theorem sheetToMarkdown_empty (rows : List (List Str)) :
    sheetToMarkdown rows = [] ↔ rows = [] ∨ ∀ row ∈ rows, row.length = 0 := by
  cases rows with
  | nil => simp [sheetToMarkdown]
  | cons row0 rest =>
    have hz := maxFold_zero (row0 :: rest)
    by_cases h0 : (row0 :: rest).foldl (fun m row => if row.length > m then row.length else m) 0 = 0
    · constructor
      · intro _
        exact Or.inr (hz.mp h0)
      · intro _
        unfold sheetToMarkdown
        simp only [h0]
        rfl
    · constructor
      · intro h
        exfalso
        unfold sheetToMarkdown at h
        simp only [] at h
        rw [if_neg h0, foldl_lines (fun row => "| ".toList ++ stringsJoin (escapeCells (padRow row ((row0 :: rest).foldl (fun m row => if row.length > m then row.length else m) 0))) " | ".toList ++ " |\n".toList)] at h
        simp at h
      · rintro (h | h)
        · cases h
        · exact absurd (hz.mpr h) h0

/-- C24: for every sheet whose maximum row length `m` is positive, `ConvertSheet` returns
the concatenation of `len(rows) + 1` table lines, each `| ` followed by its cells joined
by ` | ` and ` |` with a newline: the first row, the separator line of `m` cells `---`,
then the remaining rows in order; every row is padded on the right with empty cells to
exactly `m` cells, `m` being the maximum over all rows, and `padRow` truncates none. -/
theorem table_shape (rows : List (List Str)) (m : Nat) (hm : 0 < m)
    (hle : ∀ row ∈ rows, row.length ≤ m) (hex : ∃ row ∈ rows, row.length = m) :
    ConvertSheet rows = (tableLines rows m).flatten
      ∧ (tableLines rows m).length = rows.length + 1
      ∧ (∃ row0 rest, rows = row0 :: rest
          ∧ tableLines rows m
            = ("| ".toList ++ stringsJoin (escapeCells (padRow row0 m)) " | ".toList
                ++ " |\n".toList)
              :: ("| ".toList ++ stringsJoin (List.replicate m "---".toList) " | ".toList
                ++ " |\n".toList)
              :: rest.map (fun row =>
                  "| ".toList ++ stringsJoin (escapeCells (padRow row m)) " | ".toList
                    ++ " |\n".toList))
      ∧ (∀ row ∈ rows, padRow row m = row ++ List.replicate (m - row.length) []
          ∧ (padRow row m).length = m ∧ (escapeCells (padRow row m)).length = m) := by
  have hpad : ∀ row ∈ rows, padRow row m = row ++ List.replicate (m - row.length) []
      ∧ (padRow row m).length = m ∧ (escapeCells (padRow row m)).length = m := by
    intro row hrow
    have h := padRow_padRight row m (hle row hrow)
    refine ⟨h.1, ?_, ?_⟩
    · rw [h.1]
      exact h.2
    · rw [escapeCells_map, List.length_map, h.1]
      exact h.2
  refine ⟨sheetToMarkdown_lines rows m hm hle hex, ?_, ?_, hpad⟩
  · cases rows with
    | nil => obtain ⟨r, hr, _⟩ := hex; cases hr
    | cons row0 rest => simp [tableLines]
  · cases rows with
    | nil => obtain ⟨r, hr, _⟩ := hex; cases hr
    | cons row0 rest =>
      refine ⟨row0, rest, rfl, ?_⟩
      unfold tableLines
      simp only []
      rw [escapeCells_map, (padRow_padRight row0 m (hle row0 (List.mem_cons_self _ _))).1]
      congr 2
      apply List.map_congr_left
      intro row hrow
      rw [escapeCells_map, (padRow_padRight row m (hle row (List.mem_cons_of_mem _ hrow))).1]
      rfl

/-- C24, witness: the sheet of the test `ragged rows padded` has maximum row length 3
and is rendered as four lines of three cells. -/
theorem table_shape_witness :
    ConvertSheet raggedRows
        = "| A | B | C |\n| --- | --- | --- |\n| 1 |  |  |\n| x | y |  |\n".toList
      ∧ (tableLines raggedRows 3).length = 4
      ∧ padRow ["1".toList] 3 = ["1".toList, [], []] :=
  have h := table_shape raggedRows 3 (by decide) (by decide)
    ⟨["A".toList, "B".toList, "C".toList], by decide, by decide⟩
  ⟨by decide, h.2.1, by decide⟩

/-- C25: for every cell `c`, the cell rendered by `escapeCells` is `c` with every `|`
replaced by `\|` and every other character unchanged; every `|` of the rendered cell is
immediately preceded by a backslash; and replacing each `\|` by `|` in the rendered cell
gives back `c`. -/
theorem pipe_escaping_lossless (c : Str) :
    escapeCells [c] = [escapePipes c]
      ∧ (∀ cells : List Str, escapeCells cells = cells.map escapePipes)
      ∧ (∀ pre post : Str, escapePipes c = pre ++ '|' :: post → ∃ pre2, pre = pre2 ++ ['\\'])
      ∧ stringsReplaceAll (escapePipes c) "\\|".toList "|".toList = c
      ∧ escapeCells ["a|b".toList] = ["a\\|b".toList]
      ∧ ConvertSheet [["Col".toList], ["a|b".toList]]
        = "| Col |\n| --- |\n| a\\|b |\n".toList := by
  refine ⟨escapeCells_map [c], escapeCells_map, pipes_preceded c, ?_, by decide, by decide⟩
  unfold stringsReplaceAll
  rw [if_neg (by decide), if_neg (by decide)]
  exact unescape_scan c

/-- C26: `ConvertSheet(rows)` is the empty string exactly when `rows` is empty or every
row has zero cells. -/
theorem empty_table_iff (rows : List (List Str)) :
    ConvertSheet rows = [] ↔ rows = [] ∨ ∀ row ∈ rows, row.length = 0 :=
  sheetToMarkdown_empty rows

end Xlsx2md
